import Mathlib

/-!
# GPU node-feature labeler (`cmd/gpu_nfdhook/labeler.go`)

A shallow embedding of the labeler and a verification of its specification.

Modelling conventions.

* A Go `string` is a list of characters (`Str`); `len` is the length of the list.
  The texts this program handles (sysfs and debugfs files, label keys and values) are ASCII,
  where characters and bytes coincide.
* `uint64` values are natural numbers reduced modulo `2^64`; `int` and `int64` values are
  integers wrapped into `[-2^63, 2^63)`.
* The file system, the environment and the two `pluginutils` oracles are the fields of `Host`.
* A Go `map` that the code ranges over is an association list; the order of the list is the
  order of enumeration. The range over `searchStringActionMap`, whose order is not fixed by the
  language, is driven by an explicit `RangeOrder`.
* A run that does not return normally (error return, run-time panic, endless loop) is a
  `Result.fail`.
-/

namespace GpuNfdHook

/-- A Go string: the list of its characters. -/
abbrev Str := List Char

/-! ## Constants of the source -/

def labelNamespace : Str := "gpu.intel.com/".toList
def gpuListLabelName : Str := "cards".toList
def gpuNumListLabelName : Str := "gpu-numbers".toList
def millicoreLabelName : Str := "millicores".toList
def pciGroupLabelName : Str := "pci-groups".toList
def tilesLabelName : Str := "tiles".toList
def numaMappingName : Str := "numa-gpu-map".toList
def millicoresPerGPU : Nat := 1000
def memoryOverrideEnv : Str := "GPU_MEMORY_OVERRIDE".toList
def memoryReservedEnv : Str := "GPU_MEMORY_RESERVED".toList
def pciGroupingEnv : Str := "GPU_PCI_GROUPING_LEVEL".toList
def vendorString : Str := "0x8086".toList
def labelMaxLength : Nat := 63

/-! ## Machine integers -/

/-- Reduction of a natural number to `uint64`. -/
def wrapUint64 (n : Nat) : Nat := n % 2 ^ 64

/-- Reduction of an integer to `int64` (two's complement). -/
def wrapInt64 (z : Int) : Int := (z + 2 ^ 63) % 2 ^ 64 - 2 ^ 63

/-- The conversion `int64(u)` (and `int(u)`) of a `uint64`. -/
def toInt64 (u : Nat) : Int := wrapInt64 (Int.ofNat u)

/-- The `uint64` expression `a*b - c`. -/
def mulSubUint64 (a b c : Nat) : Nat :=
  wrapUint64 (wrapUint64 (a * b) + 2 ^ 64 - wrapUint64 c)

/-! ## Outcomes -/

/-- The ways in which a run ends without a normal return. -/
inductive Failure where
  /-- Error "Can't read sysfs folder". -/
  | readSysfs
  /-- Error "Can't read device folder". -/
  | readDevice
  /-- Error "gpu name parsing error". -/
  | nameParsing
  /-- Run-time panic: index out of range. -/
  | indexOutOfRange
  /-- A loop that never ends. -/
  | diverges
  deriving DecidableEq, Repr

/-- The outcome of a run: a value, or a failure. -/
inductive Result (α : Type) where
  | ok (a : α)
  | fail (f : Failure)
  deriving DecidableEq, Repr

/-- Sequencing of outcomes. -/
def Result.bind {α β : Type} (r : Result α) (f : α → Result β) : Result β :=
  match r with
  | .ok a => f a
  | .fail e => .fail e

/-- The indexing expression `xs[i]` of Go, which panics out of range. -/
def index {α : Type} (xs : List α) (i : Nat) : Result α :=
  match xs.get? i with
  | some x => .ok x
  | none => .fail .indexOutOfRange

/-! ## Library functions used by the source -/

/-- The white space of `unicode.IsSpace` (the same table is used by `fmt` scanning). -/
def isSpace (c : Char) : Bool :=
  let n := c.toNat
  (9 ≤ n && n ≤ 13) || n == 32 || n == 133 || n == 160 || n == 5760 ||
  (8192 ≤ n && n ≤ 8202) || n == 8232 || n == 8233 || n == 8239 || n == 8287 || n == 12288

/-- The function `strings.TrimSpace`. -/
def trimSpace (s : Str) : Str :=
  ((s.dropWhile isSpace).reverse.dropWhile isSpace).reverse

/-- The function `strings.HasPrefix`. -/
def hasPrefix (s pre : Str) : Bool := pre.isPrefixOf s

/-- The function `strings.Join`. -/
def stringsJoin (elems : List Str) (sep : Str) : Str := sep.intercalate elems

/-- The loop of `strings.Split` for a non-empty separator: `cur` is the field being read. -/
def splitFields : Nat → Str → Str → Str → List Str
  | 0, _, cur, _ => [cur]
  | _ + 1, _, cur, [] => [cur]
  | fuel + 1, sep, cur, c :: cs =>
    if sep.isPrefixOf (c :: cs) then
      cur :: splitFields fuel sep [] ((c :: cs).drop sep.length)
    else
      splitFields fuel sep (cur ++ [c]) cs

/-- The function `strings.Split`. -/
def stringsSplit (s sep : Str) : List Str :=
  if sep = [] then s.map (fun c => [c]) else splitFields (s.length + 1) sep [] s

/-- The expression `strings.SplitN(s, ".", 2)[0]`: the part of `s` before its first dot. -/
def beforeFirstDot (s : Str) : Str := s.takeWhile (fun c => c != '.')

/-- The value of a digit or letter in `strconv.ParseUint`. -/
def digitVal (c : Char) : Option Nat :=
  let n := c.toNat
  if 48 ≤ n ∧ n ≤ 57 then some (n - 48)
  else if 97 ≤ n ∧ n ≤ 122 then some (n - 97 + 10)
  else if 65 ≤ n ∧ n ≤ 90 then some (n - 65 + 10)
  else none

/-- The digit loop of `strconv.ParseUint` for 64 bits: `none` is a syntax or range error. -/
def parseDigits (base : Nat) (base0 : Bool) : Str → Nat → Option Nat
  | [], n => some n
  | c :: cs, n =>
    if c = '_' ∧ base0 = true then parseDigits base base0 cs n
    else
      match digitVal c with
      | none => none
      | some d =>
        if base ≤ d then none
        else if 2 ^ 64 ≤ n * base + d then none
        else parseDigits base base0 cs (n * base + d)

/-- The scan of `strconv.underscoreOK` after the sign and base prefix: `saw` is the class of the
last character (`'^'`, `'0'`, `'_'` or `'!'`). -/
def underscoreScan (hex : Bool) : Str → Char → Bool
  | [], saw => saw != '_'
  | c :: cs, saw =>
    let n := c.toNat
    if (48 ≤ n ∧ n ≤ 57) ∨ (hex = true ∧ ((97 ≤ n ∧ n ≤ 102) ∨ (65 ≤ n ∧ n ≤ 70))) then
      underscoreScan hex cs '0'
    else if c = '_' then
      if saw != '0' then false else underscoreScan hex cs '_'
    else if saw = '_' then false
    else underscoreScan hex cs '!'

/-- The function `strconv.underscoreOK`. -/
def underscoreOK (s : Str) : Bool :=
  let s :=
    match s with
    | c :: cs => if c = '-' ∨ c = '+' then cs else s
    | [] => s
  match s with
  | '0' :: c :: cs =>
    if c = 'b' ∨ c = 'B' ∨ c = 'o' ∨ c = 'O' ∨ c = 'x' ∨ c = 'X' then
      underscoreScan (c = 'x' ∨ c = 'X') cs '0'
    else underscoreScan false s '^'
  | _ => underscoreScan false s '^'

/-- The call `strconv.ParseUint(s, 10, 64)`; `none` is an error. -/
def parseUint10 (s : Str) : Option Nat :=
  if s = [] then none else parseDigits 10 false s 0

/-- The call `strconv.ParseUint(s, 0, 64)`: the base is taken from the text's own opening
(`0b`, `0o`, `0x`, `0`), and underscores may separate digits; `none` is an error. -/
def parseUint0 (s : Str) : Option Nat :=
  match s with
  | [] => none
  | '0' :: rest =>
    let r : Option Nat :=
      match rest with
      | c :: d :: cs =>
        if c = 'b' ∨ c = 'B' then parseDigits 2 true (d :: cs) 0
        else if c = 'o' ∨ c = 'O' then parseDigits 8 true (d :: cs) 0
        else if c = 'x' ∨ c = 'X' then parseDigits 16 true (d :: cs) 0
        else parseDigits 8 true rest 0
      | _ => parseDigits 8 true rest 0
    if s.contains '_' && !underscoreOK s then none else r
  | _ =>
    if s.contains '_' && !underscoreOK s then none else parseDigits 10 true s 0

/-- The call `strconv.ParseInt(s, 10, 64)`; `none` is an error. -/
def parseInt10 (s : Str) : Option Int :=
  match s with
  | [] => none
  | c :: cs =>
    let neg : Bool := c = '-'
    let body : Str := if c = '+' ∨ c = '-' then cs else s
    match parseUint10 body with
    | none => none
    | some un =>
      if neg = false ∧ 2 ^ 63 ≤ un then none
      else if neg = true ∧ 2 ^ 63 < un then none
      else some (if neg then -(Int.ofNat un) else Int.ofNat un)

/-- The call `strconv.FormatInt(v, 10)`. -/
def formatInt (v : Int) : Str :=
  if v < 0 then '-' :: Nat.toDigits 10 v.natAbs else Nat.toDigits 10 v.natAbs

/-- The method `SkipSpace` of a `fmt` scan state that does not take a newline for a space:
`none` is the error "unexpected newline". -/
def skipSpace : Str → Option Str
  | [] => some []
  | c :: cs =>
    if c = '\n' then none
    else if isSpace c then skipSpace cs
    else some (c :: cs)

/-- A decimal digit. -/
def isDigit (c : Char) : Bool := 48 ≤ c.toNat && c.toNat ≤ 57

/-- The call `fmt.Sscanf(s, "%d", &value)` for an `int64`: the value stored, `none` when the scan
fails and stores nothing. -/
def sscanfInt (s : Str) : Option Int :=
  match skipSpace s with
  | none => none
  | some [] => none
  | some (c :: cs) =>
    let sign : Str := if c = '+' ∨ c = '-' then [c] else []
    let rest : Str := if c = '+' ∨ c = '-' then cs else c :: cs
    let digits := rest.takeWhile isDigit
    if digits = [] then none else parseInt10 (sign ++ digits)

/-- The call `fmt.Sscanf(gpuName, "card%s", &gpuNum)`: the word stored, `none` on error. -/
def sscanfCard (gpuName : Str) : Option Str :=
  if hasPrefix gpuName "card".toList then
    match skipSpace (gpuName.drop 4) with
    | none => none
    | some [] => none
    | some rest => some (rest.takeWhile (fun c => !isSpace c))
  else none

/-- The order of `sort.Strings`: byte-wise lexicographic. -/
def strLe : Str → Str → Bool
  | [], _ => true
  | _ :: _, [] => false
  | a :: as, b :: bs =>
    if a.toNat < b.toNat then true
    else if b.toNat < a.toNat then false
    else strLe as bs

/-- The function `sort.Strings`. -/
def sortStrings (keys : List Str) : List Str :=
  keys.insertionSort (fun a b => strLe a b = true)

/-- The function `sort.Ints`. -/
def sortInts (keys : List Int) : List Int :=
  keys.insertionSort (fun a b => a ≤ b)

/-! ## The label map -/

/-- The type `labelMap`: label keys with their values. -/
abbrev LabelMap := List (Str × Str)

/-- The lookup `lm[key]` with its presence flag. -/
def LabelMap.get : LabelMap → Str → Option Str
  | [], _ => none
  | (k, v) :: rest, key => if k = key then some v else LabelMap.get rest key

/-- The assignment `lm[key] = value`. -/
def LabelMap.set : LabelMap → Str → Str → LabelMap
  | [], key, value => [(key, value)]
  | (k, v) :: rest, key, value =>
    if k = key then (k, value) :: rest else (k, v) :: LabelMap.set rest key value

/-- A map from group keys to device lists, as built by `append` on `m[key]`. -/
abbrev Grouping (κ : Type) := List (κ × List Str)

/-- The lookup `m[key]` of a grouping: the empty list when the key is absent. -/
def Grouping.get {κ : Type} [DecidableEq κ] : Grouping κ → κ → List Str
  | [], _ => []
  | (k, v) :: rest, key => if k = key then v else Grouping.get rest key

/-- The statement `m[key] = append(m[key], item)`. -/
def Grouping.append {κ : Type} [DecidableEq κ] : Grouping κ → κ → Str → Grouping κ
  | [], key, item => [(key, [item])]
  | (k, v) :: rest, key, item =>
    if k = key then (k, v ++ [item]) :: rest else (k, v) :: Grouping.append rest key item

/-! ## The host -/

/-- The keys of `searchStringActionMap`. -/
inductive CapKey where
  | platform
  | media
  | graphics
  | gen
  deriving DecidableEq, Repr

/-- The order in which a `range` over `searchStringActionMap` visits the remaining keys; it may
differ from device to device and from line to line. -/
structure RangeOrder where
  visit : Str → Nat → List CapKey → List CapKey
  perm : ∀ (gpuNum : Str) (line : Nat) (keys : List CapKey), (visit gpuNum line keys).Perm keys

/-- What the labeler reads: sysfs under `sysfsDRMDir`, debugfs under `debugfsDRIDir`, the
environment, and the oracles of `pluginutils`. Files are addressed by the device name (or, for
the capability file, by the device number) that forms their path. -/
structure Host where
  /-- The names listed by `os.ReadDir(sysfsDRMDir)`, in order; `none` on error. -/
  readDir : Option (List Str)
  /-- The content of `<name>/device/vendor`; `none` on error. -/
  readVendor : Str → Option Str
  /-- The oracle `pluginutils.IsSriovPFwithVFs`. -/
  isSriovPFwithVFs : Str → Bool
  /-- Whether `os.ReadDir(<name>/device/drm)` succeeds. -/
  drmReadable : Str → Bool
  /-- The count returned by `pluginutils.GpuFatalErrors`. -/
  gpuFatalErrors : Str → Nat
  /-- The number of matches of `<name>/gt/gt*`. -/
  globTiles : Str → Nat
  /-- The content of `<name>/lmem_total_bytes`; `none` on error. -/
  readLmemTotal : Str → Option Str
  /-- The content of `<name>/device/numa_node`; `none` on error. -/
  readNumaNode : Str → Option Str
  /-- The result of `filepath.EvalSymlinks` on the entry of that name; `none` on error. -/
  evalSymlinks : Str → Option Str
  /-- The lines of `<gpuNum>/i915_capabilities` as a `bufio.Scanner` yields them; `none` when
  the file cannot be opened. -/
  capabilities : Str → Option (List Str)
  /-- The function `os.Getenv`. -/
  getenv : Str → Str

/-! ## The functions of the source -/

/-- The pattern `^card[0-9]+$` of `gpuDeviceReg`. -/
def gpuDeviceMatch (name : Str) : Bool :=
  hasPrefix name "card".toList && !(name.drop 4).isEmpty && (name.drop 4).all isDigit

/-- The loop of `getPCIPathParts` over the path's parts. -/
def pciPathLoop : List Str → Bool → Str → Str → Nat → Str
  | [], _, _, _, _ => []
  | part :: rest, foundPci, subPath, separator, numFolders =>
    let foundPci := foundPci || hasPrefix part "pci".toList
    let take : Bool := foundPci && decide (0 < numFolders)
    let subPath := if take then subPath ++ separator ++ part else subPath
    let separator := if take then "/".toList else separator
    let numFolders := if take then numFolders - 1 else numFolders
    if numFolders = 0 then subPath
    else pciPathLoop rest foundPci subPath separator numFolders

/-- The function `getPCIPathParts`. -/
def getPCIPathParts (numFolders : Nat) (fullPath : Str) : Str :=
  let parts := stringsSplit fullPath "/".toList
  if parts.length = 1 then []
  else pciPathLoop parts false [] [] numFolders

/-- The loop of `scan` over the directory entries: the list collected, with the error if any. -/
def scanLoop (h : Host) : List Str → List Str → List Str × Option Failure
  | [], gpuNameList => (gpuNameList, none)
  | name :: files, gpuNameList =>
    if !gpuDeviceMatch name then scanLoop h files gpuNameList
    else
      match h.readVendor name with
      | none => scanLoop h files gpuNameList
      | some dat =>
        if trimSpace dat ≠ vendorString then scanLoop h files gpuNameList
        else if h.isSriovPFwithVFs name then scanLoop h files gpuNameList
        else if !h.drmReadable name then (gpuNameList, some .readDevice)
        else if h.gpuFatalErrors name ≠ 0 then scanLoop h files gpuNameList
        else scanLoop h files (gpuNameList ++ [name])

/-- The method `scan`: the list returned, with the error if any. -/
def scan (h : Host) : List Str × Option Failure :=
  match h.readDir with
  | none => ([], some .readSysfs)
  | some files => scanLoop h files []

/-- The function `getEnvVarNumber`. -/
def getEnvVarNumber (h : Host) (envVarName : Str) : Nat :=
  let envValue := h.getenv envVarName
  if envValue ≠ [] then
    match parseUint10 envValue with
    | some val => val
    | none => 0
  else 0

/-- The function `fallback`. -/
def fallback (h : Host) : Nat := getEnvVarNumber h memoryOverrideEnv

/-- The method `getMemoryAmount`. -/
def getMemoryAmount (h : Host) (gpuName : Str) (numTiles : Nat) : Nat :=
  let reserved := getEnvVarNumber h memoryReservedEnv
  match h.readLmemTotal gpuName with
  | none => fallback h
  | some dat =>
    match parseUint0 (trimSpace dat) with
    | none => fallback h
    | some totalPerTile => mulSubUint64 totalPerTile numTiles reserved

/-- The method `getTileCount`. -/
def getTileCount (h : Host) (gpuName : Str) : Nat :=
  if h.globTiles gpuName = 0 then 1 else wrapUint64 (h.globTiles gpuName)

/-- The method `getNumaNode`. -/
def getNumaNode (h : Host) (gpuName : Str) : Int :=
  match h.readNumaNode gpuName with
  | none => -1
  | some data =>
    match parseInt10 (trimSpace data) with
    | none => -1
    | some numa => numa

/-- The method `addNumericLabel`. -/
def addNumericLabel (lm : LabelMap) (labelName : Str) (valueToAdd : Int) : LabelMap :=
  let value : Int :=
    match lm.get labelName with
    | some numstr => (sscanfInt numstr).getD 0
    | none => 0
  lm.set labelName (formatInt (wrapInt64 (value + valueToAdd)))

/-- The search string of a key of `searchStringActionMap`. -/
def CapKey.searchString : CapKey → Str
  | .platform => "platform:".toList
  | .media => "media version:".toList
  | .graphics => "graphics version:".toList
  | .gen => "gen:".toList

/-- The variables of `createCapabilityLabels`: the label map, the three captured strings and
the keys left in `searchStringActionMap`. -/
structure CapState where
  labels : LabelMap
  gen : Str
  media : Str
  graphics : Str
  pending : List CapKey
  deriving DecidableEq, Repr

/-- The action bound to a key of `searchStringActionMap`, applied to a value. -/
def capAction (numTiles : Nat) (key : CapKey) (value : Str) (st : CapState) : CapState :=
  match key with
  | .platform =>
    let labels := addNumericLabel st.labels
      (labelNamespace ++ "platform_".toList ++ value ++ ".count".toList) 1
    let labels := labels.set
      (labelNamespace ++ "platform_".toList ++ value ++ ".tiles".toList)
      (formatInt (toInt64 numTiles))
    let labels := labels.set
      (labelNamespace ++ "platform_".toList ++ value ++ ".present".toList) "true".toList
    { st with labels := labels }
  | .media =>
    { st with labels := st.labels.set (labelNamespace ++ "media_version".toList) value,
              media := value }
  | .graphics =>
    { st with labels := st.labels.set (labelNamespace ++ "graphics_version".toList) value,
              graphics := value }
  | .gen =>
    { st with labels := st.labels.set (labelNamespace ++ "platform_gen".toList) value,
              gen := value }

/-- The body of the `scanning` loop for one line: the new state, and whether the loop is left
(`break scanning`). -/
def capLine (visit : List CapKey → List CapKey) (numTiles : Nat) (line : Str) (st : CapState) :
    CapState × Bool :=
  match (visit st.pending).find? (fun key => hasPrefix line key.searchString) with
  | none => (st, false)
  | some key =>
    let st1 :=
      match stringsSplit line ": ".toList with
      | [_, value] => capAction numTiles key value st
      | _ => st
    let st2 := { st1 with pending := st1.pending.erase key }
    (st2, decide (st2.pending.length = 0))

/-- The `scanning` loop over the lines of the capability file; `i` numbers the line. -/
def capScan (ord : RangeOrder) (gpuNum : Str) (numTiles : Nat) :
    Nat → List Str → CapState → CapState
  | _, [], st => st
  | i, line :: rest, st =>
    match capLine (ord.visit gpuNum i) numTiles line st with
    | (st1, true) => st1
    | (st1, false) => capScan ord gpuNum numTiles (i + 1) rest st1

/-- The statements of `createCapabilityLabels` after the `scanning` loop. -/
def capDerive (st : CapState) : LabelMap :=
  if st.gen = [] then
    let gen := if st.graphics ≠ [] then st.graphics else if st.media ≠ [] then st.media else st.gen
    if gen ≠ [] then
      st.labels.set (labelNamespace ++ "platform_gen".toList) (beforeFirstDot gen)
    else st.labels
  else if st.media = [] ∧ st.graphics = [] then
    (st.labels.set (labelNamespace ++ "media_version".toList) st.gen).set
      (labelNamespace ++ "graphics_version".toList) st.gen
  else st.labels

/-- The method `createCapabilityLabels`. -/
def createCapabilityLabels (h : Host) (ord : RangeOrder) (labels : LabelMap) (gpuNum : Str)
    (numTiles : Nat) : LabelMap :=
  match h.capabilities gpuNum with
  | none => labels
  | some lines =>
    capDerive (capScan ord gpuNum numTiles 0 lines
      { labels := labels, gen := [], media := [], graphics := [],
        pending := [.platform, .media, .graphics, .gen] })

/-- The first loop of `createPCIGroupLabel`: the devices bucketed by PCI path part. -/
def pciGroupsOf (h : Host) (pciGroupLevel : Nat) : List Str → Grouping Str → Grouping Str
  | [], pciGroups => pciGroups
  | gpuNum :: rest, pciGroups =>
    match h.evalSymlinks ("card".toList ++ gpuNum) with
    | none => pciGroupsOf h pciGroupLevel rest pciGroups
    | some symLinkTarget =>
      let pathPart := getPCIPathParts pciGroupLevel symLinkTarget
      if pathPart ≠ [] then pciGroupsOf h pciGroupLevel rest (pciGroups.append pathPart gpuNum)
      else pciGroupsOf h pciGroupLevel rest pciGroups

/-- The last loop of `createPCIGroupLabel`: the groups of the sorted keys, joined. -/
def pciJoinLoop (pciGroups : Grouping Str) : List Str → Str → Str → Str
  | [], labelValue, _ => labelValue
  | key :: keys, labelValue, separator =>
    pciJoinLoop pciGroups keys
      (labelValue ++ separator ++ stringsJoin (pciGroups.get key) ".".toList) "_".toList

/-- The method `createPCIGroupLabel`. -/
def createPCIGroupLabel (h : Host) (gpuNumList : List Str) : Str :=
  let pciGroupLevel := getEnvVarNumber h pciGroupingEnv
  if pciGroupLevel = 0 then []
  else
    let pciGroups := pciGroupsOf h pciGroupLevel gpuNumList []
    let keys := sortStrings (pciGroups.map Prod.fst)
    pciJoinLoop pciGroups keys [] []

/-- The loop of `split`; `none` when the fuel runs out before the loop returns. -/
def splitLoop : Nat → Str → Nat → List Str → Option (List Str)
  | 0, _, _, _ => none
  | fuel + 1, remainingString, maxLength, results =>
    if remainingString.length ≤ maxLength then some (results ++ [remainingString])
    else
      splitLoop fuel (remainingString.drop maxLength) maxLength
        (results ++ [remainingString.take maxLength])

/-- The function `split`, run for at most `len(str) + 1` rounds of its loop (enough whenever
`maxLength` is positive); `none` when the loop has not returned by then. -/
def split (str : Str) (maxLength : Nat) : Option (List Str) :=
  splitLoop (str.length + 1) str maxLength []

/-- The function `createNumaNodeMappingLabel`. -/
def createNumaNodeMappingLabel (mapping : Grouping Int) : Str :=
  let numas := sortInts (mapping.map Prod.fst)
  let parts := numas.map (fun numaNode =>
    formatInt numaNode ++ "-".toList ++ stringsJoin (mapping.get numaNode) ".".toList)
  stringsJoin parts "_".toList

/-- The key of the chunk of index `i`: the bare key for the first chunk, then the key followed
by `strconv.FormatInt(int64(i+1), 10)`. The index `i` is below the length of a slice, so `i+1`
is within `int64`. -/
def chunkKey (name : Str) (i : Nat) : Str :=
  if i = 0 then labelNamespace ++ name
  else labelNamespace ++ name ++ formatInt (Int.ofNat (i + 1))

/-- The loop `for i := 1; i < bound; i++ { labels[key+FormatInt(i+1)] = chunks[i] }` of
`createLabels`, from index `i` on; `todo` counts the rounds left. -/
def storeRest (name : Str) (chunks : List Str) : Nat → Nat → LabelMap → Result LabelMap
  | 0, _, labels => .ok labels
  | todo + 1, i, labels =>
    (index chunks i).bind (fun chunk =>
      storeRest name chunks todo (i + 1) (labels.set (chunkKey name i) chunk))

/-- The statements of `createLabels` that store a chunked label: `chunks[0]` under the bare key,
then the loop up to `bound`. -/
def storeChunks (name : Str) (chunks : List Str) (bound : Nat) (labels : LabelMap) :
    Result LabelMap :=
  (index chunks 0).bind (fun first =>
    storeRest name chunks (bound - 1) 1 (labels.set (labelNamespace ++ name) first))

/-- The variables of the device loop of `createLabels`. -/
structure LoopState where
  gpuNumList : List Str
  tileCount : Int
  numaMapping : Grouping Int
  labels : LabelMap
  deriving DecidableEq, Repr

/-- The body of the device loop of `createLabels`. -/
def deviceStep (h : Host) (ord : RangeOrder) (gpuName : Str) (st : LoopState) :
    Result LoopState :=
  match sscanfCard gpuName with
  | none => .fail .nameParsing
  | some gpuNum =>
    let numTiles := getTileCount h gpuName
    let tileCount := wrapInt64 (st.tileCount + toInt64 numTiles)
    let memoryAmount := getMemoryAmount h gpuName numTiles
    let gpuNumList := st.gpuNumList ++ [gpuName.drop 4]
    let numaNode := getNumaNode h gpuName
    let numaMapping :=
      if 0 ≤ numaNode then st.numaMapping.append numaNode gpuNum else st.numaMapping
    let labels := createCapabilityLabels h ord st.labels gpuNum numTiles
    let labels := addNumericLabel labels (labelNamespace ++ "memory.max".toList)
      (toInt64 memoryAmount)
    .ok { gpuNumList := gpuNumList, tileCount := tileCount, numaMapping := numaMapping,
          labels := labels }

/-- The device loop of `createLabels`. -/
def deviceLoop (h : Host) (ord : RangeOrder) : List Str → LoopState → Result LoopState
  | [], st => .ok st
  | gpuName :: rest, st => (deviceStep h ord gpuName st).bind (deviceLoop h ord rest)

/-- The call of `split` with its result, or the failure of a loop that does not return. -/
def splitResult (str : Str) (maxLength : Nat) : Result (List Str) :=
  match split str maxLength with
  | some chunks => .ok chunks
  | none => .fail .diverges

/-- The statements of `createLabels` after the device loop. -/
def finishLabels (h : Host) (gpuNameList : List Str) (st : LoopState) : Result LabelMap :=
  let gpuCount := st.gpuNumList.length
  let labels := addNumericLabel st.labels (labelNamespace ++ tilesLabelName) st.tileCount
  if 0 < gpuCount then
    (splitResult (stringsJoin gpuNameList ".".toList) labelMaxLength).bind fun cards =>
    (index cards 0).bind fun cards0 =>
    let labels := labels.set (labelNamespace ++ gpuListLabelName) cards0
    let allGPUs := stringsJoin st.gpuNumList ".".toList
    (splitResult allGPUs labelMaxLength).bind fun gpuNumLists =>
    (storeChunks gpuNumListLabelName gpuNumLists gpuNumLists.length labels).bind fun labels =>
    (if 0 < st.numaMapping.length then
      let numaMappingLabel := createNumaNodeMappingLabel st.numaMapping
      (splitResult numaMappingLabel labelMaxLength).bind fun numaMappingLabelList =>
      storeChunks numaMappingName numaMappingLabelList numaMappingLabelList.length labels
     else .ok labels).bind fun labels =>
    let labels := addNumericLabel labels (labelNamespace ++ millicoreLabelName)
      (wrapInt64 (Int.ofNat (millicoresPerGPU * gpuCount)))
    let allPCIGroups := createPCIGroupLabel h st.gpuNumList
    if allPCIGroups ≠ [] then
      (splitResult allPCIGroups labelMaxLength).bind fun pciGroups =>
      storeChunks pciGroupLabelName pciGroups gpuNumLists.length labels
    else .ok labels
  else .ok labels

/-- The method `createLabels`, run on a labeler whose label map is `labels`: the label map
after the call, or the failure. -/
def createLabels (h : Host) (ord : RangeOrder) (labels : LabelMap) : Result LabelMap :=
  match scan h with
  | (_, some err) => .fail err
  | (gpuNameList, none) =>
    (deviceLoop h ord gpuNameList
      { gpuNumList := [], tileCount := 0, numaMapping := [], labels := labels }).bind
      (finishLabels h gpuNameList)

/-- The label map of `newLabeler`. -/
def newLabels : LabelMap := []

/-- The range order that visits the keys in the order of the source text. -/
def sourceOrder : RangeOrder := ⟨fun _ _ keys => keys, fun _ _ keys => List.Perm.refl keys⟩

/-! ## Notions used in the statements -/

/-- The three characters of a label key that follow the label namespace; the label families of
the source differ in them. -/
def keyTag (key : Str) : Str := (key.drop 14).take 3

/-- The value of a capability line: its second field, when `": "` splits the line into exactly
two fields (the test `len(fields) == 2` of the source). -/
def lineValue (line : Str) : Option Str :=
  match stringsSplit line ": ".toList with
  | [_, value] => some value
  | _ => none

/-- The value that a capability file reports for a key: the value of the first line that begins
with the key's search string, when that line has one. -/
def reported (key : CapKey) (lines : List Str) : Option Str :=
  (lines.find? (fun line => hasPrefix line key.searchString)).bind lineValue

/-- A line that begins with one of the four search strings. -/
def recognized (line : Str) : Bool :=
  [CapKey.platform, CapKey.media, CapKey.graphics, CapKey.gen].any
    (fun key => hasPrefix line key.searchString)

/-- The state after the action of `key` on `line`: the action is applied to the line's value,
when the line has one. -/
def capApply (numTiles : Nat) (key : CapKey) (line : Str) (st : CapState) : CapState :=
  match lineValue line with
  | some value => capAction numTiles key value st
  | none => st

/-- The label keys that the action of a key writes for a value. -/
def capWrites (key : CapKey) (value : Str) : List Str :=
  match key with
  | .platform =>
    [labelNamespace ++ "platform_".toList ++ value ++ ".count".toList,
     labelNamespace ++ "platform_".toList ++ value ++ ".tiles".toList,
     labelNamespace ++ "platform_".toList ++ value ++ ".present".toList]
  | .media => [labelNamespace ++ "media_version".toList]
  | .graphics => [labelNamespace ++ "graphics_version".toList]
  | .gen => [labelNamespace ++ "platform_gen".toList]

/-- The state in which `createCapabilityLabels` enters its `scanning` loop. -/
def capInit (labels : LabelMap) : CapState :=
  { labels := labels, gen := [], media := [], graphics := [],
    pending := [.platform, .media, .graphics, .gen] }

/-- The label keys whose values `createCapabilityLabels` copies from the capability file. -/
def capValueKeys : List Str :=
  [labelNamespace ++ "platform_gen".toList, labelNamespace ++ "media_version".toList,
   labelNamespace ++ "graphics_version".toList]

/-- Every value of the label map is at most `labelMaxLength` long, except possibly the values of
the keys in `capValueKeys`. -/
def Bounded (lm : LabelMap) : Prop :=
  ∀ key value, lm.get key = some value →
    value.length ≤ labelMaxLength ∨ key ∈ capValueKeys

/-- The tags of the keys that the device loop of `createLabels` writes. -/
def deviceTags : List Str := ["pla".toList, "med".toList, "gra".toList, "mem".toList]

/-- The tags of the keys that the statements after the device loop write. -/
def finishTags : List Str :=
  ["til".toList, "car".toList, "gpu".toList, "num".toList, "mil".toList, "pci".toList]

/-- The value of a completed run, if any. -/
def Result.toOption {α : Type} : Result α → Option α
  | .ok a => some a
  | .fail _ => none

/-! ## Example hosts -/

/-- A host with the `n` devices `card0` … `card<n-1>`, all accepted, one tile each, without
capability, memory and NUMA files; PCI grouping is off. -/
def plainHost (n : Nat) : Host where
  readDir := some ((List.range n).map (fun i => "card".toList ++ Nat.toDigits 10 i))
  readVendor := fun _ => some "0x8086\n".toList
  isSriovPFwithVFs := fun _ => false
  drmReadable := fun _ => true
  gpuFatalErrors := fun _ => 0
  globTiles := fun _ => 0
  readLmemTotal := fun _ => none
  readNumaNode := fun _ => none
  evalSymlinks := fun _ => none
  capabilities := fun _ => none
  getenv := fun _ => []

/-- The label map that `createLabels` produces on `plainHost 11`. -/
def plainLabels11 : LabelMap :=
  [("gpu.intel.com/memory.max".toList, "0".toList),
   ("gpu.intel.com/tiles".toList, "11".toList),
   ("gpu.intel.com/cards".toList,
    "card0.card1.card2.card3.card4.card5.card6.card7.card8.card9.car".toList),
   ("gpu.intel.com/gpu-numbers".toList, "0.1.2.3.4.5.6.7.8.9.10".toList),
   ("gpu.intel.com/millicores".toList, "11000".toList)]

/-- The label map that `createLabels` produces on `plainHost 25`. -/
def plainLabels25 : LabelMap :=
  [("gpu.intel.com/memory.max".toList, "0".toList),
   ("gpu.intel.com/tiles".toList, "25".toList),
   ("gpu.intel.com/cards".toList,
    "card0.card1.card2.card3.card4.card5.card6.card7.card8.card9.car".toList),
   ("gpu.intel.com/gpu-numbers".toList,
    "0.1.2.3.4.5.6.7.8.9.10.11.12.13.14.15.16.17.18.19.20.21.22.23.2".toList),
   ("gpu.intel.com/gpu-numbers2".toList, "4".toList),
   ("gpu.intel.com/millicores".toList, "25000".toList)]

/-- A host with the 25 devices `card0` … `card24`, all accepted, without capability and memory
files; PCI grouping is on at level 1 and only the link of `card0` resolves. -/
def pciHost : Host where
  readDir := some ((List.range 25).map (fun i => "card".toList ++ Nat.toDigits 10 i))
  readVendor := fun _ => some "0x8086\n".toList
  isSriovPFwithVFs := fun _ => false
  drmReadable := fun _ => true
  gpuFatalErrors := fun _ => 0
  globTiles := fun _ => 0
  readLmemTotal := fun _ => none
  readNumaNode := fun _ => none
  evalSymlinks := fun name =>
    if name = "card0".toList then some "/sys/devices/pci0000:00/0000:00:02.0/drm/card0".toList
    else none
  capabilities := fun _ => none
  getenv := fun name => if name = pciGroupingEnv then "1".toList else []

/-- A host with the single accepted device `card0`, one tile, no memory file, no NUMA node,
PCI grouping off, whose capability file has the given lines. -/
def capHost (lines : List Str) : Host where
  readDir := some ["card0".toList]
  readVendor := fun _ => some "0x8086\n".toList
  isSriovPFwithVFs := fun _ => false
  drmReadable := fun _ => true
  gpuFatalErrors := fun _ => 0
  globTiles := fun _ => 0
  readLmemTotal := fun _ => none
  readNumaNode := fun _ => none
  evalSymlinks := fun _ => none
  capabilities := fun gpuNum => if gpuNum = "0".toList then some lines else none
  getenv := fun _ => []

/-- The capability line `gen: ` followed by 64 digits. -/
def longGenLine : Str := "gen: ".toList ++ List.replicate 64 '1'

/-- The label map that `createLabels` produces on `capHost [longGenLine]`. -/
def longGenLabels : LabelMap :=
  [("gpu.intel.com/platform_gen".toList, List.replicate 64 '1'),
   ("gpu.intel.com/media_version".toList, List.replicate 64 '1'),
   ("gpu.intel.com/graphics_version".toList, List.replicate 64 '1'),
   ("gpu.intel.com/memory.max".toList, "0".toList),
   ("gpu.intel.com/tiles".toList, "1".toList),
   ("gpu.intel.com/cards".toList, "card0".toList),
   ("gpu.intel.com/gpu-numbers".toList, "0".toList),
   ("gpu.intel.com/millicores".toList, "1000".toList)]

/-- A host with the accepted devices `card0` (two tiles) and `card1` (one tile), whose
capability files both report the platform `DG1`. -/
def twoTileHost : Host where
  readDir := some ["card0".toList, "card1".toList]
  readVendor := fun _ => some "0x8086\n".toList
  isSriovPFwithVFs := fun _ => false
  drmReadable := fun _ => true
  gpuFatalErrors := fun _ => 0
  globTiles := fun name => if name = "card0".toList then 2 else 0
  readLmemTotal := fun _ => none
  readNumaNode := fun _ => none
  evalSymlinks := fun _ => none
  capabilities := fun _ => some ["platform: DG1".toList]
  getenv := fun _ => []

/-- The label map that `createLabels` produces on `twoTileHost`. -/
def twoTileLabels : LabelMap :=
  [("gpu.intel.com/platform_DG1.count".toList, "2".toList),
   ("gpu.intel.com/platform_DG1.tiles".toList, "1".toList),
   ("gpu.intel.com/platform_DG1.present".toList, "true".toList),
   ("gpu.intel.com/memory.max".toList, "0".toList),
   ("gpu.intel.com/tiles".toList, "3".toList),
   ("gpu.intel.com/cards".toList, "card0.card1".toList),
   ("gpu.intel.com/gpu-numbers".toList, "0.1".toList),
   ("gpu.intel.com/millicores".toList, "2000".toList)]

/-- The range order that visits the keys in the reverse of the order of the source text. -/
def reverseOrder : RangeOrder :=
  ⟨fun _ _ keys => keys.reverse, fun _ _ keys => List.reverse_perm keys⟩

/-- A host with the single accepted device `card0`, one tile, whose memory file reads
`1073741824`, with the given value of `GPU_MEMORY_RESERVED`; no capability file, no NUMA node,
PCI grouping off. -/
def memoryHost (reserved : Str) : Host where
  readDir := some ["card0".toList]
  readVendor := fun _ => some "0x8086\n".toList
  isSriovPFwithVFs := fun _ => false
  drmReadable := fun _ => true
  gpuFatalErrors := fun _ => 0
  globTiles := fun _ => 0
  readLmemTotal := fun _ => some "1073741824".toList
  readNumaNode := fun _ => none
  evalSymlinks := fun _ => none
  capabilities := fun _ => none
  getenv := fun name => if name = memoryReservedEnv then reserved else []

/-- The calls `lm.addNumericLabel(labelName, x)` for the contributions `x` in order. -/
def addAll (lm : LabelMap) (labelName : Str) (contributions : List Int) : LabelMap :=
  contributions.foldl (fun m x => addNumericLabel m labelName x) lm

/-- The vendor check of `scan`: the vendor file of the entry is readable and its trimmed content
is `vendorString`. -/
def vendorMatches (h : Host) (name : Str) : Bool :=
  match h.readVendor name with
  | some dat => decide (trimSpace dat = vendorString)
  | none => false

/-- The entries that `scan` takes for Intel GPUs before it reads their DRM directory: the name
matches, the vendor check passes, and the entry is no SR-IOV PF with VFs. -/
def candidate (h : Host) (name : Str) : Bool :=
  gpuDeviceMatch name && vendorMatches h name && !h.isSriovPFwithVFs name

/-- The entries that pass the name, vendor, SR-IOV and fatal-error checks of `scan`. -/
def accepted (h : Host) (name : Str) : Bool :=
  candidate h name && decide (h.gpuFatalErrors name = 0)

/-- The directory entries of `mixedHost`. -/
def mixedFiles : List Str :=
  ["card0".toList, "card1".toList, "renderD128".toList, "card2".toList, "card3".toList,
   "card4".toList, "card5".toList]

/-- A host whose directory lists `card0` (accepted), `card1` (vendor `0x10de`), `renderD128`,
`card2` (one fatal error), `card3` (an SR-IOV PF with VFs), `card4` (vendor file unreadable)
and `card5` (accepted); no capability or memory files, PCI grouping off. -/
def mixedHost : Host where
  readDir := some mixedFiles
  readVendor := fun name =>
    if name = "card1".toList then some "0x10de\n".toList
    else if name = "card4".toList then none
    else some "0x8086\n".toList
  isSriovPFwithVFs := fun name => name = "card3".toList
  drmReadable := fun _ => true
  gpuFatalErrors := fun name => if name = "card2".toList then 1 else 0
  globTiles := fun _ => 0
  readLmemTotal := fun _ => none
  readNumaNode := fun _ => none
  evalSymlinks := fun _ => none
  capabilities := fun _ => none
  getenv := fun _ => []

/-! ## The label map of the labeler after a run that fails

`createLabels` and the functions below it give a `Result`, which for a run that fails says
how it failed but not what the label map of the labeler holds at that point. The functions of
this section run the same statements and give the label map in every case, with the failure
if any. -/

/-- The label map at the end of a run, and the failure that ended it if any. -/
abbrev Run := LabelMap × Option Failure

/-- The next statements, run on the label map of a run that has not failed. -/
def Run.andThen (r : Run) (next : LabelMap → Run) : Run :=
  match r with
  | (lm, none) => next lm
  | (lm, some e) => (lm, some e)

/-- The outcome of a run. -/
def Run.toResult (r : Run) : Result LabelMap :=
  match r with
  | (lm, none) => .ok lm
  | (_, some e) => .fail e

/-- The loop of `storeRest`, with the label map at its end. -/
def storeRestRun (name : Str) (chunks : List Str) : Nat → Nat → LabelMap → Run
  | 0, _, labels => (labels, none)
  | todo + 1, i, labels =>
    match chunks.get? i with
    | none => (labels, some .indexOutOfRange)
    | some chunk => storeRestRun name chunks todo (i + 1) (labels.set (chunkKey name i) chunk)

/-- The statements of `storeChunks`, with the label map at their end. -/
def storeChunksRun (name : Str) (chunks : List Str) (bound : Nat) (labels : LabelMap) : Run :=
  match chunks.get? 0 with
  | none => (labels, some .indexOutOfRange)
  | some first => storeRestRun name chunks (bound - 1) 1 (labels.set (labelNamespace ++ name) first)

/-- The device loop of `createLabels`, with its variables at its end. -/
def deviceLoopRun (h : Host) (ord : RangeOrder) : List Str → LoopState →
    LoopState × Option Failure
  | [], st => (st, none)
  | gpuName :: rest, st =>
    match deviceStep h ord gpuName st with
    | .ok st1 => deviceLoopRun h ord rest st1
    | .fail e => (st, some e)

/-- The statements of `createLabels` that store the NUMA mapping, with the label map at their
end. -/
def numaLabelsRun (st : LoopState) (labels : LabelMap) : Run :=
  if 0 < st.numaMapping.length then
    match split (createNumaNodeMappingLabel st.numaMapping) labelMaxLength with
    | none => (labels, some .diverges)
    | some numaMappingLabelList =>
      storeChunksRun numaMappingName numaMappingLabelList numaMappingLabelList.length labels
  else (labels, none)

/-- The statements of `createLabels` that store the millicores and the PCI groups, with the
label map at their end; `bound` is `len(gpuNumLists)`. -/
def pciLabelsRun (h : Host) (st : LoopState) (bound : Nat) (labels : LabelMap) : Run :=
  let labels := addNumericLabel labels (labelNamespace ++ millicoreLabelName)
    (wrapInt64 (Int.ofNat (millicoresPerGPU * st.gpuNumList.length)))
  let allPCIGroups := createPCIGroupLabel h st.gpuNumList
  if allPCIGroups ≠ [] then
    match split allPCIGroups labelMaxLength with
    | none => (labels, some .diverges)
    | some pciGroups => storeChunksRun pciGroupLabelName pciGroups bound labels
  else (labels, none)

/-- The statements of `createLabels` after the device loop, with the label map at their end. -/
def finishLabelsRun (h : Host) (gpuNameList : List Str) (st : LoopState) : Run :=
  let labels := addNumericLabel st.labels (labelNamespace ++ tilesLabelName) st.tileCount
  if 0 < st.gpuNumList.length then
    match split (stringsJoin gpuNameList ".".toList) labelMaxLength with
    | none => (labels, some .diverges)
    | some cards =>
    match cards.get? 0 with
    | none => (labels, some .indexOutOfRange)
    | some cards0 =>
    let labels := labels.set (labelNamespace ++ gpuListLabelName) cards0
    match split (stringsJoin st.gpuNumList ".".toList) labelMaxLength with
    | none => (labels, some .diverges)
    | some gpuNumLists =>
      Run.andThen
        (Run.andThen
          (storeChunksRun gpuNumListLabelName gpuNumLists gpuNumLists.length labels)
          (numaLabelsRun st))
        (pciLabelsRun h st gpuNumLists.length)
  else (labels, none)

/-- The method `createLabels`, with the label map of the labeler when it ends. -/
def createLabelsRun (h : Host) (ord : RangeOrder) (labels : LabelMap) : Run :=
  match scan h with
  | (_, some err) => (labels, some err)
  | (gpuNameList, none) =>
    match deviceLoopRun h ord gpuNameList
      { gpuNumList := [], tileCount := 0, numaMapping := [], labels := labels } with
    | (st, some e) => (st.labels, some e)
    | (st, none) => finishLabelsRun h gpuNameList st

/-- A host whose only entry `card0` passes the name, vendor and SR-IOV checks, reports one fatal
error, and has an unreadable DRM directory. -/
def faultyHost : Host where
  readDir := some ["card0".toList]
  readVendor := fun _ => some "0x8086\n".toList
  isSriovPFwithVFs := fun _ => false
  drmReadable := fun _ => false
  gpuFatalErrors := fun _ => 1
  globTiles := fun _ => 0
  readLmemTotal := fun _ => none
  readNumaNode := fun _ => none
  evalSymlinks := fun _ => none
  capabilities := fun _ => none
  getenv := fun _ => []

/-! # Theorems -/

/-! ## The chunking function -/

/-- With positive `maxLength` and fuel above the length of the remainder, the loop of `split`
returns: it appends to `results` chunks that concatenate to the remainder, none longer than
`maxLength`. -/
theorem splitLoop_returns (maxLength : Nat) (hpos : 0 < maxLength) :
    ∀ (fuel : Nat) (rem : Str) (results : List Str), rem.length < fuel →
      ∃ chunks : List Str, splitLoop fuel rem maxLength results = some (results ++ chunks) ∧
        chunks.flatten = rem ∧ (∀ c ∈ chunks, c.length ≤ maxLength) ∧ chunks ≠ [] := by
  intro fuel
  induction fuel with
  | zero => intro rem results h; omega
  | succ fuel ih =>
    intro rem results hlen
    by_cases hfit : rem.length ≤ maxLength
    · refine ⟨[rem], ?_, ?_, ?_, ?_⟩
      · simp [splitLoop, hfit]
      · simp
      · intro c hc
        simp at hc
        subst hc
        exact hfit
      · simp
    · have hdrop : (rem.drop maxLength).length < fuel := by
        rw [List.length_drop]; omega
      obtain ⟨cs, hrun, hcat, hbound, _⟩ := ih (rem.drop maxLength)
        (results ++ [rem.take maxLength]) hdrop
      refine ⟨rem.take maxLength :: cs, ?_, ?_, ?_, ?_⟩
      · simp [splitLoop, hfit, hrun]
      · simp [hcat]
      · intro c hc
        rcases List.mem_cons.mp hc with h | h
        · subst h
          rw [List.length_take]
          exact Nat.min_le_left _ _
        · exact hbound c h
      · simp

/-- C1: for every string and every positive maximum length, `split` returns, and its chunks
concatenated in order are the string. -/
theorem split_concat (str : Str) (maxLength : Nat) (hpos : 0 < maxLength) :
    ∃ chunks : List Str, split str maxLength = some chunks ∧ chunks.flatten = str := by
  obtain ⟨cs, hrun, hcat, _, _⟩ :=
    splitLoop_returns maxLength hpos (str.length + 1) str [] (Nat.lt_succ_self _)
  exact ⟨cs, by simpa [split] using hrun, hcat⟩

/-- C1 on `split("foo_bar", 4)`. -/
theorem split_concat_witness :
    0 < 4 ∧ ∃ chunks : List Str,
      split "foo_bar".toList 4 = some chunks ∧ chunks.flatten = "foo_bar".toList :=
  ⟨by decide, split_concat "foo_bar".toList 4 (by decide)⟩

/-- C2: for every string and every positive maximum length, `split` returns, and none of its
chunks is longer than the maximum length. -/
theorem split_chunk_le (str : Str) (maxLength : Nat) (hpos : 0 < maxLength) :
    ∃ chunks : List Str, split str maxLength = some chunks ∧
      ∀ c ∈ chunks, c.length ≤ maxLength := by
  obtain ⟨cs, hrun, _, hbound, _⟩ :=
    splitLoop_returns maxLength hpos (str.length + 1) str [] (Nat.lt_succ_self _)
  exact ⟨cs, by simpa [split] using hrun, hbound⟩

/-- C2 on `split("card0.card1", 3)`. -/
theorem split_chunk_le_witness :
    0 < 3 ∧ ∃ chunks : List Str,
      split "card0.card1".toList 3 = some chunks ∧ ∀ c ∈ chunks, c.length ≤ 3 :=
  ⟨by decide, split_chunk_le "card0.card1".toList 3 (by decide)⟩


/-! ## The label map -/

theorem LabelMap.get_set_self (lm : LabelMap) (key value : Str) :
    (lm.set key value).get key = some value := by
  induction lm with
  | nil => simp [LabelMap.set, LabelMap.get]
  | cons p rest ih =>
    obtain ⟨k, v⟩ := p
    by_cases hk : k = key
    · simp [LabelMap.set, LabelMap.get, hk]
    · simp [LabelMap.set, LabelMap.get, hk, ih]

theorem LabelMap.get_set_of_ne (lm : LabelMap) (key value other : Str) (hne : other ≠ key) :
    (lm.set key value).get other = lm.get other := by
  induction lm with
  | nil =>
    have : key ≠ other := fun e => hne e.symm
    simp [LabelMap.set, LabelMap.get, this]
  | cons p rest ih =>
    obtain ⟨k, v⟩ := p
    by_cases hk : k = key
    · subst hk
      have : k ≠ other := fun e => hne e.symm
      simp [LabelMap.set, LabelMap.get, this]
    · by_cases ho : k = other
      · subst ho
        simp [LabelMap.set, LabelMap.get, hk]
      · simp [LabelMap.set, LabelMap.get, hk, ho, ih]

theorem addNumericLabel_get_of_ne (lm : LabelMap) (labelName other : Str) (valueToAdd : Int)
    (hne : other ≠ labelName) :
    (addNumericLabel lm labelName valueToAdd).get other = lm.get other := by
  unfold addNumericLabel
  exact LabelMap.get_set_of_ne _ _ _ _ hne

theorem addNumericLabel_get_self (lm : LabelMap) (labelName : Str) (valueToAdd : Int) :
    ∃ z : Int, (addNumericLabel lm labelName valueToAdd).get labelName =
      some (formatInt (wrapInt64 z)) := by
  unfold addNumericLabel
  exact ⟨_, LabelMap.get_set_self _ _ _⟩

/-! ## Decimal rendering -/

theorem digitChar_toNat (k : Nat) (hk : k < 10) : (Nat.digitChar k).toNat - 48 = k := by
  interval_cases k <;> decide

theorem toDigitsCore_ne_nil (fuel n : Nat) (ds : Str) (h : 0 < fuel ∨ ds ≠ []) :
    Nat.toDigitsCore 10 fuel n ds ≠ [] := by
  induction fuel generalizing n ds with
  | zero =>
    rcases h with h | h
    · omega
    · simpa [Nat.toDigitsCore] using h
  | succ fuel ih =>
    simp only [Nat.toDigitsCore]
    split
    · simp
    · exact ih _ _ (Or.inr (by simp))

theorem toDigits_ne_nil (n : Nat) : Nat.toDigits 10 n ≠ [] :=
  toDigitsCore_ne_nil (n + 1) n [] (Or.inl (Nat.succ_pos n))

theorem toDigitsCore_value (fuel n : Nat) (ds : Str) (h : n < fuel) :
    (Nat.toDigitsCore 10 fuel n ds).foldl (fun acc c => acc * 10 + (c.toNat - 48)) 0 =
      ds.foldl (fun acc c => acc * 10 + (c.toNat - 48)) n := by
  induction fuel generalizing n ds with
  | zero => omega
  | succ fuel ih =>
    simp only [Nat.toDigitsCore]
    have hmod : n % 10 < 10 := Nat.mod_lt _ (by decide)
    split
    · next hz =>
      have hd := digitChar_toNat _ hmod
      have : n % 10 = n := by omega
      simp only [List.foldl, hd, Nat.zero_mul, Nat.zero_add]
      rw [this]
    · next hz =>
      rw [ih (n / 10) _ (by omega)]
      simp only [List.foldl, digitChar_toNat _ hmod]
      congr 1
      omega

theorem toDigits_injective (m n : Nat) (h : Nat.toDigits 10 m = Nat.toDigits 10 n) : m = n := by
  have hm := toDigitsCore_value (m + 1) m [] (Nat.lt_succ_self m)
  have hn := toDigitsCore_value (n + 1) n [] (Nat.lt_succ_self n)
  simp only [List.foldl] at hm hn
  unfold Nat.toDigits at h
  rw [h] at hm
  omega

theorem toDigits_length_le (n e : Nat) (he : 0 < e) (hn : n < 10 ^ e) :
    (Nat.toDigits 10 n).length ≤ e :=
  Nat.toDigitsCore_length 10 (by decide) (n + 1) n e hn he

theorem wrapInt64_range (z : Int) : -(2 ^ 63) ≤ wrapInt64 z ∧ wrapInt64 z < 2 ^ 63 := by
  unfold wrapInt64
  have h1 : 0 ≤ (z + 2 ^ 63) % 2 ^ 64 := Int.emod_nonneg _ (by norm_num)
  have h2 : (z + 2 ^ 63) % 2 ^ 64 < 2 ^ 64 := Int.emod_lt_of_pos _ (by norm_num)
  constructor <;> omega

theorem formatInt_wrap_length (z : Int) : (formatInt (wrapInt64 z)).length ≤ 20 := by
  obtain ⟨hlo, hhi⟩ := wrapInt64_range z
  have habs : (wrapInt64 z).natAbs < 10 ^ 19 := by omega
  have hlen := toDigits_length_le (wrapInt64 z).natAbs 19 (by decide) habs
  unfold formatInt
  split <;> simp <;> omega

theorem formatInt_ofNat (n : Nat) : formatInt (Int.ofNat n) = Nat.toDigits 10 n := by
  unfold formatInt
  have : ¬ (Int.ofNat n < 0) := by simp
  simp [this]

/-! ## Outcomes -/

theorem Result.bind_eq_ok {α β : Type} (r : Result α) (f : α → Result β) (b : β) :
    r.bind f = .ok b ↔ ∃ a, r = .ok a ∧ f a = .ok b := by
  cases r with
  | ok a => simp [Result.bind]
  | fail e => simp [Result.bind]

theorem index_eq_ok {α : Type} (xs : List α) (i : Nat) (x : α) :
    index xs i = .ok x ↔ xs.get? i = some x := by
  unfold index
  cases h : xs.get? i <;> simp

theorem splitResult_eq_ok (str : Str) (maxLength : Nat) (chunks : List Str) :
    splitResult str maxLength = .ok chunks ↔ split str maxLength = some chunks := by
  unfold splitResult
  cases h : split str maxLength <;> simp

/-! ## Label keys -/

theorem keyTag_namespace (name rest : Str) (h : 3 ≤ name.length) :
    keyTag (labelNamespace ++ (name ++ rest)) = name.take 3 := by
  have hns : labelNamespace.length = 14 := by decide
  unfold keyTag
  rw [List.drop_append_of_le_length (by omega), List.drop_of_length_le (by omega),
    List.nil_append, List.take_append_of_le_length h]

theorem keyTag_namespace_bare (name : Str) :
    keyTag (labelNamespace ++ name) = name.take 3 := by
  have hns : labelNamespace.length = 14 := by decide
  unfold keyTag
  rw [List.drop_append_of_le_length (by omega), List.drop_of_length_le (by omega),
    List.nil_append]

theorem keyTag_platform (value ending : Str) :
    keyTag (labelNamespace ++ "platform_".toList ++ value ++ ending) = "pla".toList := by
  rw [List.append_assoc, List.append_assoc, keyTag_namespace _ _ (by decide)]
  decide

theorem keyTag_chunkKey (name : Str) (i : Nat) (h : 3 ≤ name.length) :
    keyTag (chunkKey name i) = name.take 3 := by
  unfold chunkKey
  split
  · exact keyTag_namespace_bare name
  · rw [List.append_assoc]
    exact keyTag_namespace _ _ h

theorem chunkKey_injective (name : Str) (i j : Nat) (h : chunkKey name i = chunkKey name j) :
    i = j := by
  unfold chunkKey at h
  by_cases hi : i = 0 <;> by_cases hj : j = 0
  · omega
  · simp only [hi, hj, if_true, if_false] at h
    have h2 := congrArg List.length h
    have h3 := toDigits_ne_nil (j + 1)
    simp only [List.length_append, formatInt_ofNat] at h2
    have : (Nat.toDigits 10 (j + 1)).length ≠ 0 := fun e => h3 (List.length_eq_zero.mp e)
    omega
  · simp only [hi, hj, if_true, if_false] at h
    have h2 := congrArg List.length h
    have h3 := toDigits_ne_nil (i + 1)
    simp only [List.length_append, formatInt_ofNat] at h2
    have : (Nat.toDigits 10 (i + 1)).length ≠ 0 := fun e => h3 (List.length_eq_zero.mp e)
    omega
  · simp only [hi, hj, if_false] at h
    have h2 := List.append_cancel_left h
    rw [formatInt_ofNat, formatInt_ofNat] at h2
    have := toDigits_injective _ _ h2
    omega

/-! ## Storing a chunked label -/

theorem storeRest_ok (name : Str) (chunks : List Str) :
    ∀ (todo i : Nat) (labels : LabelMap), i + todo ≤ chunks.length →
      ∃ lm, storeRest name chunks todo i labels = .ok lm ∧
        (∀ j, i ≤ j → j < i + todo → lm.get (chunkKey name j) = chunks.get? j) ∧
        (∀ key, (∀ j, i ≤ j → j < i + todo → key ≠ chunkKey name j) →
          lm.get key = labels.get key) := by
  intro todo
  induction todo with
  | zero =>
    intro i labels _
    exact ⟨labels, rfl, fun j h1 h2 => by omega, fun _ _ => rfl⟩
  | succ todo ih =>
    intro i labels hlen
    have hi : i < chunks.length := by omega
    obtain ⟨lm, hrun, hget, hframe⟩ :=
      ih (i + 1) (labels.set (chunkKey name i) (chunks.get ⟨i, hi⟩)) (by omega)
    have hidx : index chunks i = .ok (chunks.get ⟨i, hi⟩) := by
      rw [index_eq_ok]
      exact List.get?_eq_get hi
    refine ⟨lm, ?_, ?_, ?_⟩
    · simp only [storeRest, hidx, Result.bind]
      exact hrun
    · intro j h1 h2
      by_cases hj : j = i
      · subst hj
        rw [hframe (chunkKey name j) (fun j2 h3 _ e => by
          have := chunkKey_injective name _ _ e
          omega)]
        rw [LabelMap.get_set_self]
        exact (List.get?_eq_get hi).symm
      · exact hget j (by omega) (by omega)
    · intro key hkey
      rw [hframe key (fun j h1 h2 => hkey j (by omega) (by omega))]
      exact LabelMap.get_set_of_ne _ _ _ _ (hkey i (le_refl i) (by omega))

theorem storeChunks_ok (name : Str) (chunks : List Str) (labels : LabelMap)
    (hne : chunks ≠ []) :
    ∃ lm, storeChunks name chunks chunks.length labels = .ok lm ∧
      (∀ j, j < chunks.length → lm.get (chunkKey name j) = chunks.get? j) ∧
      (∀ key, (∀ j, j < chunks.length → key ≠ chunkKey name j) →
        lm.get key = labels.get key) := by
  have hpos : 0 < chunks.length := List.length_pos.mpr hne
  obtain ⟨lm, hrun, hget, hframe⟩ := storeRest_ok name chunks (chunks.length - 1) 1
    (labels.set (labelNamespace ++ name) (chunks.get ⟨0, hpos⟩)) (by omega)
  have hidx : index chunks 0 = .ok (chunks.get ⟨0, hpos⟩) := by
    rw [index_eq_ok]
    exact List.get?_eq_get hpos
  have hkey0 : chunkKey name 0 = labelNamespace ++ name := by simp [chunkKey]
  refine ⟨lm, ?_, ?_, ?_⟩
  · simp only [storeChunks, hidx, Result.bind]
    exact hrun
  · intro j hj
    by_cases hj0 : j = 0
    · subst hj0
      rw [hframe (chunkKey name 0) (fun j2 h3 _ e => by
        have := chunkKey_injective name _ _ e
        omega)]
      rw [hkey0, LabelMap.get_set_self]
      exact (List.get?_eq_get hpos).symm
    · exact hget j (by omega) (by omega)
  · intro key hkey
    rw [hframe key (fun j h1 h2 => hkey j (by omega))]
    exact LabelMap.get_set_of_ne _ _ _ _ (by rw [← hkey0]; exact hkey 0 hpos)

theorem storeRest_frame (name : Str) (chunks : List Str) (hname : 3 ≤ name.length) :
    ∀ (todo i : Nat) (labels lm : LabelMap), storeRest name chunks todo i labels = .ok lm →
      ∀ key, keyTag key ≠ name.take 3 → lm.get key = labels.get key := by
  intro todo
  induction todo with
  | zero =>
    intro i labels lm hrun key _
    simp only [storeRest, Result.ok.injEq] at hrun
    rw [hrun]
  | succ todo ih =>
    intro i labels lm hrun key hkey
    simp only [storeRest] at hrun
    obtain ⟨chunk, _, hrest⟩ := (Result.bind_eq_ok _ _ _).mp hrun
    rw [ih (i + 1) _ lm hrest key hkey]
    exact LabelMap.get_set_of_ne _ _ _ _
      (fun e => hkey (by rw [e, keyTag_chunkKey name i hname]))

theorem storeChunks_frame (name : Str) (chunks : List Str) (hname : 3 ≤ name.length)
    (bound : Nat) (labels lm : LabelMap) (hrun : storeChunks name chunks bound labels = .ok lm)
    (key : Str) (hkey : keyTag key ≠ name.take 3) : lm.get key = labels.get key := by
  unfold storeChunks at hrun
  obtain ⟨first, _, hrest⟩ := (Result.bind_eq_ok _ _ _).mp hrun
  rw [storeRest_frame name chunks hname _ _ _ lm hrest key hkey]
  exact LabelMap.get_set_of_ne _ _ _ _
    (fun e => hkey (by rw [e, keyTag_namespace_bare]))

/-! ## The PCI-group labels -/

set_option maxRecDepth 100000 in
/-- C3 (failing input): on `pciHost` the scan accepts 25 devices, whose numbers fill two chunks
of `gpu-numbers`, the PCI group value is the single chunk `"0"`, and `createLabels` does not
complete: its loop over the PCI chunks runs to the number of `gpu-numbers` chunks and indexes
the PCI chunks out of range. -/
theorem createLabels_pci_groups_out_of_range :
    (scan pciHost).2 = none ∧ (scan pciHost).1.length = 25 ∧
    (split (stringsJoin ((scan pciHost).1.map (List.drop 4)) ".".toList) labelMaxLength).map
      List.length = some 2 ∧
    createPCIGroupLabel pciHost ((scan pciHost).1.map (List.drop 4)) = "0".toList ∧
    split "0".toList labelMaxLength = some ["0".toList] ∧
    createLabels pciHost sourceOrder newLabels = .fail .indexOutOfRange := by
  decide

/-! ## The capability file -/

theorem take_two_of_hasPrefix (line pre : Str) (h : hasPrefix line pre = true)
    (hlen : 2 ≤ pre.length) : line.take 2 = pre.take 2 := by
  unfold hasPrefix at h
  obtain ⟨t, rfl⟩ := List.isPrefixOf_iff_prefix.mp h
  exact List.take_append_of_le_length hlen

theorem searchString_exclusive (line : Str) (a b : CapKey)
    (ha : hasPrefix line a.searchString = true) (hb : hasPrefix line b.searchString = true) :
    a = b := by
  have h1 := take_two_of_hasPrefix line a.searchString ha (by cases a <;> decide)
  have h2 := take_two_of_hasPrefix line b.searchString hb (by cases b <;> decide)
  have h3 : a.searchString.take 2 = b.searchString.take 2 := h1.symm.trans h2
  revert h3
  cases a <;> cases b <;> decide

theorem find_matching_iff (line : Str) (keys : List CapKey) (key : CapKey) :
    keys.find? (fun k => hasPrefix line k.searchString) = some key ↔
      key ∈ keys ∧ hasPrefix line key.searchString = true := by
  constructor
  · intro h
    exact ⟨List.mem_of_find?_eq_some h, by simpa using List.find?_some h⟩
  · intro ⟨hmem, hpre⟩
    cases hf : keys.find? (fun k => hasPrefix line k.searchString) with
    | none =>
      have := List.find?_eq_none.mp hf key hmem
      simp [hpre] at this
    | some k =>
      have hk : hasPrefix line k.searchString = true := by simpa using List.find?_some hf
      rw [searchString_exclusive line k key hk hpre]

theorem find_matching_perm (line : Str) (keys visited : List CapKey)
    (hperm : visited.Perm keys) :
    visited.find? (fun k => hasPrefix line k.searchString) =
      keys.find? (fun k => hasPrefix line k.searchString) := by
  cases hf : keys.find? (fun k => hasPrefix line k.searchString) with
  | none =>
    rw [List.find?_eq_none] at hf ⊢
    intro k hk
    exact hf k (hperm.mem_iff.mp hk)
  | some k =>
    rw [find_matching_iff] at hf ⊢
    exact ⟨hperm.mem_iff.mpr hf.1, hf.2⟩

theorem lineValue_match {β : Type} (line : Str) (f : Str → β) (g : β) :
    (match stringsSplit line ": ".toList with
      | [_, value] => f value
      | _ => g) =
    match lineValue line with
      | some value => f value
      | none => g := by
  unfold lineValue
  generalize stringsSplit line ": ".toList = l
  rcases l with _ | ⟨a, _ | ⟨b, _ | ⟨c, d⟩⟩⟩ <;> rfl

theorem capLine_eq (visit : List CapKey → List CapKey) (numTiles : Nat) (line : Str)
    (st : CapState) (hperm : (visit st.pending).Perm st.pending) :
    capLine visit numTiles line st =
      match st.pending.find? (fun key => hasPrefix line key.searchString) with
      | none => (st, false)
      | some key =>
        ({ capApply numTiles key line st with
            pending := (capApply numTiles key line st).pending.erase key },
          decide (((capApply numTiles key line st).pending.erase key).length = 0)) := by
  unfold capLine
  rw [find_matching_perm line st.pending _ hperm]
  cases st.pending.find? (fun key => hasPrefix line key.searchString) with
  | none => rfl
  | some key =>
    simp only [lineValue_match, capApply]

theorem capAction_pending (numTiles : Nat) (key : CapKey) (value : Str) (st : CapState) :
    (capAction numTiles key value st).pending = st.pending := by
  cases key <;> rfl

theorem reported_cons_of_not (key : CapKey) (line : Str) (rest : List Str)
    (h : hasPrefix line key.searchString = false) :
    reported key (line :: rest) = reported key rest := by
  simp [reported, List.find?, h]

theorem reported_cons_of_hasPrefix (key : CapKey) (line : Str) (rest : List Str)
    (h : hasPrefix line key.searchString = true) :
    reported key (line :: rest) = lineValue line := by
  simp [reported, List.find?, h]

/-- What the `scanning` loop does to an observation `obs` of the state that only the action of
`key` changes, and changes to `upd value` of its former value: the observation ends as updated
with the value that the file reports for `key`, if `key` was still searched for. -/
theorem capScan_observe {α : Type} (ord : RangeOrder) (gpuNum : Str) (numTiles : Nat)
    (key : CapKey) (obs : CapState → α) (upd : Str → α → α)
    (hpend : ∀ (st : CapState) (p : List CapKey), obs { st with pending := p } = obs st)
    (hother : ∀ (k : CapKey) (value : Str) (st : CapState), k ≠ key →
      obs (capAction numTiles k value st) = obs st)
    (hkey : ∀ (value : Str) (st : CapState),
      obs (capAction numTiles key value st) = upd value (obs st)) :
    ∀ (lines : List Str) (i : Nat) (st : CapState), st.pending.Nodup →
      obs (capScan ord gpuNum numTiles i lines st) =
        if key ∈ st.pending then
          match reported key lines with
          | some value => upd value (obs st)
          | none => obs st
        else obs st := by
  intro lines
  induction lines with
  | nil =>
    intro i st _
    simp [capScan, reported]
  | cons line rest ih =>
    intro i st hnd
    have hline := capLine_eq (ord.visit gpuNum i) numTiles line st (ord.perm gpuNum i st.pending)
    cases hf : st.pending.find? (fun k => hasPrefix line k.searchString) with
    | none =>
      rw [hf] at hline
      simp only [capScan, hline]
      rw [ih (i + 1) st hnd]
      by_cases hmem : key ∈ st.pending
      · have hno : hasPrefix line key.searchString = false := by
          have := List.find?_eq_none.mp hf key hmem
          simpa using this
        rw [reported_cons_of_not key line rest hno]
      · simp [hmem]
    | some k =>
      rw [hf] at hline
      obtain ⟨hkmem, hkpre⟩ := (find_matching_iff line st.pending k).mp hf
      have hp1 : (capApply numTiles k line st).pending = st.pending := by
        unfold capApply
        cases lineValue line with
        | none => rfl
        | some value => exact capAction_pending numTiles k value st
      have hnd2 : ((capApply numTiles k line st).pending.erase k).Nodup := by
        rw [hp1]
        exact hnd.erase k
      -- the observation after this line
      have hfinal : obs (capScan ord gpuNum numTiles i (line :: rest) st) =
          if key ∈ (capApply numTiles k line st).pending.erase k then
            match reported key rest with
            | some value => upd value (obs (capApply numTiles k line st))
            | none => obs (capApply numTiles k line st)
          else obs (capApply numTiles k line st) := by
        simp only [capScan, hline]
        by_cases hstop : ((capApply numTiles k line st).pending.erase k).length = 0
        · have hnil : (capApply numTiles k line st).pending.erase k = [] :=
            List.length_eq_zero.mp hstop
          simp [hnil, hpend]
        · simp only [hstop, decide_False]
          rw [ih (i + 1) _ hnd2]
          simp only [hpend]
      rw [hfinal, hp1]
      by_cases hkk : k = key
      · subst hkk
        have hnot : k ∉ st.pending.erase k :=
          fun hm => ((List.Nodup.mem_erase_iff hnd).mp hm).1 rfl
        rw [reported_cons_of_hasPrefix k line rest hkpre]
        simp only [hnot, if_false, hkmem, if_true, capApply]
        cases lineValue line with
        | none => rfl
        | some value => exact hkey value st
      · have hno : hasPrefix line key.searchString = false := by
          cases hp : hasPrefix line key.searchString with
          | false => rfl
          | true => exact absurd (searchString_exclusive line k key hkpre hp) hkk
        have hobs : obs (capApply numTiles k line st) = obs st := by
          unfold capApply
          cases lineValue line with
          | none => rfl
          | some value => exact hother k value st hkk
        have hmem : key ∈ st.pending.erase k ↔ key ∈ st.pending :=
          List.mem_erase_of_ne (fun e => hkk e.symm)
        rw [reported_cons_of_not key line rest hno, hobs]
        simp only [hmem]

/-- A property of the state that every action keeps is kept by the `scanning` loop. -/
theorem capScan_preserve (ord : RangeOrder) (gpuNum : Str) (numTiles : Nat)
    (inv : CapState → Prop)
    (hpend : ∀ (st : CapState) (p : List CapKey), inv st → inv { st with pending := p })
    (hact : ∀ (k : CapKey) (value : Str) (st : CapState), inv st →
      inv (capAction numTiles k value st)) :
    ∀ (lines : List Str) (i : Nat) (st : CapState), inv st →
      inv (capScan ord gpuNum numTiles i lines st) := by
  intro lines
  induction lines with
  | nil =>
    intro i st h
    simpa [capScan] using h
  | cons line rest ih =>
    intro i st h
    have hline := capLine_eq (ord.visit gpuNum i) numTiles line st (ord.perm gpuNum i st.pending)
    cases hf : st.pending.find? (fun k => hasPrefix line k.searchString) with
    | none =>
      rw [hf] at hline
      simp only [capScan, hline]
      exact ih (i + 1) st h
    | some k =>
      rw [hf] at hline
      have hst1 : inv (capApply numTiles k line st) := by
        unfold capApply
        cases lineValue line with
        | none => exact h
        | some value => exact hact k value st h
      simp only [capScan, hline]
      by_cases hstop : ((capApply numTiles k line st).pending.erase k).length = 0
      · simp only [hstop, decide_True]
        exact hpend _ _ hst1
      · simp only [hstop, decide_False]
        exact ih (i + 1) _ (hpend _ _ hst1)

theorem capAction_get_of_not_written (numTiles : Nat) (key : CapKey) (value : Str)
    (st : CapState) (other : Str) (h : other ∉ capWrites key value) :
    (capAction numTiles key value st).labels.get other = st.labels.get other := by
  cases key with
  | platform =>
    simp only [capWrites, List.mem_cons, List.mem_singleton, not_or, List.not_mem_nil,
      or_false] at h
    simp only [capAction]
    rw [LabelMap.get_set_of_ne _ _ _ _ h.2.2, LabelMap.get_set_of_ne _ _ _ _ h.2.1,
      addNumericLabel_get_of_ne _ _ _ _ h.1]
  | media =>
    simp only [capWrites, List.mem_singleton] at h
    exact LabelMap.get_set_of_ne _ _ _ _ h
  | graphics =>
    simp only [capWrites, List.mem_singleton] at h
    exact LabelMap.get_set_of_ne _ _ _ _ h
  | gen =>
    simp only [capWrites, List.mem_singleton] at h
    exact LabelMap.get_set_of_ne _ _ _ _ h

theorem keyTag_of_mem_capWrites (key : CapKey) (value other : Str)
    (h : other ∈ capWrites key value) :
    keyTag other = "pla".toList ∨ keyTag other = "med".toList ∨ keyTag other = "gra".toList := by
  cases key with
  | platform =>
    simp only [capWrites, List.mem_cons, List.mem_singleton, List.not_mem_nil, or_false] at h
    rcases h with h | h | h <;> exact Or.inl (by rw [h, keyTag_platform])
  | media =>
    simp only [capWrites, List.mem_singleton] at h
    exact Or.inr (Or.inl (by rw [h]; decide))
  | graphics =>
    simp only [capWrites, List.mem_singleton] at h
    exact Or.inr (Or.inr (by rw [h]; decide))
  | gen =>
    simp only [capWrites, List.mem_singleton] at h
    exact Or.inl (by rw [h]; decide)

theorem platform_key_ne_gen (value ending : Str) (h : 4 ≤ ending.length) :
    labelNamespace ++ "platform_gen".toList ≠
      labelNamespace ++ "platform_".toList ++ value ++ ending := by
  intro e
  have h2 := congrArg List.length e
  have h3 : (labelNamespace ++ "platform_gen".toList).length = 26 := by decide
  have h4 : (labelNamespace ++ "platform_".toList).length = 23 := by decide
  rw [h3, List.length_append, List.length_append, h4] at h2
  omega

theorem platform_key_ne_of_tag (value ending other : Str)
    (h : keyTag other ≠ "pla".toList) :
    other ≠ labelNamespace ++ "platform_".toList ++ value ++ ending :=
  fun e => h (by rw [e, keyTag_platform])

/-- The label of a version key is written by the action of that key only. -/
theorem version_label_not_written (c k : CapKey) (label value : Str)
    (hc : capWrites c [] = [label]) (hk : k ≠ c) : label ∉ capWrites k value := by
  cases c with
  | platform => simp [capWrites] at hc
  | media =>
    simp only [capWrites, List.cons.injEq, and_true] at hc
    subst hc
    cases k with
    | media => exact absurd rfl hk
    | platform =>
      simp only [capWrites, List.mem_cons, List.mem_singleton, List.not_mem_nil, or_false,
        not_or]
      exact ⟨platform_key_ne_of_tag _ _ _ (by decide), platform_key_ne_of_tag _ _ _ (by decide),
        platform_key_ne_of_tag _ _ _ (by decide)⟩
    | graphics => simp only [capWrites, List.mem_singleton]; decide
    | gen => simp only [capWrites, List.mem_singleton]; decide
  | graphics =>
    simp only [capWrites, List.cons.injEq, and_true] at hc
    subst hc
    cases k with
    | graphics => exact absurd rfl hk
    | platform =>
      simp only [capWrites, List.mem_cons, List.mem_singleton, List.not_mem_nil, or_false,
        not_or]
      exact ⟨platform_key_ne_of_tag _ _ _ (by decide), platform_key_ne_of_tag _ _ _ (by decide),
        platform_key_ne_of_tag _ _ _ (by decide)⟩
    | media => simp only [capWrites, List.mem_singleton]; decide
    | gen => simp only [capWrites, List.mem_singleton]; decide
  | gen =>
    simp only [capWrites, List.cons.injEq, and_true] at hc
    subst hc
    cases k with
    | gen => exact absurd rfl hk
    | platform =>
      simp only [capWrites, List.mem_cons, List.mem_singleton, List.not_mem_nil, or_false,
        not_or]
      exact ⟨platform_key_ne_gen _ _ (by decide), platform_key_ne_gen _ _ (by decide),
        platform_key_ne_gen _ _ (by decide)⟩
    | media => simp only [capWrites, List.mem_singleton]; decide
    | graphics => simp only [capWrites, List.mem_singleton]; decide

theorem capAction_get_version (numTiles : Nat) (c : CapKey) (label value : Str)
    (st : CapState) (hc : capWrites c [] = [label]) :
    (capAction numTiles c value st).labels.get label = some value := by
  cases c with
  | platform => simp [capWrites] at hc
  | media =>
    simp only [capWrites, List.cons.injEq, and_true] at hc
    subst hc
    exact LabelMap.get_set_self _ _ _
  | graphics =>
    simp only [capWrites, List.cons.injEq, and_true] at hc
    subst hc
    exact LabelMap.get_set_self _ _ _
  | gen =>
    simp only [capWrites, List.cons.injEq, and_true] at hc
    subst hc
    exact LabelMap.get_set_self _ _ _

theorem mem_capInit (labels : LabelMap) (c : CapKey) : c ∈ (capInit labels).pending := by
  show c ∈ [CapKey.platform, CapKey.media, CapKey.graphics, CapKey.gen]
  cases c <;> decide

theorem capInit_nodup (labels : LabelMap) : (capInit labels).pending.Nodup := by
  show [CapKey.platform, CapKey.media, CapKey.graphics, CapKey.gen].Nodup
  decide

/-- After the `scanning` loop the label of a version key holds the value that the file reports
for the key, and is as before when the file reports none. -/
theorem capScan_version_label (ord : RangeOrder) (gpuNum : Str) (numTiles : Nat)
    (c : CapKey) (label : Str) (hc : capWrites c [] = [label]) (lines : List Str)
    (labels : LabelMap) :
    (capScan ord gpuNum numTiles 0 lines (capInit labels)).labels.get label =
      match reported c lines with
      | some value => some value
      | none => labels.get label := by
  have h := capScan_observe ord gpuNum numTiles c (fun st => st.labels.get label)
    (fun value _ => some value) (fun _ _ => rfl)
    (fun k value st hk => capAction_get_of_not_written numTiles k value st label
      (version_label_not_written c k label value hc hk))
    (fun value st => capAction_get_version numTiles c label value st hc)
    lines 0 (capInit labels) (capInit_nodup labels)
  beta_reduce at h
  rw [h]
  have hmem : c ∈ (capInit labels).pending := mem_capInit labels c
  simp only [hmem, if_true]
  rfl

/-- The string captured for a version key. -/
theorem capScan_captured (ord : RangeOrder) (gpuNum : Str) (numTiles : Nat)
    (lines : List Str) (labels : LabelMap) :
    (capScan ord gpuNum numTiles 0 lines (capInit labels)).gen =
      (reported .gen lines).getD [] ∧
    (capScan ord gpuNum numTiles 0 lines (capInit labels)).media =
      (reported .media lines).getD [] ∧
    (capScan ord gpuNum numTiles 0 lines (capInit labels)).graphics =
      (reported .graphics lines).getD [] := by
  refine ⟨?_, ?_, ?_⟩
  · have h := capScan_observe ord gpuNum numTiles .gen (fun st => st.gen)
      (fun value _ => value) (fun _ _ => rfl)
      (fun k value st hk => by cases k <;> first | rfl | exact absurd rfl hk)
      (fun value st => rfl) lines 0 (capInit labels) (capInit_nodup labels)
    beta_reduce at h
    rw [h]
    simp only [mem_capInit, if_true]
    cases reported .gen lines <;> rfl
  · have h := capScan_observe ord gpuNum numTiles .media (fun st => st.media)
      (fun value _ => value) (fun _ _ => rfl)
      (fun k value st hk => by cases k <;> first | rfl | exact absurd rfl hk)
      (fun value st => rfl) lines 0 (capInit labels) (capInit_nodup labels)
    beta_reduce at h
    rw [h]
    simp only [mem_capInit, if_true]
    cases reported .media lines <;> rfl
  · have h := capScan_observe ord gpuNum numTiles .graphics (fun st => st.graphics)
      (fun value _ => value) (fun _ _ => rfl)
      (fun k value st hk => by cases k <;> first | rfl | exact absurd rfl hk)
      (fun value st => rfl) lines 0 (capInit labels) (capInit_nodup labels)
    beta_reduce at h
    rw [h]
    simp only [mem_capInit, if_true]
    cases reported .graphics lines <;> rfl

theorem createCapabilityLabels_eq (h : Host) (ord : RangeOrder) (labels : LabelMap)
    (gpuNum : Str) (numTiles : Nat) (lines : List Str)
    (hcap : h.capabilities gpuNum = some lines) :
    createCapabilityLabels h ord labels gpuNum numTiles =
      capDerive (capScan ord gpuNum numTiles 0 lines (capInit labels)) := by
  simp [createCapabilityLabels, hcap, capInit]

theorem hasPrefix_recognized (key : CapKey) (line : Str)
    (h : hasPrefix line key.searchString = true) : recognized line = true := by
  unfold recognized
  rw [List.any_eq_true]
  exact ⟨key, by cases key <;> simp, h⟩

theorem reported_filter_recognized (key : CapKey) (lines : List Str) :
    reported key (lines.filter recognized) = reported key lines := by
  unfold reported
  congr 1
  induction lines with
  | nil => rfl
  | cons line rest ih =>
    by_cases hp : hasPrefix line key.searchString = true
    · have hr := hasPrefix_recognized key line hp
      simp [List.filter, hr, List.find?, hp]
    · have hp2 : hasPrefix line key.searchString = false := by simpa using hp
      by_cases hr : recognized line = true
      · simp only [List.filter, hr, List.find?, hp2]
        exact ih
      · have hr2 : recognized line = false := by simpa using hr
        simp only [List.filter, hr2, List.find?, hp2]
        exact ih

/-- C8 (amended): for a capability file whose only recognized line is `gen: 12.0`,
`createCapabilityLabels` sets `platform_gen`, `media_version` and `graphics_version` all to
`12.0`: an explicit generation value is stored as it stands. -/
theorem createCapabilityLabels_gen_only (h : Host) (ord : RangeOrder) (labels : LabelMap)
    (gpuNum : Str) (numTiles : Nat) (lines : List Str)
    (hcap : h.capabilities gpuNum = some lines)
    (honly : lines.filter recognized = ["gen: 12.0".toList]) :
    (createCapabilityLabels h ord labels gpuNum numTiles).get
        (labelNamespace ++ "platform_gen".toList) = some "12.0".toList ∧
    (createCapabilityLabels h ord labels gpuNum numTiles).get
        (labelNamespace ++ "media_version".toList) = some "12.0".toList ∧
    (createCapabilityLabels h ord labels gpuNum numTiles).get
        (labelNamespace ++ "graphics_version".toList) = some "12.0".toList := by
  have hgen : reported .gen lines = some "12.0".toList := by
    rw [← reported_filter_recognized, honly]; decide
  have hmedia : reported .media lines = none := by
    rw [← reported_filter_recognized, honly]; decide
  have hgraphics : reported .graphics lines = none := by
    rw [← reported_filter_recognized, honly]; decide
  obtain ⟨hg, hm, hgr⟩ := capScan_captured ord gpuNum numTiles lines labels
  have hlabel := capScan_version_label ord gpuNum numTiles .gen
    (labelNamespace ++ "platform_gen".toList) rfl lines labels
  rw [hgen] at hg hlabel
  rw [hmedia] at hm
  rw [hgraphics] at hgr
  simp only [Option.getD] at hg hm hgr
  rw [createCapabilityLabels_eq h ord labels gpuNum numTiles lines hcap]
  have hne : ¬ ("12.0".toList = ([] : Str)) := by decide
  simp only [capDerive, hg, hm, hgr, hne, if_false, and_self, if_true]
  refine ⟨?_, ?_, ?_⟩
  · rw [LabelMap.get_set_of_ne _ _ _ _ (by decide), LabelMap.get_set_of_ne _ _ _ _ (by decide)]
    exact hlabel
  · rw [LabelMap.get_set_of_ne _ _ _ _ (by decide)]
    exact LabelMap.get_set_self _ _ _
  · exact LabelMap.get_set_self _ _ _

/-- C8 (amended) on the capability file `gen: 12.0`. -/
theorem createCapabilityLabels_gen_only_witness :
    (capHost ["gen: 12.0".toList]).capabilities "0".toList = some ["gen: 12.0".toList] ∧
    ["gen: 12.0".toList].filter recognized = ["gen: 12.0".toList] ∧
    (createCapabilityLabels (capHost ["gen: 12.0".toList]) sourceOrder newLabels "0".toList 1).get
        (labelNamespace ++ "platform_gen".toList) = some "12.0".toList ∧
    (createCapabilityLabels (capHost ["gen: 12.0".toList]) sourceOrder newLabels "0".toList 1).get
        (labelNamespace ++ "media_version".toList) = some "12.0".toList ∧
    (createCapabilityLabels (capHost ["gen: 12.0".toList]) sourceOrder newLabels "0".toList 1).get
        (labelNamespace ++ "graphics_version".toList) = some "12.0".toList :=
  ⟨by decide, by decide,
    createCapabilityLabels_gen_only (capHost ["gen: 12.0".toList]) sourceOrder newLabels
      "0".toList 1 ["gen: 12.0".toList] (by decide) (by decide)⟩

/-- C8 (counterexample): with the capability file `gen: 12.0`, `platform_gen` is `12.0`, not
`12`. -/
theorem createCapabilityLabels_gen_not_truncated :
    ["gen: 12.0".toList].filter recognized = ["gen: 12.0".toList] ∧
    (createCapabilityLabels (capHost ["gen: 12.0".toList]) sourceOrder newLabels "0".toList 1).get
        (labelNamespace ++ "platform_gen".toList) = some "12.0".toList ∧
    (createCapabilityLabels (capHost ["gen: 12.0".toList]) sourceOrder newLabels "0".toList 1).get
        (labelNamespace ++ "platform_gen".toList) ≠ some "12".toList := by
  decide

/-- The statements after the `scanning` loop leave a version label as the loop left it when no
generation value was captured. -/
theorem capDerive_get_version (st : CapState) (label : Str) (hgen : st.gen = [])
    (hne : label ≠ labelNamespace ++ "platform_gen".toList) :
    (capDerive st).get label = st.labels.get label := by
  unfold capDerive
  simp only [hgen, if_true]
  split_ifs <;> first | rfl | exact LabelMap.get_set_of_ne _ _ _ _ hne

/-- C9 (amended): for a capability file that reports no generation value (no line begins with
`gen:`, or the first such line is malformed), `createCapabilityLabels` sets `platform_gen` to
the part before the first dot of the reported graphics version `V` when `V` is not empty, and
otherwise (no graphics version reported, or an empty one) to the part before the first dot of
the reported media version `M` when `M` is not empty; `graphics_version` and `media_version`
hold `V` and `M` as reported, and a version that is not reported leaves its label as it was. -/
theorem createCapabilityLabels_gen_derived (h : Host) (ord : RangeOrder) (labels : LabelMap)
    (gpuNum : Str) (numTiles : Nat) (lines : List Str)
    (hcap : h.capabilities gpuNum = some lines) (hgen : reported .gen lines = none) :
    (∀ V, reported .graphics lines = some V → V ≠ [] →
      (createCapabilityLabels h ord labels gpuNum numTiles).get
        (labelNamespace ++ "platform_gen".toList) = some (beforeFirstDot V)) ∧
    (∀ M, (reported .graphics lines = none ∨ reported .graphics lines = some []) →
      reported .media lines = some M → M ≠ [] →
      (createCapabilityLabels h ord labels gpuNum numTiles).get
        (labelNamespace ++ "platform_gen".toList) = some (beforeFirstDot M)) ∧
    (∀ V, reported .graphics lines = some V →
      (createCapabilityLabels h ord labels gpuNum numTiles).get
        (labelNamespace ++ "graphics_version".toList) = some V) ∧
    (∀ M, reported .media lines = some M →
      (createCapabilityLabels h ord labels gpuNum numTiles).get
        (labelNamespace ++ "media_version".toList) = some M) ∧
    (reported .graphics lines = none →
      (createCapabilityLabels h ord labels gpuNum numTiles).get
        (labelNamespace ++ "graphics_version".toList) =
          labels.get (labelNamespace ++ "graphics_version".toList)) ∧
    (reported .media lines = none →
      (createCapabilityLabels h ord labels gpuNum numTiles).get
        (labelNamespace ++ "media_version".toList) =
          labels.get (labelNamespace ++ "media_version".toList)) := by
  obtain ⟨hg, hm, hgr⟩ := capScan_captured ord gpuNum numTiles lines labels
  rw [hgen] at hg
  simp only [Option.getD] at hg
  have hgv := capScan_version_label ord gpuNum numTiles .graphics
    (labelNamespace ++ "graphics_version".toList) rfl lines labels
  have hmv := capScan_version_label ord gpuNum numTiles .media
    (labelNamespace ++ "media_version".toList) rfl lines labels
  rw [createCapabilityLabels_eq h ord labels gpuNum numTiles lines hcap]
  refine ⟨?_, ?_, ?_, ?_, ?_, ?_⟩
  · intro V hV hne
    rw [hV] at hgr
    simp only [Option.getD] at hgr
    unfold capDerive
    simp only [hg, hgr, hne, if_true, ne_eq, not_false_eq_true]
    exact LabelMap.get_set_self _ _ _
  · intro M hV hM hne
    have hgr2 : (capScan ord gpuNum numTiles 0 lines (capInit labels)).graphics = [] := by
      rcases hV with hV | hV <;> (rw [hV] at hgr; exact hgr)
    rw [hM] at hm
    simp only [Option.getD] at hm
    unfold capDerive
    simp only [hg, hgr2, hm, hne, if_true, if_false, ne_eq, not_false_eq_true, not_true_eq_false]
    exact LabelMap.get_set_self _ _ _
  · intro V hV
    rw [capDerive_get_version _ _ hg (by decide), hgv, hV]
  · intro M hM
    rw [capDerive_get_version _ _ hg (by decide), hmv, hM]
  · intro hV
    rw [capDerive_get_version _ _ hg (by decide), hgv, hV]
  · intro hM
    rw [capDerive_get_version _ _ hg (by decide), hmv, hM]

/-- C9 (amended) on the capability file `graphics version: 2.0`. -/
theorem createCapabilityLabels_gen_derived_witness :
    (capHost ["graphics version: 2.0".toList]).capabilities "0".toList =
      some ["graphics version: 2.0".toList] ∧
    reported .gen ["graphics version: 2.0".toList] = none ∧
    reported .graphics ["graphics version: 2.0".toList] = some "2.0".toList ∧
    reported .media ["graphics version: 2.0".toList] = none ∧
    (createCapabilityLabels (capHost ["graphics version: 2.0".toList]) sourceOrder newLabels
      "0".toList 1).get (labelNamespace ++ "platform_gen".toList) = some "2".toList ∧
    (createCapabilityLabels (capHost ["graphics version: 2.0".toList]) sourceOrder newLabels
      "0".toList 1).get (labelNamespace ++ "graphics_version".toList) = some "2.0".toList ∧
    (createCapabilityLabels (capHost ["graphics version: 2.0".toList]) sourceOrder newLabels
      "0".toList 1).get (labelNamespace ++ "media_version".toList) = none :=
  have hthm := createCapabilityLabels_gen_derived (capHost ["graphics version: 2.0".toList])
    sourceOrder newLabels "0".toList 1 ["graphics version: 2.0".toList] (by decide) (by decide)
  ⟨by decide, by decide, by decide, by decide,
    hthm.1 "2.0".toList (by decide) (by decide),
    hthm.2.2.1 "2.0".toList (by decide),
    hthm.2.2.2.2.2 (by decide)⟩

/-- C9 (counterexample): the capability file with the lines `graphics version: ` and
`media version: 3.0` has no `gen:` line and a well-formed graphics line whose value `V` is
empty; `platform_gen` is set from the media version to `3`, not to the part of `V` before its
first dot. -/
theorem createCapabilityLabels_empty_graphics :
    reported .gen ["graphics version: ".toList, "media version: 3.0".toList] = none ∧
    lineValue "graphics version: ".toList = some [] ∧
    reported .graphics ["graphics version: ".toList, "media version: 3.0".toList] = some [] ∧
    (createCapabilityLabels (capHost ["graphics version: ".toList, "media version: 3.0".toList])
      sourceOrder newLabels "0".toList 1).get (labelNamespace ++ "platform_gen".toList) =
        some "3".toList ∧
    (createCapabilityLabels (capHost ["graphics version: ".toList, "media version: 3.0".toList])
      sourceOrder newLabels "0".toList 1).get (labelNamespace ++ "platform_gen".toList) ≠
        some (beforeFirstDot []) := by
  decide

/-! ## Bounded values -/

theorem Bounded.set (lm : LabelMap) (key value : Str) (hb : Bounded lm)
    (hv : value.length ≤ labelMaxLength ∨ key ∈ capValueKeys) : Bounded (lm.set key value) := by
  intro k v hget
  by_cases hk : k = key
  · subst hk
    rw [LabelMap.get_set_self] at hget
    cases hget
    exact hv
  · rw [LabelMap.get_set_of_ne _ _ _ _ hk] at hget
    exact hb k v hget

theorem Bounded.addNumericLabel (lm : LabelMap) (labelName : Str) (valueToAdd : Int)
    (hb : Bounded lm) : Bounded (addNumericLabel lm labelName valueToAdd) := by
  unfold GpuNfdHook.addNumericLabel
  refine Bounded.set _ _ _ hb (Or.inl ?_)
  have := formatInt_wrap_length
    ((match lm.get labelName with
      | some numstr => (sscanfInt numstr).getD 0
      | none => 0) + valueToAdd)
  unfold labelMaxLength
  omega

theorem Bounded.capAction (numTiles : Nat) (key : CapKey) (value : Str) (st : CapState)
    (hb : Bounded st.labels) : Bounded (capAction numTiles key value st).labels := by
  cases key with
  | platform =>
    simp only [GpuNfdHook.capAction]
    refine Bounded.set _ _ _ (Bounded.set _ _ _ (Bounded.addNumericLabel _ _ _ hb) ?_) ?_
    · left
      have := formatInt_wrap_length (Int.ofNat numTiles)
      unfold toInt64 labelMaxLength
      omega
    · left; decide
  | media => exact Bounded.set _ _ _ hb (Or.inr (by decide))
  | graphics => exact Bounded.set _ _ _ hb (Or.inr (by decide))
  | gen => exact Bounded.set _ _ _ hb (Or.inr (by decide))

theorem Bounded.capDerive (st : CapState) (hb : Bounded st.labels) :
    Bounded (capDerive st) := by
  simp only [GpuNfdHook.capDerive]
  split_ifs <;> first
    | exact hb
    | exact Bounded.set _ _ _ hb (Or.inr (by decide))
    | exact Bounded.set _ _ _ (Bounded.set _ _ _ hb (Or.inr (by decide))) (Or.inr (by decide))

theorem Bounded.createCapabilityLabels (h : Host) (ord : RangeOrder) (labels : LabelMap)
    (gpuNum : Str) (numTiles : Nat) (hb : Bounded labels) :
    Bounded (createCapabilityLabels h ord labels gpuNum numTiles) := by
  cases hcap : h.capabilities gpuNum with
  | none => simpa [GpuNfdHook.createCapabilityLabels, hcap] using hb
  | some lines =>
    rw [createCapabilityLabels_eq h ord labels gpuNum numTiles lines hcap]
    apply Bounded.capDerive
    exact capScan_preserve ord gpuNum numTiles (fun st => Bounded st.labels)
      (fun _ _ hst => hst) (fun k value st hst => Bounded.capAction numTiles k value st hst)
      lines 0 (capInit labels) hb

/-! ## Keys left alone -/

theorem capDerive_frame (st : CapState) (key : Str)
    (hkey : keyTag key ∉ deviceTags) : (capDerive st).get key = st.labels.get key := by
  have h1 : key ≠ labelNamespace ++ "platform_gen".toList :=
    fun e => hkey (by rw [e]; decide)
  have h2 : key ≠ labelNamespace ++ "media_version".toList :=
    fun e => hkey (by rw [e]; decide)
  have h3 : key ≠ labelNamespace ++ "graphics_version".toList :=
    fun e => hkey (by rw [e]; decide)
  simp only [capDerive]
  split_ifs <;> first
    | rfl
    | exact LabelMap.get_set_of_ne _ _ _ _ h1
    | rw [LabelMap.get_set_of_ne _ _ _ _ h3, LabelMap.get_set_of_ne _ _ _ _ h2]

theorem capAction_frame (numTiles : Nat) (k : CapKey) (value : Str) (st : CapState)
    (key : Str) (hkey : keyTag key ∉ deviceTags) :
    (capAction numTiles k value st).labels.get key = st.labels.get key := by
  apply capAction_get_of_not_written
  intro hmem
  rcases keyTag_of_mem_capWrites k value key hmem with h | h | h <;>
    exact hkey (by rw [h]; decide)

theorem createCapabilityLabels_frame (h : Host) (ord : RangeOrder) (labels : LabelMap)
    (gpuNum : Str) (numTiles : Nat) (key : Str) (hkey : keyTag key ∉ deviceTags) :
    (createCapabilityLabels h ord labels gpuNum numTiles).get key = labels.get key := by
  cases hcap : h.capabilities gpuNum with
  | none => simp [createCapabilityLabels, hcap]
  | some lines =>
    rw [createCapabilityLabels_eq h ord labels gpuNum numTiles lines hcap,
      capDerive_frame _ _ hkey]
    exact capScan_preserve ord gpuNum numTiles
      (fun st => st.labels.get key = labels.get key)
      (fun _ _ hst => hst)
      (fun k value st hst => by
        show (capAction numTiles k value st).labels.get key = labels.get key
        rw [capAction_frame numTiles k value st key hkey]
        exact hst)
      lines 0 (capInit labels) rfl

/-! ## The device loop -/

theorem isDigit_not_space (c : Char) (h : isDigit c = true) :
    c ≠ '\n' ∧ isSpace c = false := by
  unfold isDigit at h
  simp only [Bool.and_eq_true, decide_eq_true_eq] at h
  constructor
  · intro e
    subst e
    revert h
    decide
  · unfold isSpace
    simp only [Bool.or_eq_false_iff, Bool.and_eq_false_iff, decide_eq_false_iff_not,
      beq_eq_false_iff_ne, ne_eq]
    omega

theorem sscanfCard_of_match (name : Str) (h : gpuDeviceMatch name = true) :
    sscanfCard name = some (name.drop 4) := by
  unfold gpuDeviceMatch at h
  simp only [Bool.and_eq_true, Bool.not_eq_true', List.all_eq_true] at h
  obtain ⟨⟨hpre, hne⟩, hall⟩ := h
  unfold sscanfCard
  rw [if_pos hpre]
  cases hd : name.drop 4 with
  | nil => simp [hd] at hne
  | cons d ds =>
    rw [hd] at hall
    have h1 := isDigit_not_space d (hall d (List.mem_cons_self d ds))
    have hskip : skipSpace (d :: ds) = some (d :: ds) := by
      simp [skipSpace, h1.1, h1.2]
    rw [hskip]
    simp only [Option.some.injEq]
    rw [List.takeWhile_eq_self_iff]
    intro c hc
    simp [(isDigit_not_space c (hall c hc)).2]

theorem scanLoop_accepted (h : Host) :
    ∀ (files acc : List Str), (∀ n ∈ acc, gpuDeviceMatch n = true) →
      ∀ n ∈ (scanLoop h files acc).1, gpuDeviceMatch n = true := by
  intro files
  induction files with
  | nil =>
    intro acc hacc n hn
    exact hacc n (by simpa [scanLoop] using hn)
  | cons name rest ih =>
    intro acc hacc n hn
    rw [scanLoop] at hn
    by_cases h1 : gpuDeviceMatch name = true
    · simp only [h1, Bool.not_true, Bool.false_eq_true, if_false] at hn
      cases hv : h.readVendor name with
      | none =>
        simp only [hv] at hn
        exact ih acc hacc n hn
      | some dat =>
        simp only [hv] at hn
        by_cases h2 : trimSpace dat ≠ vendorString
        · rw [if_pos h2] at hn
          exact ih acc hacc n hn
        · rw [if_neg h2] at hn
          by_cases h3 : h.isSriovPFwithVFs name = true
          · rw [if_pos h3] at hn
            exact ih acc hacc n hn
          · rw [if_neg h3] at hn
            by_cases h4 : (!h.drmReadable name) = true
            · rw [if_pos h4] at hn
              exact hacc n hn
            · rw [if_neg h4] at hn
              by_cases h5 : h.gpuFatalErrors name ≠ 0
              · rw [if_pos h5] at hn
                exact ih acc hacc n hn
              · rw [if_neg h5] at hn
                refine ih (acc ++ [name]) ?_ n hn
                intro m hm
                rcases List.mem_append.mp hm with hm | hm
                · exact hacc m hm
                · rw [List.mem_singleton] at hm
                  subst hm
                  exact h1
    · have h1f : gpuDeviceMatch name = false := by simpa using h1
      simp only [h1f, Bool.not_false, if_true] at hn
      exact ih acc hacc n hn

theorem scan_accepted (h : Host) (n : Str) (hn : n ∈ (scan h).1) :
    gpuDeviceMatch n = true := by
  unfold scan at hn
  cases hd : h.readDir with
  | none => simp [hd] at hn
  | some files =>
    rw [hd] at hn
    exact scanLoop_accepted h files [] (fun _ hm => by simp at hm) n hn

theorem deviceStep_ok (h : Host) (ord : RangeOrder) (gpuName : Str) (st st1 : LoopState)
    (hrun : deviceStep h ord gpuName st = .ok st1) :
    ∃ gpuNum, sscanfCard gpuName = some gpuNum ∧
      st1.gpuNumList = st.gpuNumList ++ [gpuName.drop 4] ∧
      st1.labels = addNumericLabel
        (createCapabilityLabels h ord st.labels gpuNum (getTileCount h gpuName))
        (labelNamespace ++ "memory.max".toList)
        (toInt64 (getMemoryAmount h gpuName (getTileCount h gpuName))) := by
  unfold deviceStep at hrun
  cases hs : sscanfCard gpuName with
  | none => simp [hs] at hrun
  | some gpuNum =>
    simp only [hs, Result.ok.injEq] at hrun
    subst hrun
    exact ⟨gpuNum, rfl, rfl, rfl⟩

theorem deviceStep_of_match (h : Host) (ord : RangeOrder) (gpuName : Str) (st : LoopState)
    (hm : gpuDeviceMatch gpuName = true) :
    ∃ st1, deviceStep h ord gpuName st = .ok st1 := by
  unfold deviceStep
  rw [sscanfCard_of_match gpuName hm]
  exact ⟨_, rfl⟩

theorem deviceLoop_append (h : Host) (ord : RangeOrder) (xs ys : List Str) (st : LoopState) :
    deviceLoop h ord (xs ++ ys) st = (deviceLoop h ord xs st).bind (deviceLoop h ord ys) := by
  induction xs generalizing st with
  | nil => rfl
  | cons x rest ih =>
    simp only [List.cons_append, deviceLoop]
    cases deviceStep h ord x st with
    | ok st1 => simp only [Result.bind]; exact ih st1
    | fail e => rfl

theorem deviceLoop_ok (h : Host) (ord : RangeOrder) :
    ∀ (names : List Str) (st st1 : LoopState), deviceLoop h ord names st = .ok st1 →
      st1.gpuNumList = st.gpuNumList ++ names.map (List.drop 4) ∧
      (Bounded st.labels → Bounded st1.labels) ∧
      (∀ key, keyTag key ∉ deviceTags → st1.labels.get key = st.labels.get key) := by
  intro names
  induction names with
  | nil =>
    intro st st1 hrun
    simp only [deviceLoop, Result.ok.injEq] at hrun
    subst hrun
    exact ⟨by simp, fun hb => hb, fun _ _ => rfl⟩
  | cons name rest ih =>
    intro st st1 hrun
    simp only [deviceLoop] at hrun
    obtain ⟨st2, hstep, hrest⟩ := (Result.bind_eq_ok _ _ _).mp hrun
    obtain ⟨gpuNum, _, hlist, hlabels⟩ := deviceStep_ok h ord name st st2 hstep
    obtain ⟨hl, hb, hf⟩ := ih st2 st1 hrest
    refine ⟨?_, ?_, ?_⟩
    · rw [hl, hlist]; simp
    · intro hbd
      apply hb
      rw [hlabels]
      exact Bounded.addNumericLabel _ _ _ (Bounded.createCapabilityLabels h ord _ _ _ hbd)
    · intro key hkey
      rw [hf key hkey, hlabels,
        addNumericLabel_get_of_ne _ _ _ _ (fun e => hkey (by rw [e]; decide)),
        createCapabilityLabels_frame h ord _ _ _ key hkey]

theorem deviceLoop_of_match (h : Host) (ord : RangeOrder) :
    ∀ (names : List Str) (st : LoopState), (∀ n ∈ names, gpuDeviceMatch n = true) →
      ∃ st1, deviceLoop h ord names st = .ok st1 := by
  intro names
  induction names with
  | nil => intro st _; exact ⟨st, rfl⟩
  | cons name rest ih =>
    intro st hall
    obtain ⟨st2, hstep⟩ := deviceStep_of_match h ord name st (hall name (List.mem_cons_self _ _))
    obtain ⟨st1, hrest⟩ := ih st2 (fun n hn => hall n (List.mem_cons_of_mem _ hn))
    exact ⟨st1, by simp only [deviceLoop, hstep, Result.bind]; exact hrest⟩

/-! ## The statements after the device loop -/

theorem storeRest_bounded (name : Str) (chunks : List Str)
    (hchunks : ∀ c ∈ chunks, c.length ≤ labelMaxLength) :
    ∀ (todo i : Nat) (labels lm : LabelMap), storeRest name chunks todo i labels = .ok lm →
      Bounded labels → Bounded lm := by
  intro todo
  induction todo with
  | zero =>
    intro i labels lm hrun hb
    simp only [storeRest, Result.ok.injEq] at hrun
    rw [← hrun]
    exact hb
  | succ todo ih =>
    intro i labels lm hrun hb
    simp only [storeRest] at hrun
    obtain ⟨chunk, hidx, hrest⟩ := (Result.bind_eq_ok _ _ _).mp hrun
    rw [index_eq_ok] at hidx
    exact ih (i + 1) _ lm hrest
      (Bounded.set _ _ _ hb (Or.inl (hchunks chunk (List.get?_mem hidx))))

theorem storeChunks_bounded (name : Str) (chunks : List Str)
    (hchunks : ∀ c ∈ chunks, c.length ≤ labelMaxLength) (bound : Nat) (labels lm : LabelMap)
    (hrun : storeChunks name chunks bound labels = .ok lm) (hb : Bounded labels) :
    Bounded lm := by
  unfold storeChunks at hrun
  obtain ⟨first, hidx, hrest⟩ := (Result.bind_eq_ok _ _ _).mp hrun
  rw [index_eq_ok] at hidx
  exact storeRest_bounded name chunks hchunks _ _ _ lm hrest
    (Bounded.set _ _ _ hb (Or.inl (hchunks first (List.get?_mem hidx))))

theorem split_bounded (str : Str) (chunks : List Str)
    (h : split str labelMaxLength = some chunks) :
    (∀ c ∈ chunks, c.length ≤ labelMaxLength) ∧ chunks.flatten = str ∧ chunks ≠ [] := by
  obtain ⟨cs, hrun, hcat, hbound, hne⟩ :=
    splitLoop_returns labelMaxLength (by decide) (str.length + 1) str [] (Nat.lt_succ_self _)
  unfold split at h
  rw [hrun, List.nil_append, Option.some.injEq] at h
  subst h
  exact ⟨hbound, hcat, hne⟩

theorem split_returns (str : Str) : ∃ chunks, split str labelMaxLength = some chunks := by
  obtain ⟨cs, hrun, _⟩ :=
    splitLoop_returns labelMaxLength (by decide) (str.length + 1) str [] (Nat.lt_succ_self _)
  exact ⟨cs, by simpa [split] using hrun⟩

theorem split_first (str : Str) (chunks : List Str)
    (h : split str labelMaxLength = some chunks) :
    chunks.get? 0 = some (str.take labelMaxLength) := by
  unfold split at h
  rw [splitLoop] at h
  split_ifs at h with hfit
  · simp only [List.nil_append, Option.some.injEq] at h
    subst h
    simp [List.take_of_length_le hfit]
  · obtain ⟨cs, hrun, _⟩ := splitLoop_returns labelMaxLength (by decide) str.length
      (str.drop labelMaxLength) ([] ++ [str.take labelMaxLength])
      (by rw [List.length_drop]; unfold labelMaxLength at hfit ⊢; omega)
    rw [hrun, Option.some.injEq] at h
    subst h
    simp

/-- What a completed run of the statements after the device loop has done when some device was
accepted: `cards0` is the label `cards`, `stored` the label map once the chunks of
`gpu-numbers` are stored; what follows writes keys of the NUMA, millicore and PCI families
only. -/
theorem finishLabels_ok (h : Host) (gpuNameList : List Str) (st : LoopState) (lm : LabelMap)
    (hrun : finishLabels h gpuNameList st = .ok lm) (hpos : 0 < st.gpuNumList.length) :
    ∃ (cards gpuNumLists : List Str) (cards0 : Str) (stored : LabelMap),
      split (stringsJoin gpuNameList ".".toList) labelMaxLength = some cards ∧
      cards.get? 0 = some cards0 ∧
      split (stringsJoin st.gpuNumList ".".toList) labelMaxLength = some gpuNumLists ∧
      storeChunks gpuNumListLabelName gpuNumLists gpuNumLists.length
        ((addNumericLabel st.labels (labelNamespace ++ tilesLabelName) st.tileCount).set
          (labelNamespace ++ gpuListLabelName) cards0) = .ok stored ∧
      (∀ key, keyTag key ∉ ["num".toList, "mil".toList, "pci".toList] →
        lm.get key = stored.get key) ∧
      (Bounded stored → Bounded lm) := by
  simp only [finishLabels, hpos, if_true] at hrun
  obtain ⟨cards, hcards, hrun⟩ := (Result.bind_eq_ok _ _ _).mp hrun
  obtain ⟨cards0, hcards0, hrun⟩ := (Result.bind_eq_ok _ _ _).mp hrun
  obtain ⟨gpuNumLists, hnums, hrun⟩ := (Result.bind_eq_ok _ _ _).mp hrun
  obtain ⟨stored, hstored, hrun⟩ := (Result.bind_eq_ok _ _ _).mp hrun
  obtain ⟨numa, hnuma, hrun⟩ := (Result.bind_eq_ok _ _ _).mp hrun
  rw [splitResult_eq_ok] at hcards hnums
  rw [index_eq_ok] at hcards0
  refine ⟨cards, gpuNumLists, cards0, stored, hcards, hcards0, hnums, hstored, ?_, ?_⟩
  · intro key hkey
    have hnum : keyTag key ≠ "num".toList := fun e => hkey (by rw [e]; decide)
    have hmil : keyTag key ≠ "mil".toList := fun e => hkey (by rw [e]; decide)
    have hpci : keyTag key ≠ "pci".toList := fun e => hkey (by rw [e]; decide)
    have h1 : numa.get key = stored.get key := by
      split_ifs at hnuma
      · obtain ⟨chunks, _, hst⟩ := (Result.bind_eq_ok _ _ _).mp hnuma
        exact storeChunks_frame numaMappingName chunks (by decide) _ _ _ hst key hnum
      · simp only [Result.ok.injEq] at hnuma
        rw [hnuma]
    have h2 : (addNumericLabel numa (labelNamespace ++ millicoreLabelName)
        (wrapInt64 (Int.ofNat (millicoresPerGPU * st.gpuNumList.length)))).get key =
          numa.get key :=
      addNumericLabel_get_of_ne _ _ _ _ (fun e => hmil (by rw [e]; decide))
    split_ifs at hrun
    · obtain ⟨chunks, _, hst⟩ := (Result.bind_eq_ok _ _ _).mp hrun
      rw [storeChunks_frame pciGroupLabelName chunks (by decide) _ _ _ hst key hpci, h2, h1]
    · simp only [Result.ok.injEq] at hrun
      rw [← hrun, h2, h1]
  · intro hb
    have h1 : Bounded numa := by
      split_ifs at hnuma
      · obtain ⟨chunks, hsp, hst⟩ := (Result.bind_eq_ok _ _ _).mp hnuma
        rw [splitResult_eq_ok] at hsp
        exact storeChunks_bounded numaMappingName chunks (split_bounded _ _ hsp).1 _ _ _ hst hb
      · simp only [Result.ok.injEq] at hnuma
        rw [← hnuma]
        exact hb
    have h2 := Bounded.addNumericLabel numa (labelNamespace ++ millicoreLabelName)
      (wrapInt64 (Int.ofNat (millicoresPerGPU * st.gpuNumList.length))) h1
    split_ifs at hrun
    · obtain ⟨chunks, hsp, hst⟩ := (Result.bind_eq_ok _ _ _).mp hrun
      rw [splitResult_eq_ok] at hsp
      exact storeChunks_bounded pciGroupLabelName chunks (split_bounded _ _ hsp).1 _ _ _ hst h2
    · simp only [Result.ok.injEq] at hrun
      rw [← hrun]
      exact h2

/-- A completed run of `createLabels` has scanned without error, run the device loop to its
end, and run the statements after it. -/
theorem createLabels_ok (h : Host) (ord : RangeOrder) (labels lm : LabelMap)
    (hrun : createLabels h ord labels = .ok lm) :
    (scan h).2 = none ∧
    ∃ st, deviceLoop h ord (scan h).1
        { gpuNumList := [], tileCount := 0, numaMapping := [], labels := labels } = .ok st ∧
      finishLabels h (scan h).1 st = .ok lm := by
  unfold createLabels at hrun
  cases hs : scan h with
  | mk names err =>
    rw [hs] at hrun
    cases err with
    | some e => simp at hrun
    | none =>
      simp only at hrun
      obtain ⟨st, hloop, hfin⟩ := (Result.bind_eq_ok _ _ _).mp hrun
      exact ⟨rfl, st, hloop, hfin⟩

theorem LabelMap.get_newLabels (key : Str) : newLabels.get key = none := rfl

theorem bounded_newLabels : Bounded newLabels := by
  intro key value hget
  simp [LabelMap.get_newLabels] at hget

theorem finishLabels_frame (h : Host) (gpuNameList : List Str) (st : LoopState) (lm : LabelMap)
    (hrun : finishLabels h gpuNameList st = .ok lm) (key : Str)
    (hkey : keyTag key ∉ finishTags) : lm.get key = st.labels.get key := by
  have htil : key ≠ labelNamespace ++ tilesLabelName := fun e => hkey (by rw [e]; decide)
  by_cases hpos : 0 < st.gpuNumList.length
  · obtain ⟨cards, gpuNumLists, cards0, stored, _, _, _, hstored, hrest, _⟩ :=
      finishLabels_ok h gpuNameList st lm hrun hpos
    rw [hrest key (fun hm => hkey (by
        simp only [List.mem_cons, List.mem_singleton, List.not_mem_nil, or_false] at hm
        rcases hm with e | e | e <;> (rw [e]; decide))),
      storeChunks_frame gpuNumListLabelName gpuNumLists (by decide) _ _ _ hstored key
        (fun e => hkey (by rw [e]; decide)),
      LabelMap.get_set_of_ne _ _ _ _ (fun e => hkey (by rw [e]; decide)),
      addNumericLabel_get_of_ne _ _ _ _ htil]
  · simp only [finishLabels, hpos, if_false, Result.ok.injEq] at hrun
    rw [← hrun, addNumericLabel_get_of_ne _ _ _ _ htil]

theorem finishLabels_bounded (h : Host) (gpuNameList : List Str) (st : LoopState)
    (lm : LabelMap) (hrun : finishLabels h gpuNameList st = .ok lm) (hb : Bounded st.labels) :
    Bounded lm := by
  have htiles := Bounded.addNumericLabel st.labels (labelNamespace ++ tilesLabelName)
    st.tileCount hb
  by_cases hpos : 0 < st.gpuNumList.length
  · obtain ⟨cards, gpuNumLists, cards0, stored, hcards, hcards0, hnums, hstored, _, hbd⟩ :=
      finishLabels_ok h gpuNameList st lm hrun hpos
    apply hbd
    refine storeChunks_bounded gpuNumListLabelName gpuNumLists (split_bounded _ _ hnums).1
      _ _ _ hstored (Bounded.set _ _ _ htiles (Or.inl ?_))
    exact (split_bounded _ _ hcards).1 cards0 (List.get?_mem hcards0)
  · simp only [finishLabels, hpos, if_false, Result.ok.injEq] at hrun
    rw [← hrun]
    exact htiles

/-! ## Completion -/

/-- With `maxLength` zero and a non-empty string the loop of `split` never returns. -/
theorem splitLoop_zero_diverges (str : Str) (hne : str ≠ []) :
    ∀ (fuel : Nat) (results : List Str), splitLoop fuel str 0 results = none := by
  intro fuel
  induction fuel with
  | zero => intro results; rfl
  | succ fuel ih =>
    intro results
    have hlen : ¬ str.length ≤ 0 := by
      have := List.length_pos.mpr hne
      omega
    simp only [splitLoop, hlen, if_false, List.drop_zero]
    exact ih _

theorem storeChunks_completes (name : Str) (str : Str) (labels : LabelMap) :
    ∃ lm, (splitResult str labelMaxLength).bind
      (fun chunks => storeChunks name chunks chunks.length labels) = .ok lm := by
  obtain ⟨chunks, hsplit⟩ := split_returns str
  obtain ⟨lm, hrun, _⟩ := storeChunks_ok name chunks labels (split_bounded _ _ hsplit).2.2
  exact ⟨lm, by simp only [splitResult, hsplit, Result.bind]; exact hrun⟩

/-- The statements after the device loop complete when the PCI group value is empty. -/
theorem finishLabels_completes (h : Host) (gpuNameList : List Str) (st : LoopState)
    (hpci : createPCIGroupLabel h st.gpuNumList = []) :
    ∃ lm, finishLabels h gpuNameList st = .ok lm := by
  by_cases hpos : 0 < st.gpuNumList.length
  · obtain ⟨cards, hcards⟩ := split_returns (stringsJoin gpuNameList ".".toList)
    have hcpos : 0 < cards.length := List.length_pos.mpr (split_bounded _ _ hcards).2.2
    have hidx : index cards 0 = .ok (cards.get ⟨0, hcpos⟩) := by
      rw [index_eq_ok]
      exact List.get?_eq_get hcpos
    obtain ⟨nums, hnums⟩ := split_returns (stringsJoin st.gpuNumList ".".toList)
    obtain ⟨stored, hstored, _⟩ := storeChunks_ok gpuNumListLabelName nums
      ((addNumericLabel st.labels (labelNamespace ++ tilesLabelName) st.tileCount).set
        (labelNamespace ++ gpuListLabelName) (cards.get ⟨0, hcpos⟩))
      (split_bounded _ _ hnums).2.2
    simp only [finishLabels, hpos, if_true, splitResult, hcards, hnums, hidx, hstored,
      Result.bind, hpci, ne_eq, not_true_eq_false, if_false]
    by_cases hnuma : 0 < st.numaMapping.length
    · obtain ⟨lm, hlm⟩ := storeChunks_completes numaMappingName
        (createNumaNodeMappingLabel st.numaMapping) stored
      simp only [hnuma, if_true]
      cases hs : split (createNumaNodeMappingLabel st.numaMapping) labelMaxLength with
      | none => simp [splitResult, hs, Result.bind] at hlm
      | some chunks =>
        simp only [splitResult, hs, Result.bind] at hlm
        simp only [hlm]
        exact ⟨_, rfl⟩
    · simp only [hnuma, if_false]
      exact ⟨_, rfl⟩
  · exact ⟨addNumericLabel st.labels (labelNamespace ++ tilesLabelName) st.tileCount,
      by simp only [finishLabels, hpos, if_false]⟩

/-- The method `createLabels` completes when the scan succeeds and the PCI group value is empty
(PCI grouping off, or no device in a group). -/
theorem createLabels_completes (h : Host) (ord : RangeOrder) (labels : LabelMap)
    (hscan : (scan h).2 = none)
    (hpci : createPCIGroupLabel h ((scan h).1.map (List.drop 4)) = []) :
    ∃ lm, createLabels h ord labels = .ok lm := by
  obtain ⟨st, hloop⟩ := deviceLoop_of_match h ord (scan h).1
    { gpuNumList := [], tileCount := 0, numaMapping := [], labels := labels }
    (fun n hn => scan_accepted h n hn)
  obtain ⟨hlist, _, _⟩ := deviceLoop_ok h ord _ _ _ hloop
  simp only [List.nil_append] at hlist
  obtain ⟨lm, hfin⟩ := finishLabels_completes h (scan h).1 st (by rw [hlist]; exact hpci)
  refine ⟨lm, ?_⟩
  unfold createLabels
  cases hs : scan h with
  | mk names err =>
    rw [hs] at hscan hloop hfin
    simp only at hscan
    subst hscan
    simp only [hloop, Result.bind]
    exact hfin

/-! ## The label families of `createLabels` -/

/-- C4: after a scan that accepted some device, `createLabels` on a fresh label map completes
when the PCI group value is empty, and whenever it completes the dot-joined list of the device
numbers in scan order is cut by `split` into chunks of at most 63 characters that concatenate
to it, and chunk `i` (from zero) is the value of `gpu-numbers` for `i = 0` and of
`gpu-numbers<i+1>` otherwise; no further key of that family is present. -/
theorem createLabels_gpu_numbers (h : Host) (ord : RangeOrder)
    (hscan : (scan h).2 = none) (hne : (scan h).1 ≠ []) :
    (createPCIGroupLabel h ((scan h).1.map (List.drop 4)) = [] →
      ∃ lm, createLabels h ord newLabels = .ok lm) ∧
    ∀ lm, createLabels h ord newLabels = .ok lm →
      ∃ chunks : List Str,
        split (stringsJoin ((scan h).1.map (List.drop 4)) ".".toList) labelMaxLength =
          some chunks ∧
        (∀ c ∈ chunks, c.length ≤ 63) ∧
        chunks.flatten = stringsJoin ((scan h).1.map (List.drop 4)) ".".toList ∧
        ∀ i, lm.get (chunkKey gpuNumListLabelName i) = chunks.get? i := by
  refine ⟨createLabels_completes h ord newLabels hscan, ?_⟩
  intro lm hrun
  obtain ⟨_, st, hloop, hfin⟩ := createLabels_ok h ord newLabels lm hrun
  obtain ⟨hlist, _, hframe⟩ := deviceLoop_ok h ord _ _ _ hloop
  simp only [List.nil_append] at hlist
  have hpos : 0 < st.gpuNumList.length := by
    rw [hlist, List.length_map]
    exact List.length_pos.mpr hne
  obtain ⟨cards, chunks, cards0, stored, _, _, hnums, hstored, hrest, _⟩ :=
    finishLabels_ok h _ st lm hfin hpos
  rw [hlist] at hnums
  obtain ⟨hbound, hcat, hnil⟩ := split_bounded _ _ hnums
  refine ⟨chunks, hnums, hbound, hcat, ?_⟩
  obtain ⟨lm1, hrun1, hget, hother⟩ := storeChunks_ok gpuNumListLabelName chunks
    ((addNumericLabel st.labels (labelNamespace ++ tilesLabelName) st.tileCount).set
      (labelNamespace ++ gpuListLabelName) cards0) hnil
  rw [hstored, Result.ok.injEq] at hrun1
  subst hrun1
  intro i
  have htag : keyTag (chunkKey gpuNumListLabelName i) = "gpu".toList := by
    rw [keyTag_chunkKey _ _ (by decide)]; decide
  rw [hrest _ (by rw [htag]; decide)]
  by_cases hi : i < chunks.length
  · exact hget i hi
  · rw [hother _ (fun j hj e => by
      have := chunkKey_injective _ _ _ e
      omega)]
    rw [LabelMap.get_set_of_ne _ _ _ _ (fun e => by
        have := congrArg keyTag e
        rw [htag] at this
        revert this
        decide),
      addNumericLabel_get_of_ne _ _ _ _ (fun e => by
        have := congrArg keyTag e
        rw [htag] at this
        revert this
        decide),
      hframe _ (by rw [htag]; decide)]
    rw [List.get?_eq_none.mpr (by omega)]
    rfl

set_option maxRecDepth 100000 in
/-- C4 on `plainHost 25`, where `gpu-numbers` takes two chunks. -/
theorem createLabels_gpu_numbers_witness :
    (scan (plainHost 25)).2 = none ∧
    (scan (plainHost 25)).1 ≠ [] ∧
    createLabels (plainHost 25) sourceOrder newLabels = .ok plainLabels25 ∧
    ∃ chunks : List Str,
      split (stringsJoin ((scan (plainHost 25)).1.map (List.drop 4)) ".".toList)
        labelMaxLength = some chunks ∧
      (∀ c ∈ chunks, c.length ≤ 63) ∧
      chunks.flatten = stringsJoin ((scan (plainHost 25)).1.map (List.drop 4)) ".".toList ∧
      ∀ i, plainLabels25.get (chunkKey gpuNumListLabelName i) = chunks.get? i :=
  ⟨by decide, by decide, by decide,
    (createLabels_gpu_numbers (plainHost 25) sourceOrder (by decide) (by decide)).2
      plainLabels25 (by decide)⟩

/-- C5 (amended): when `createLabels` completes on a fresh label map, every value of the label
map is at most 63 characters long, except possibly the values of `platform_gen`,
`media_version` and `graphics_version`, which hold text of the capability file as it stands. -/
theorem createLabels_values_bounded (h : Host) (ord : RangeOrder) (lm : LabelMap)
    (hrun : createLabels h ord newLabels = .ok lm) (key value : Str)
    (hget : lm.get key = some value) (hkey : key ∉ capValueKeys) : value.length ≤ 63 := by
  obtain ⟨_, st, hloop, hfin⟩ := createLabels_ok h ord newLabels lm hrun
  obtain ⟨_, hb, _⟩ := deviceLoop_ok h ord _ _ _ hloop
  have hbounded := finishLabels_bounded h _ st lm hfin (hb bounded_newLabels)
  rcases hbounded key value hget with hlen | hmem
  · exact hlen
  · exact absurd hmem hkey

/-- C5 (amended) on `capHost [longGenLine]`, for the label `millicores`. -/
theorem createLabels_values_bounded_witness :
    createLabels (capHost [longGenLine]) sourceOrder newLabels = .ok longGenLabels ∧
    longGenLabels.get "gpu.intel.com/millicores".toList = some "1000".toList ∧
    "gpu.intel.com/millicores".toList ∉ capValueKeys ∧
    "1000".toList.length ≤ 63 :=
  ⟨by decide, by decide, by decide,
    createLabels_values_bounded (capHost [longGenLine]) sourceOrder longGenLabels
      (by decide) "gpu.intel.com/millicores".toList "1000".toList (by decide) (by decide)⟩

/-- C5 (counterexample): with the single device `card0` and the capability line `gen: `
followed by 64 digits, `createLabels` completes and the value of `platform_gen` is 64
characters long. -/
theorem createLabels_value_too_long :
    ((createLabels (capHost [longGenLine]) sourceOrder newLabels).toOption.bind
      (fun lm => lm.get (labelNamespace ++ "platform_gen".toList))).map List.length =
      some 64 := by
  decide

/-- C6 (amended): when `createLabels` completes on a fresh label map after a scan that accepted
some device, the label `cards` holds the first chunk of the dot-joined device names, that is
their first 63 characters (the whole join when it is no longer than that), and no continuation
key `cards<i>` is present: what the join has beyond 63 characters is dropped. -/
theorem createLabels_cards (h : Host) (ord : RangeOrder) (lm : LabelMap)
    (hrun : createLabels h ord newLabels = .ok lm) (hne : (scan h).1 ≠ []) :
    lm.get (labelNamespace ++ gpuListLabelName) =
      some ((stringsJoin (scan h).1 ".".toList).take 63) ∧
    ∀ i, 0 < i → lm.get (chunkKey gpuListLabelName i) = none := by
  obtain ⟨_, st, hloop, hfin⟩ := createLabels_ok h ord newLabels lm hrun
  obtain ⟨hlist, _, hframe⟩ := deviceLoop_ok h ord _ _ _ hloop
  simp only [List.nil_append] at hlist
  have hpos : 0 < st.gpuNumList.length := by
    rw [hlist, List.length_map]
    exact List.length_pos.mpr hne
  obtain ⟨cards, chunks, cards0, stored, hcards, hcards0, _, hstored, hrest, _⟩ :=
    finishLabels_ok h _ st lm hfin hpos
  have hfirst := split_first _ _ hcards
  rw [hcards0, Option.some.injEq] at hfirst
  have hstep : ∀ key, keyTag key = "car".toList → lm.get key =
      ((addNumericLabel st.labels (labelNamespace ++ tilesLabelName) st.tileCount).set
        (labelNamespace ++ gpuListLabelName) cards0).get key := by
    intro key htag
    rw [hrest key (by rw [htag]; decide),
      storeChunks_frame gpuNumListLabelName chunks (by decide) _ _ _ hstored key
        (by rw [htag]; decide)]
  constructor
  · rw [hstep _ (by decide), LabelMap.get_set_self, hfirst]
    rfl
  · intro i hi
    have htag : keyTag (chunkKey gpuListLabelName i) = "car".toList := by
      rw [keyTag_chunkKey _ _ (by decide)]; decide
    have hne0 : chunkKey gpuListLabelName i ≠ labelNamespace ++ gpuListLabelName := by
      intro e
      have : chunkKey gpuListLabelName i = chunkKey gpuListLabelName 0 := by
        rw [e]; simp [chunkKey]
      have := chunkKey_injective _ _ _ this
      omega
    rw [hstep _ htag, LabelMap.get_set_of_ne _ _ _ _ hne0,
      addNumericLabel_get_of_ne _ _ _ _ (fun e => by
        have := congrArg keyTag e
        rw [htag] at this
        revert this
        decide),
      hframe _ (by rw [htag]; decide)]
    rfl

set_option maxRecDepth 100000 in
/-- C6 (amended) on `plainHost 11`. -/
theorem createLabels_cards_witness :
    createLabels (plainHost 11) sourceOrder newLabels = .ok plainLabels11 ∧
    (scan (plainHost 11)).1 ≠ [] ∧
    plainLabels11.get (labelNamespace ++ gpuListLabelName) =
      some ((stringsJoin (scan (plainHost 11)).1 ".".toList).take 63) ∧
    ∀ i, 0 < i → plainLabels11.get (chunkKey gpuListLabelName i) = none :=
  ⟨by decide, by decide,
    createLabels_cards (plainHost 11) sourceOrder plainLabels11 (by decide) (by decide)⟩

set_option maxRecDepth 100000 in
/-- C6 (counterexample): with the 11 devices `card0` … `card10` the dot-joined device names
are 66 characters long; `createLabels` completes, the label `cards` holds the first 63 of them
and differs from the join, and the only labels are `memory.max`, `tiles`, `cards`,
`gpu-numbers` and `millicores`: no continuation key carries the rest. -/
theorem createLabels_cards_truncated :
    (scan (plainHost 11)).2 = none ∧
    (stringsJoin (scan (plainHost 11)).1 ".".toList).length = 66 ∧
    createLabels (plainHost 11) sourceOrder newLabels = .ok plainLabels11 ∧
    plainLabels11.get (labelNamespace ++ gpuListLabelName) =
      some "card0.card1.card2.card3.card4.card5.card6.card7.card8.card9.car".toList ∧
    plainLabels11.get (labelNamespace ++ gpuListLabelName) ≠
      some (stringsJoin (scan (plainHost 11)).1 ".".toList) ∧
    plainLabels11.get (labelNamespace ++ gpuListLabelName ++ "2".toList) = none ∧
    plainLabels11.map Prod.fst =
      ["gpu.intel.com/memory.max".toList, "gpu.intel.com/tiles".toList,
       "gpu.intel.com/cards".toList, "gpu.intel.com/gpu-numbers".toList,
       "gpu.intel.com/millicores".toList] := by
  decide

/-! ## The platform labels -/

theorem append_ne_of_getLast_ne (a b e1 e2 : Str) (h1 : e1 ≠ []) (h2 : e2 ≠ [])
    (h : e1.getLast? ≠ e2.getLast?) : a ++ e1 ≠ b ++ e2 := by
  intro e
  have := congrArg List.getLast? e
  rw [List.getLast?_append, List.getLast?_append] at this
  cases he1 : e1.getLast? with
  | none => exact h1 (List.getLast?_eq_none_iff.mp he1)
  | some x =>
    cases he2 : e2.getLast? with
    | none => exact h2 (List.getLast?_eq_none_iff.mp he2)
    | some y =>
      rw [he1, he2] at this h
      simp only [Option.or_some] at this
      exact h this

theorem platform_tiles_key_injective (value name : Str)
    (h : labelNamespace ++ "platform_".toList ++ name ++ ".tiles".toList =
      labelNamespace ++ "platform_".toList ++ value ++ ".tiles".toList) : value = name := by
  have h1 := List.append_cancel_right h
  exact (List.append_cancel_left h1).symm

/-- The action of `platform:` sets the tile label of the platform it is given to the tile count
of the device, and leaves the tile labels of other platforms alone. -/
theorem capAction_platform_tiles (numTiles : Nat) (value name : Str) (st : CapState) :
    (capAction numTiles .platform value st).labels.get
        (labelNamespace ++ "platform_".toList ++ name ++ ".tiles".toList) =
      if value = name then some (formatInt (toInt64 numTiles))
      else st.labels.get (labelNamespace ++ "platform_".toList ++ name ++ ".tiles".toList) := by
  simp only [capAction]
  rw [LabelMap.get_set_of_ne _ _ _ _
    (append_ne_of_getLast_ne _ _ _ _ (by decide) (by decide) (by decide))]
  by_cases hv : value = name
  · subst hv
    rw [LabelMap.get_set_self, if_pos rfl]
  · rw [if_neg hv, LabelMap.get_set_of_ne _ _ _ _
        (fun e => hv (platform_tiles_key_injective value name e)),
      addNumericLabel_get_of_ne _ _ _ _
        (append_ne_of_getLast_ne _ _ _ _ (by decide) (by decide) (by decide))]

theorem platform_tiles_not_written (k : CapKey) (value name : Str) (hk : k ≠ .platform) :
    labelNamespace ++ "platform_".toList ++ name ++ ".tiles".toList ∉ capWrites k value := by
  cases k with
  | platform => exact absurd rfl hk
  | media =>
    simp only [capWrites, List.mem_singleton]
    exact fun e => absurd (congrArg keyTag e) (by rw [keyTag_platform]; decide)
  | graphics =>
    simp only [capWrites, List.mem_singleton]
    exact fun e => absurd (congrArg keyTag e) (by rw [keyTag_platform]; decide)
  | gen =>
    simp only [capWrites, List.mem_singleton]
    exact fun e => platform_key_ne_gen name ".tiles".toList (by decide) e.symm

theorem capDerive_get_of_ne (st : CapState) (key : Str)
    (h1 : key ≠ labelNamespace ++ "platform_gen".toList)
    (h2 : key ≠ labelNamespace ++ "media_version".toList)
    (h3 : key ≠ labelNamespace ++ "graphics_version".toList) :
    (capDerive st).get key = st.labels.get key := by
  simp only [capDerive]
  split_ifs <;> first
    | rfl
    | exact LabelMap.get_set_of_ne _ _ _ _ h1
    | rw [LabelMap.get_set_of_ne _ _ _ _ h3, LabelMap.get_set_of_ne _ _ _ _ h2]

/-- After `createCapabilityLabels` on a capability file that reports the platform `name`, the
tile label of that platform is the tile count of the device. -/
theorem createCapabilityLabels_platform_tiles (h : Host) (ord : RangeOrder) (labels : LabelMap)
    (gpuNum : Str) (numTiles : Nat) (lines : List Str) (name : Str)
    (hcap : h.capabilities gpuNum = some lines)
    (hname : reported .platform lines = some name) :
    (createCapabilityLabels h ord labels gpuNum numTiles).get
        (labelNamespace ++ "platform_".toList ++ name ++ ".tiles".toList) =
      some (formatInt (toInt64 numTiles)) := by
  rw [createCapabilityLabels_eq h ord labels gpuNum numTiles lines hcap]
  rw [capDerive_get_of_ne _ _
    (fun e => platform_key_ne_gen name ".tiles".toList (by decide) e.symm)
    (fun e => absurd (congrArg keyTag e) (by rw [keyTag_platform]; decide))
    (fun e => absurd (congrArg keyTag e) (by rw [keyTag_platform]; decide))]
  have hobs := capScan_observe ord gpuNum numTiles .platform
    (fun st => st.labels.get (labelNamespace ++ "platform_".toList ++ name ++ ".tiles".toList))
    (fun value old => if value = name then some (formatInt (toInt64 numTiles)) else old)
    (fun _ _ => rfl)
    (fun k value st hk => capAction_get_of_not_written numTiles k value st _
      (platform_tiles_not_written k value name hk))
    (fun value st => capAction_platform_tiles numTiles value name st)
    lines 0 (capInit labels) (capInit_nodup labels)
  beta_reduce at hobs
  rw [hobs, hname]
  simp only [mem_capInit, if_true]

/-- C10 (amended): when `createLabels` completes and the capability file of the last accepted
device reports the platform `name`, the label `platform_<name>.tiles` is the decimal tile count
of that last device: each device of the platform overwrites the label with its own tile count,
the counts are not added up. -/
theorem createLabels_platform_tiles (h : Host) (ord : RangeOrder) (labels lm : LabelMap)
    (front : List Str) (last : Str) (lines : List Str) (name : Str)
    (hscan : (scan h).1 = front ++ [last])
    (hcap : h.capabilities (last.drop 4) = some lines)
    (hname : reported .platform lines = some name)
    (hrun : createLabels h ord labels = .ok lm) :
    lm.get (labelNamespace ++ "platform_".toList ++ name ++ ".tiles".toList) =
      some (formatInt (toInt64 (getTileCount h last))) := by
  obtain ⟨_, st, hloop, hfin⟩ := createLabels_ok h ord labels lm hrun
  rw [hscan, deviceLoop_append] at hloop
  obtain ⟨st0, _, hlast⟩ := (Result.bind_eq_ok _ _ _).mp hloop
  simp only [deviceLoop] at hlast
  obtain ⟨st1, hstep, hnil⟩ := (Result.bind_eq_ok _ _ _).mp hlast
  simp only [Result.ok.injEq] at hnil
  subst hnil
  obtain ⟨gpuNum, hnum, _, hlabels⟩ := deviceStep_ok h ord last st0 st1 hstep
  have hmatch : gpuDeviceMatch last = true :=
    scan_accepted h last (by rw [hscan]; simp)
  rw [sscanfCard_of_match last hmatch, Option.some.injEq] at hnum
  subst hnum
  have htag : keyTag (labelNamespace ++ "platform_".toList ++ name ++ ".tiles".toList) =
      "pla".toList := keyTag_platform name ".tiles".toList
  rw [finishLabels_frame h _ st1 lm hfin _ (by rw [htag]; decide), hlabels,
    addNumericLabel_get_of_ne _ _ _ _ (fun e => by
      have := congrArg keyTag e
      rw [htag] at this
      revert this
      decide)]
  exact createCapabilityLabels_platform_tiles h ord st0.labels (last.drop 4)
    (getTileCount h last) lines name hcap hname

/-- C10 (amended) on `twoTileHost`. -/
theorem createLabels_platform_tiles_witness :
    (scan twoTileHost).1 = ["card0".toList] ++ ["card1".toList] ∧
    twoTileHost.capabilities ("card1".toList.drop 4) = some ["platform: DG1".toList] ∧
    reported .platform ["platform: DG1".toList] = some "DG1".toList ∧
    createLabels twoTileHost sourceOrder newLabels = .ok twoTileLabels ∧
    twoTileLabels.get
      (labelNamespace ++ "platform_".toList ++ "DG1".toList ++ ".tiles".toList) =
      some (formatInt (toInt64 (getTileCount twoTileHost "card1".toList))) :=
  ⟨by decide, by decide, by decide, by decide,
    createLabels_platform_tiles twoTileHost sourceOrder newLabels twoTileLabels ["card0".toList]
      "card1".toList ["platform: DG1".toList] "DG1".toList (by decide) (by decide) (by decide)
      (by decide)⟩

/-- C10 (counterexample): `card0` with two tiles and `card1` with one tile both report the
platform `DG1`; after `createLabels` the label `platform_DG1.tiles` is `1`, the tile count of
`card1`, and not `3`, the sum of the tile counts (which is the value of the label `tiles`). -/
theorem createLabels_platform_tiles_not_summed :
    (scan twoTileHost) = (["card0".toList, "card1".toList], none) ∧
    getTileCount twoTileHost "card0".toList = 2 ∧
    getTileCount twoTileHost "card1".toList = 1 ∧
    reported .platform ["platform: DG1".toList] = some "DG1".toList ∧
    (createLabels twoTileHost sourceOrder newLabels).toOption.bind
      (fun lm => lm.get "gpu.intel.com/platform_DG1.tiles".toList) = some "1".toList ∧
    (createLabels twoTileHost sourceOrder newLabels).toOption.bind
      (fun lm => lm.get "gpu.intel.com/platform_DG1.tiles".toList) ≠
        some (formatInt (2 + 1)) ∧
    (createLabels twoTileHost sourceOrder newLabels).toOption.bind
      (fun lm => lm.get "gpu.intel.com/tiles".toList) = some "3".toList := by
  decide

/-! ## The NUMA mapping label -/

theorem Grouping.get_of_mem {κ : Type} [DecidableEq κ] (mapping : Grouping κ)
    (hnd : (mapping.map Prod.fst).Nodup) (key : κ) (devices : List Str)
    (hmem : (key, devices) ∈ mapping) : mapping.get key = devices := by
  induction mapping with
  | nil => simp at hmem
  | cons p rest ih =>
    obtain ⟨k, v⟩ := p
    simp only [List.map_cons, List.nodup_cons, List.mem_map, Prod.exists, exists_and_right,
      exists_eq_right, not_exists] at hnd
    rcases List.mem_cons.mp hmem with e | hm
    · cases e
      simp [Grouping.get]
    · have hk : k ≠ key := fun e => hnd.1 devices (by rw [e]; exact hm)
      simp only [Grouping.get, hk, if_false]
      exact ih hnd.2 hm

theorem Grouping.get_of_not_mem {κ : Type} [DecidableEq κ] (mapping : Grouping κ) (key : κ)
    (h : key ∉ mapping.map Prod.fst) : mapping.get key = [] := by
  induction mapping with
  | nil => rfl
  | cons p rest ih =>
    obtain ⟨k, v⟩ := p
    simp only [List.map_cons, List.mem_cons, not_or] at h
    have hk : k ≠ key := fun e => h.1 e.symm
    simp only [Grouping.get, hk, if_false]
    exact ih h.2

theorem Grouping.get_perm {κ : Type} [DecidableEq κ] (m1 m2 : Grouping κ) (hperm : m1.Perm m2)
    (hnd : (m2.map Prod.fst).Nodup) (key : κ) : m1.get key = m2.get key := by
  have hnd1 : (m1.map Prod.fst).Nodup := ((hperm.map Prod.fst).nodup_iff).mpr hnd
  by_cases hk : key ∈ m1.map Prod.fst
  · obtain ⟨p, hp, rfl⟩ := List.mem_map.mp hk
    rw [Grouping.get_of_mem m1 hnd1 p.1 p.2 hp,
      Grouping.get_of_mem m2 hnd p.1 p.2 (hperm.mem_iff.mp hp)]
  · rw [Grouping.get_of_not_mem m1 key hk,
      Grouping.get_of_not_mem m2 key (fun h => hk (((hperm.map Prod.fst).mem_iff).mpr h))]

theorem sortInts_perm (m1 m2 : List Int) (hperm : m1.Perm m2) : sortInts m1 = sortInts m2 := by
  unfold sortInts
  exact List.eq_of_perm_of_sorted
    (((List.perm_insertionSort _ m1).trans hperm).trans (List.perm_insertionSort _ m2).symm)
    (List.sorted_insertionSort _ m1) (List.sorted_insertionSort _ m2)

/-- C7: for a NUMA mapping (node ids without repetition), `createNumaNodeMappingLabel` returns
the `_`-join, over the entries of the mapping in ascending order of node id, of the node id,
`-`, and the `.`-join of the node's devices in the order of the entry; the result is the same
for every order of enumeration of the mapping. -/
theorem createNumaNodeMappingLabel_sorted (mapping : Grouping Int)
    (hnd : (mapping.map Prod.fst).Nodup) :
    (∃ entries : Grouping Int,
      entries.Perm mapping ∧ (entries.map Prod.fst).Sorted (fun a b => a < b) ∧
      createNumaNodeMappingLabel mapping =
        stringsJoin
          (entries.map (fun e => formatInt e.1 ++ "-".toList ++ stringsJoin e.2 ".".toList))
          "_".toList) ∧
    (∀ enumerated : Grouping Int, enumerated.Perm mapping →
      createNumaNodeMappingLabel enumerated = createNumaNodeMappingLabel mapping) := by
  constructor
  · refine ⟨(sortInts (mapping.map Prod.fst)).map (fun n => (n, mapping.get n)), ?_, ?_, ?_⟩
    · have h1 : ((sortInts (mapping.map Prod.fst)).map (fun n => (n, mapping.get n))).Perm
          ((mapping.map Prod.fst).map (fun n => (n, mapping.get n))) :=
        (List.perm_insertionSort _ _).map _
      have h2 : (mapping.map Prod.fst).map (fun n => (n, mapping.get n)) = mapping := by
        rw [List.map_map]
        conv_rhs => rw [← List.map_id mapping]
        apply List.map_congr_left
        intro p hp
        simp only [Function.comp, id]
        rw [Grouping.get_of_mem mapping hnd p.1 p.2 hp]
      rw [h2] at h1
      exact h1
    · rw [List.map_map]
      have : (Prod.fst ∘ fun n => (n, mapping.get n)) = (id : Int → Int) := rfl
      rw [this, List.map_id]
      have hs : (sortInts (mapping.map Prod.fst)).Sorted (fun a b => a ≤ b) :=
        List.sorted_insertionSort _ _
      have hn : (sortInts (mapping.map Prod.fst)).Nodup :=
        ((List.perm_insertionSort _ _).nodup_iff).mpr hnd
      exact hs.lt_of_le hn
    · simp only [createNumaNodeMappingLabel]
      rw [List.map_map]
      rfl
  · intro enumerated hperm
    simp only [createNumaNodeMappingLabel]
    rw [sortInts_perm _ _ (hperm.map Prod.fst)]
    congr 1
    apply List.map_congr_left
    intro n _
    rw [Grouping.get_perm enumerated mapping hperm hnd n]

/-- C7 on the mapping of node 1 to device 1 and of node 0 to devices 0 and 2. -/
theorem createNumaNodeMappingLabel_sorted_witness :
    createNumaNodeMappingLabel [(1, ["1".toList]), (0, ["0".toList, "2".toList])] =
      "0-0.2_1-1".toList ∧
    (([(1, ["1".toList]), (0, ["0".toList, "2".toList])] : Grouping Int).map Prod.fst).Nodup ∧
    ((∃ entries : Grouping Int,
      entries.Perm [(1, ["1".toList]), (0, ["0".toList, "2".toList])] ∧
      (entries.map Prod.fst).Sorted (fun a b => a < b) ∧
      createNumaNodeMappingLabel [(1, ["1".toList]), (0, ["0".toList, "2".toList])] =
        stringsJoin
          (entries.map (fun e => formatInt e.1 ++ "-".toList ++ stringsJoin e.2 ".".toList))
          "_".toList) ∧
    (∀ enumerated : Grouping Int,
      enumerated.Perm [(1, ["1".toList]), (0, ["0".toList, "2".toList])] →
      createNumaNodeMappingLabel enumerated =
        createNumaNodeMappingLabel [(1, ["1".toList]), (0, ["0".toList, "2".toList])])) :=
  ⟨by decide, by decide,
    createNumaNodeMappingLabel_sorted [(1, ["1".toList]), (0, ["0".toList, "2".toList])]
      (by decide)⟩

/-! ## No accepted device -/

/-- C20: when `scan` succeeds with no accepted device, `createLabels` on an empty label map
completes with exactly one label, `gpu.intel.com/tiles` with the value `0`; none of `cards`,
`gpu-numbers`, `millicores`, `memory.max`, `numa-gpu-map` and `pci-groups` is present. -/
theorem createLabels_no_device (h : Host) (ord : RangeOrder) (hscan : scan h = ([], none)) :
    createLabels h ord newLabels = .ok [("gpu.intel.com/tiles".toList, "0".toList)] ∧
    ∀ name ∈ [gpuListLabelName, gpuNumListLabelName, millicoreLabelName, "memory.max".toList,
        numaMappingName, pciGroupLabelName],
      LabelMap.get [("gpu.intel.com/tiles".toList, "0".toList)] (labelNamespace ++ name) =
        none := by
  constructor
  · simp only [createLabels, hscan, deviceLoop, Result.bind, finishLabels, List.length_nil,
      Nat.lt_irrefl, if_false]
    decide
  · decide

/-- C20 on `plainHost 0`, whose directory is empty. -/
theorem createLabels_no_device_witness :
    scan (plainHost 0) = ([], none) ∧
    createLabels (plainHost 0) sourceOrder newLabels =
      .ok [("gpu.intel.com/tiles".toList, "0".toList)] ∧
    ∀ name ∈ [gpuListLabelName, gpuNumListLabelName, millicoreLabelName, "memory.max".toList,
        numaMappingName, pciGroupLabelName],
      LabelMap.get [("gpu.intel.com/tiles".toList, "0".toList)] (labelNamespace ++ name) =
        none :=
  ⟨by decide, createLabels_no_device (plainHost 0) sourceOrder (by decide)⟩

/-! ## The order of the range over the search strings -/

theorem capLine_order (visit1 visit2 : List CapKey → List CapKey) (numTiles : Nat)
    (line : Str) (st : CapState) (h1 : (visit1 st.pending).Perm st.pending)
    (h2 : (visit2 st.pending).Perm st.pending) :
    capLine visit1 numTiles line st = capLine visit2 numTiles line st := by
  rw [capLine_eq visit1 numTiles line st h1, capLine_eq visit2 numTiles line st h2]

theorem capScan_order (ord1 ord2 : RangeOrder) (gpuNum1 gpuNum2 : Str) (numTiles : Nat) :
    ∀ (lines : List Str) (i j : Nat) (st : CapState),
      capScan ord1 gpuNum1 numTiles i lines st = capScan ord2 gpuNum2 numTiles j lines st := by
  intro lines
  induction lines with
  | nil => intro i j st; rfl
  | cons line rest ih =>
    intro i j st
    simp only [capScan]
    rw [capLine_order (ord1.visit gpuNum1 i) (ord2.visit gpuNum2 j) numTiles line st
      (ord1.perm gpuNum1 i st.pending) (ord2.perm gpuNum2 j st.pending)]
    cases capLine (ord2.visit gpuNum2 j) numTiles line st with
    | mk st1 stop =>
      cases stop with
      | true => rfl
      | false => exact ih (i + 1) (j + 1) st1

theorem capLine_of_pending (visit : List CapKey → List CapKey) (numTiles : Nat) (line : Str)
    (st : CapState) (key : CapKey) (hperm : (visit st.pending).Perm st.pending)
    (hmem : key ∈ st.pending) (hpre : hasPrefix line key.searchString = true) :
    capLine visit numTiles line st =
      ({ capApply numTiles key line st with pending := st.pending.erase key },
        decide ((st.pending.erase key).length = 0)) := by
  have hp1 : (capApply numTiles key line st).pending = st.pending := by
    unfold capApply
    cases lineValue line with
    | none => rfl
    | some value => exact capAction_pending numTiles key value st
  rw [capLine_eq visit numTiles line st hperm,
    (find_matching_iff line st.pending key).mpr ⟨hmem, hpre⟩]
  simp only [hp1]

theorem capLine_of_not_pending (visit : List CapKey → List CapKey) (numTiles : Nat)
    (line : Str) (st : CapState) (key : CapKey) (hperm : (visit st.pending).Perm st.pending)
    (hmem : key ∉ st.pending) (hpre : hasPrefix line key.searchString = true) :
    capLine visit numTiles line st = (st, false) := by
  rw [capLine_eq visit numTiles line st hperm]
  cases hf : st.pending.find? (fun k => hasPrefix line k.searchString) with
  | none => rfl
  | some k =>
    obtain ⟨hk, hkpre⟩ := (find_matching_iff line st.pending k).mp hf
    rw [searchString_exclusive line k key hkpre hpre] at hk
    exact absurd hk hmem

/-- C19: the labels that `createCapabilityLabels` produces are the same for every two orders of
the range over `searchStringActionMap`. No line begins with two of the four search strings; a
line that begins with the search string of a key still searched for takes the key out of the
search, whether or not the line is well formed (its action is applied only if it is); a line
that begins with the search string of a key no longer searched for changes nothing. -/
theorem createCapabilityLabels_order_independent (h : Host) (ord1 ord2 : RangeOrder)
    (labels : LabelMap) (gpuNum : Str) (numTiles : Nat) :
    createCapabilityLabels h ord1 labels gpuNum numTiles =
      createCapabilityLabels h ord2 labels gpuNum numTiles ∧
    (∀ (line : Str) (a b : CapKey), hasPrefix line a.searchString = true →
      hasPrefix line b.searchString = true → a = b) ∧
    (∀ (i : Nat) (line : Str) (st : CapState) (key : CapKey), st.pending.Nodup →
      key ∈ st.pending → hasPrefix line key.searchString = true →
      (capLine (ord1.visit gpuNum i) numTiles line st).1.pending = st.pending.erase key ∧
      key ∉ (capLine (ord1.visit gpuNum i) numTiles line st).1.pending ∧
      (lineValue line = none →
        (capLine (ord1.visit gpuNum i) numTiles line st).1 =
          { st with pending := st.pending.erase key })) ∧
    (∀ (i : Nat) (line : Str) (st : CapState) (key : CapKey),
      key ∉ st.pending → hasPrefix line key.searchString = true →
      capLine (ord1.visit gpuNum i) numTiles line st = (st, false)) := by
  refine ⟨?_, searchString_exclusive, ?_, ?_⟩
  · unfold createCapabilityLabels
    cases h.capabilities gpuNum with
    | none => rfl
    | some lines =>
      simp only
      rw [capScan_order ord1 ord2 gpuNum gpuNum numTiles lines 0 0]
  · intro i line st key hnd hmem hpre
    rw [capLine_of_pending _ numTiles line st key (ord1.perm gpuNum i st.pending) hmem hpre]
    refine ⟨rfl, fun hm => ((List.Nodup.mem_erase_iff hnd).mp hm).1 rfl, ?_⟩
    intro hval
    simp only [capApply, hval]
  · intro i line st key hmem hpre
    exact capLine_of_not_pending _ numTiles line st key (ord1.perm gpuNum i st.pending) hmem hpre

set_option maxRecDepth 100000 in
/-- C19 on the capability file of lines `gen:12`, `gen: 13`, `platform: DG1`,
`graphics version: 12.5`: the labels are the same in source order and in reverse order; the
malformed first `gen:` line takes `gen:` out of the search and the second one is ignored. -/
theorem createCapabilityLabels_order_independent_witness :
    createCapabilityLabels
      (capHost ["gen:12".toList, "gen: 13".toList, "platform: DG1".toList,
        "graphics version: 12.5".toList]) sourceOrder newLabels "0".toList 1 =
    createCapabilityLabels
      (capHost ["gen:12".toList, "gen: 13".toList, "platform: DG1".toList,
        "graphics version: 12.5".toList]) reverseOrder newLabels "0".toList 1 ∧
    createCapabilityLabels
      (capHost ["gen:12".toList, "gen: 13".toList, "platform: DG1".toList,
        "graphics version: 12.5".toList]) reverseOrder newLabels "0".toList 1 =
      [("gpu.intel.com/platform_DG1.count".toList, "1".toList),
       ("gpu.intel.com/platform_DG1.tiles".toList, "1".toList),
       ("gpu.intel.com/platform_DG1.present".toList, "true".toList),
       ("gpu.intel.com/graphics_version".toList, "12.5".toList),
       ("gpu.intel.com/platform_gen".toList, "12".toList)] :=
  ⟨(createCapabilityLabels_order_independent
      (capHost ["gen:12".toList, "gen: 13".toList, "platform: DG1".toList,
        "graphics version: 12.5".toList]) sourceOrder reverseOrder newLabels "0".toList 1).1,
    by decide⟩

/-! ## The number and the lengths of the chunks -/

theorem ceil_div_of_le (n maxLength : Nat) (hpos : 0 < maxLength) (hle : n ≤ maxLength) :
    max 1 ((n + maxLength - 1) / maxLength) = 1 := by
  have h : (n + maxLength - 1) / maxLength ≤ 1 := by
    rw [← Nat.lt_succ_iff, Nat.div_lt_iff_lt_mul hpos]
    omega
  omega

theorem ceil_div_of_gt (n maxLength : Nat) (hpos : 0 < maxLength) (hgt : maxLength < n) :
    max 1 ((n + maxLength - 1) / maxLength) =
      max 1 ((n - maxLength + maxLength - 1) / maxLength) + 1 := by
  have h1 : n + maxLength - 1 = (n - maxLength + maxLength - 1) + maxLength := by omega
  have h2 : 1 ≤ (n - maxLength + maxLength - 1) / maxLength := by
    rw [Nat.le_div_iff_mul_le hpos]
    omega
  rw [h1, Nat.add_div_right _ hpos]
  omega

/-- With positive `maxLength` and fuel above the length of the remainder, the loop of `split`
appends `max 1 ⌈len/maxLength⌉` chunks: all but the last have length `maxLength`, the last is
empty only if the remainder is, and a remainder that fits is the single chunk. -/
theorem splitLoop_shape (maxLength : Nat) (hpos : 0 < maxLength) :
    ∀ (fuel : Nat) (rem : Str) (results : List Str), rem.length < fuel →
      ∃ chunks : List Str, splitLoop fuel rem maxLength results = some (results ++ chunks) ∧
        chunks.length = max 1 ((rem.length + maxLength - 1) / maxLength) ∧
        (∀ c ∈ chunks.dropLast, c.length = maxLength) ∧
        (rem ≠ [] → ∀ c, chunks.getLast? = some c → c ≠ []) ∧
        (rem.length ≤ maxLength → chunks = [rem]) := by
  intro fuel
  induction fuel with
  | zero => intro rem results h; omega
  | succ fuel ih =>
    intro rem results hlen
    by_cases hfit : rem.length ≤ maxLength
    · refine ⟨[rem], ?_, ?_, ?_, ?_, ?_⟩
      · simp [splitLoop, hfit]
      · rw [ceil_div_of_le _ _ hpos hfit]; rfl
      · intro c hc; simp at hc
      · intro hne c hc
        simp only [List.getLast?_singleton, Option.some.injEq] at hc
        rw [← hc]; exact hne
      · intro _; rfl
    · have hgt : maxLength < rem.length := by omega
      have hdrop : (rem.drop maxLength).length = rem.length - maxLength := List.length_drop _ _
      obtain ⟨cs, hrun, hcount, hfull, hlast, _⟩ := ih (rem.drop maxLength)
        (results ++ [rem.take maxLength]) (by rw [hdrop]; omega)
      have hcs : cs ≠ [] := by
        intro e
        rw [e] at hcount
        simp only [List.length_nil] at hcount
        omega
      have hdne : rem.drop maxLength ≠ [] := by
        intro e
        have := congrArg List.length e
        rw [hdrop] at this
        simp only [List.length_nil] at this
        omega
      refine ⟨rem.take maxLength :: cs, ?_, ?_, ?_, ?_, ?_⟩
      · simp [splitLoop, hfit, hrun]
      · rw [List.length_cons, hcount, hdrop, ceil_div_of_gt _ _ hpos hgt]
      · intro c hc
        rw [List.dropLast_cons_of_ne_nil hcs] at hc
        rcases List.mem_cons.mp hc with e | hm
        · rw [e, List.length_take]
          omega
        · exact hfull c hm
      · intro _ c hc
        obtain ⟨b, bs, rfl⟩ := List.exists_cons_of_ne_nil hcs
        rw [List.getLast?_cons_cons] at hc
        exact hlast hdne c hc
      · intro hle; omega

/-- C17: for every string and every positive maximum length, `split` returns, with exactly
`max(1, ⌈len(S)/L⌉)` chunks; every chunk but the last has length `L`, the last chunk is empty
only if the string is, and a string no longer than `L` gives the single chunk `[S]`. -/
theorem split_shape (str : Str) (maxLength : Nat) (hpos : 0 < maxLength) :
    ∃ chunks : List Str, split str maxLength = some chunks ∧
      chunks.length = max 1 ((str.length + maxLength - 1) / maxLength) ∧
      (∀ c ∈ chunks.dropLast, c.length = maxLength) ∧
      (str ≠ [] → ∀ c, chunks.getLast? = some c → c ≠ []) ∧
      (str.length ≤ maxLength → chunks = [str]) := by
  obtain ⟨cs, hrun, hrest⟩ :=
    splitLoop_shape maxLength hpos (str.length + 1) str [] (Nat.lt_succ_self _)
  exact ⟨cs, by simpa [split] using hrun, hrest⟩

/-- C17 on `split("foo_bar", 4)`, which is `["foo_", "bar"]`. -/
theorem split_shape_witness :
    0 < 4 ∧ split "foo_bar".toList 4 = some ["foo_".toList, "bar".toList] ∧
    ∃ chunks : List Str, split "foo_bar".toList 4 = some chunks ∧
      chunks.length = max 1 (("foo_bar".toList.length + 4 - 1) / 4) ∧
      (∀ c ∈ chunks.dropLast, c.length = 4) ∧
      ("foo_bar".toList ≠ [] → ∀ c, chunks.getLast? = some c → c ≠ []) ∧
      ("foo_bar".toList.length ≤ 4 → chunks = ["foo_bar".toList]) :=
  ⟨by decide, by decide, split_shape "foo_bar".toList 4 (by decide)⟩

/-! ## The memory amount -/

/-- C13 (failing input): with a memory file that reads `1073741824`, one tile and
`GPU_MEMORY_RESERVED=2147483648`, `getMemoryAmount` returns `18446744072635809792`, which is
`2^64 + 1073741824 - 2147483648`: the subtraction wraps and the result is larger than the
product of the per-tile memory and the tile count; the label `memory.max` becomes
`-1073741824`. -/
theorem getMemoryAmount_wraps :
    getTileCount (memoryHost "2147483648".toList) "card0".toList = 1 ∧
    getEnvVarNumber (memoryHost "2147483648".toList) memoryReservedEnv = 2147483648 ∧
    getMemoryAmount (memoryHost "2147483648".toList) "card0".toList 1 =
      18446744072635809792 ∧
    1073741824 * 1 <
      getMemoryAmount (memoryHost "2147483648".toList) "card0".toList 1 ∧
    (createLabels (memoryHost "2147483648".toList) sourceOrder newLabels).toOption.bind
      (fun lm => lm.get "gpu.intel.com/memory.max".toList) = some "-1073741824".toList := by
  decide

/-! ## Numeric labels -/

theorem digitChar_isDigit (k : Nat) (hk : k < 10) : isDigit (Nat.digitChar k) = true := by
  interval_cases k <;> decide

theorem toDigitsCore_all_digit (fuel n : Nat) (ds : Str) (hds : ∀ c ∈ ds, isDigit c = true) :
    ∀ c ∈ Nat.toDigitsCore 10 fuel n ds, isDigit c = true := by
  induction fuel generalizing n ds with
  | zero => simpa [Nat.toDigitsCore] using hds
  | succ fuel ih =>
    have hd : isDigit (Nat.digitChar (n % 10)) = true :=
      digitChar_isDigit _ (Nat.mod_lt _ (by decide))
    have hcons : ∀ c ∈ Nat.digitChar (n % 10) :: ds, isDigit c = true := by
      intro c hc
      rcases List.mem_cons.mp hc with e | hm
      · rw [e]; exact hd
      · exact hds c hm
    simp only [Nat.toDigitsCore]
    split
    · exact hcons
    · exact ih _ _ hcons

theorem toDigits_all_digit (n : Nat) : ∀ c ∈ Nat.toDigits 10 n, isDigit c = true :=
  toDigitsCore_all_digit (n + 1) n [] (fun _ hc => by simp at hc)

theorem toDigits_value (n : Nat) :
    (Nat.toDigits 10 n).foldl (fun acc c => acc * 10 + (c.toNat - 48)) 0 = n := by
  have := toDigitsCore_value (n + 1) n [] (Nat.lt_succ_self n)
  simpa [Nat.toDigits] using this

theorem foldl_digits_ge (s : Str) (acc : Nat) :
    acc ≤ s.foldl (fun acc c => acc * 10 + (c.toNat - 48)) acc := by
  induction s generalizing acc with
  | nil => exact le_refl _
  | cons c cs ih =>
    simp only [List.foldl]
    exact le_trans (by omega) (ih (acc * 10 + (c.toNat - 48)))

/-- On a text of decimal digits whose value is below `2^64`, the digit loop of `ParseUint`
returns the value. -/
theorem parseDigits_digits (base0 : Bool) (s : Str) (acc : Nat)
    (hdig : ∀ c ∈ s, isDigit c = true)
    (hval : s.foldl (fun acc c => acc * 10 + (c.toNat - 48)) acc < 2 ^ 64) :
    parseDigits 10 base0 s acc =
      some (s.foldl (fun acc c => acc * 10 + (c.toNat - 48)) acc) := by
  induction s generalizing acc with
  | nil => rfl
  | cons c cs ih =>
    have hc := hdig c (List.mem_cons_self c cs)
    unfold isDigit at hc
    simp only [Bool.and_eq_true, decide_eq_true_eq] at hc
    have hne : c ≠ '_' := by
      intro e
      rw [e] at hc
      revert hc
      decide
    have hdv : digitVal c = some (c.toNat - 48) := by
      unfold digitVal
      simp only [hc, and_self, if_true]
    simp only [List.foldl] at hval
    have hge := foldl_digits_ge cs (acc * 10 + (c.toNat - 48))
    have h1 : ¬ (10 ≤ c.toNat - 48) := by omega
    have h2 : ¬ (2 ^ 64 ≤ acc * 10 + (c.toNat - 48)) := by omega
    simp only [parseDigits, hne, false_and, if_false, hdv, h1, h2, List.foldl]
    exact ih _ (fun d hd => hdig d (List.mem_cons_of_mem c hd)) hval

theorem parseUint10_toDigits (n : Nat) (hn : n < 2 ^ 64) :
    parseUint10 (Nat.toDigits 10 n) = some n := by
  unfold parseUint10
  rw [if_neg (toDigits_ne_nil n),
    parseDigits_digits false _ 0 (toDigits_all_digit n) (by rw [toDigits_value]; exact hn),
    toDigits_value]

theorem takeWhile_digits (s : Str) (hdig : ∀ c ∈ s, isDigit c = true) :
    s.takeWhile isDigit = s := by
  rw [List.takeWhile_eq_self_iff]
  exact hdig

theorem parseInt10_neg (n : Nat) (hpos : 0 < n) (hn : n ≤ 2 ^ 63) :
    parseInt10 ('-' :: Nat.toDigits 10 n) = some (-(Int.ofNat n)) := by
  have hparse := parseUint10_toDigits n (by omega)
  have h3 : ¬ (2 ^ 63 < n) := by omega
  simp only [parseInt10, or_true, if_true, decide_True, hparse, Bool.true_eq_false, false_and,
    if_false, true_and, h3]

theorem parseInt10_nonneg (n : Nat) (hn : n < 2 ^ 63) :
    parseInt10 (Nat.toDigits 10 n) = some (Int.ofNat n) := by
  obtain ⟨d, ds, hds⟩ := List.exists_cons_of_ne_nil (toDigits_ne_nil n)
  have hd : isDigit d = true :=
    toDigits_all_digit n d (by rw [hds]; exact List.mem_cons_self d ds)
  have hdp : d ≠ '+' := by
    intro e; rw [e] at hd; revert hd; decide
  have hdm : d ≠ '-' := by
    intro e; rw [e] at hd; revert hd; decide
  have hparse := parseUint10_toDigits n (by omega)
  rw [hds] at hparse ⊢
  have h3 : ¬ (2 ^ 63 ≤ n) := by omega
  simp only [parseInt10, hdp, hdm, or_self, if_false, decide_False, hparse, true_and, h3,
    Bool.false_eq_true, false_and]

theorem sscanfInt_neg (digits : Str) (hne : digits ≠ [])
    (hdig : ∀ c ∈ digits, isDigit c = true) :
    sscanfInt ('-' :: digits) = parseInt10 ('-' :: digits) := by
  have hskip : skipSpace ('-' :: digits) = some ('-' :: digits) := by
    simp [skipSpace, show isSpace '-' = false by decide]
  simp only [sscanfInt, hskip, or_true, if_true, takeWhile_digits _ hdig, hne, if_false,
    List.singleton_append]

theorem sscanfInt_digits (digits : Str) (hne : digits ≠ [])
    (hdig : ∀ c ∈ digits, isDigit c = true) :
    sscanfInt digits = parseInt10 digits := by
  obtain ⟨d, ds, rfl⟩ := List.exists_cons_of_ne_nil hne
  have hd : isDigit d = true := hdig d (List.mem_cons_self d ds)
  have hdsp := isDigit_not_space d hd
  have hdsign : ¬ (d = '+' ∨ d = '-') := by
    intro e
    rcases e with e | e <;> (rw [e] at hd; revert hd; decide)
  have hskip : skipSpace (d :: ds) = some (d :: ds) := by
    simp [skipSpace, hdsp.1, hdsp.2]
  simp only [sscanfInt, hskip, hdsign, if_false, takeWhile_digits _ hdig, List.nil_append,
    reduceCtorEq]

/-- Reading back with `Sscanf` what `FormatInt` wrote gives the number, for every `int64`. -/
theorem sscanfInt_formatInt (v : Int) (hlo : -(2 ^ 63) ≤ v) (hhi : v < 2 ^ 63) :
    sscanfInt (formatInt v) = some v := by
  by_cases hneg : v < 0
  · have hform : formatInt v = '-' :: Nat.toDigits 10 v.natAbs := by
      simp [formatInt, hneg]
    rw [hform, sscanfInt_neg _ (toDigits_ne_nil _) (toDigits_all_digit _),
      parseInt10_neg _ (by omega) (by omega)]
    simp only [Int.ofNat_eq_coe, Option.some.injEq]
    omega
  · have hform : formatInt v = Nat.toDigits 10 v.natAbs := by
      simp [formatInt, hneg]
    rw [hform, sscanfInt_digits _ (toDigits_ne_nil _) (toDigits_all_digit _),
      parseInt10_nonneg _ (by omega)]
    simp only [Int.ofNat_eq_coe, Option.some.injEq]
    omega

theorem wrapInt64_add_wrap (a b : Int) : wrapInt64 (wrapInt64 a + b) = wrapInt64 (a + b) := by
  unfold wrapInt64
  omega

theorem wrapInt64_of_range (v : Int) (hlo : -(2 ^ 63) ≤ v) (hhi : v < 2 ^ 63) :
    wrapInt64 v = v := by
  unfold wrapInt64
  omega

theorem addNumericLabel_get_absent (lm : LabelMap) (labelName : Str) (x : Int)
    (h : lm.get labelName = none) :
    (addNumericLabel lm labelName x).get labelName = some (formatInt (wrapInt64 x)) := by
  simp only [addNumericLabel, h, Int.zero_add]
  exact LabelMap.get_set_self _ _ _

theorem addNumericLabel_get_present (lm : LabelMap) (labelName : Str) (s x : Int)
    (h : lm.get labelName = some (formatInt (wrapInt64 s))) :
    (addNumericLabel lm labelName x).get labelName =
      some (formatInt (wrapInt64 (s + x))) := by
  obtain ⟨hlo, hhi⟩ := wrapInt64_range s
  simp only [addNumericLabel, h, sscanfInt_formatInt _ hlo hhi, Option.getD_some,
    wrapInt64_add_wrap]
  exact LabelMap.get_set_self _ _ _

theorem addAll_get_present (labelName : Str) (xs : List Int) :
    ∀ (lm : LabelMap) (s : Int), lm.get labelName = some (formatInt (wrapInt64 s)) →
      (addAll lm labelName xs).get labelName = some (formatInt (wrapInt64 (s + xs.sum))) := by
  induction xs with
  | nil =>
    intro lm s h
    simpa [addAll] using h
  | cons x rest ih =>
    intro lm s h
    have := ih (addNumericLabel lm labelName x) (s + x)
      (addNumericLabel_get_present lm labelName s x h)
    simp only [addAll, List.foldl_cons, List.sum_cons] at this ⊢
    rw [this, Int.add_assoc]

/-- Adding one or more contributions to an absent label leaves the rendering of their sum
reduced to `int64`. -/
theorem addAll_get_absent (lm : LabelMap) (labelName : Str) (xs : List Int) (hne : xs ≠ [])
    (h : lm.get labelName = none) :
    (addAll lm labelName xs).get labelName = some (formatInt (wrapInt64 xs.sum)) := by
  obtain ⟨x, rest, rfl⟩ := List.exists_cons_of_ne_nil hne
  have h1 := addNumericLabel_get_absent lm labelName x h
  have h2 := addAll_get_present labelName rest (addNumericLabel lm labelName x) x h1
  simp only [addAll, List.foldl_cons, List.sum_cons] at h2 ⊢
  exact h2

/-- C11: applying `addNumericLabel` to an absent label once for each of one or more
contributions whose sum fits in `int64` leaves the label equal to the base-10 rendering of the
sum, and the final value is the same for every permutation of the contributions. -/
theorem addNumericLabel_sum (lm : LabelMap) (labelName : Str) (xs : List Int) (hne : xs ≠ [])
    (habsent : lm.get labelName = none)
    (hlo : -(2 ^ 63) ≤ xs.sum) (hhi : xs.sum < 2 ^ 63) :
    (addAll lm labelName xs).get labelName = some (formatInt xs.sum) ∧
    ∀ ys : List Int, ys.Perm xs →
      (addAll lm labelName ys).get labelName = (addAll lm labelName xs).get labelName := by
  constructor
  · rw [addAll_get_absent lm labelName xs hne habsent, wrapInt64_of_range _ hlo hhi]
  · intro ys hperm
    have hne2 : ys ≠ [] := fun e => hne (by rw [e] at hperm; exact hperm.symm.eq_nil)
    rw [addAll_get_absent lm labelName ys hne2 habsent,
      addAll_get_absent lm labelName xs hne habsent, hperm.sum_eq]

set_option maxRecDepth 100000 in
/-- C11 on the contributions `1073741824`, `-5`, `2147483648` to the absent `memory.max`. -/
theorem addNumericLabel_sum_witness :
    ([1073741824, -5, 2147483648] : List Int) ≠ [] ∧
    newLabels.get "gpu.intel.com/memory.max".toList = none ∧
    (addAll newLabels "gpu.intel.com/memory.max".toList [1073741824, -5, 2147483648]).get
      "gpu.intel.com/memory.max".toList = some "3221225467".toList ∧
    (addAll newLabels "gpu.intel.com/memory.max".toList [1073741824, -5, 2147483648]).get
        "gpu.intel.com/memory.max".toList =
      some (formatInt ([1073741824, -5, 2147483648] : List Int).sum) ∧
    ∀ ys : List Int, ys.Perm [1073741824, -5, 2147483648] →
      (addAll newLabels "gpu.intel.com/memory.max".toList ys).get
          "gpu.intel.com/memory.max".toList =
        (addAll newLabels "gpu.intel.com/memory.max".toList [1073741824, -5, 2147483648]).get
          "gpu.intel.com/memory.max".toList :=
  ⟨by decide, by decide, by decide,
    addNumericLabel_sum newLabels "gpu.intel.com/memory.max".toList [1073741824, -5, 2147483648]
      (by decide) (by decide) (by decide) (by decide)⟩

/-! ## The PCI path parts -/

theorem splitFields_slash_length (s : Str) :
    ∀ (fuel : Nat) (cur : Str), s.length < fuel →
      (splitFields fuel "/".toList cur s).length = 1 + s.count '/' := by
  induction s with
  | nil =>
    intro fuel cur h
    cases fuel with
    | zero => omega
    | succ fuel => simp [splitFields]
  | cons c cs ih =>
    intro fuel cur h
    cases fuel with
    | zero => omega
    | succ fuel =>
      simp only [List.length_cons] at h
      by_cases hc : c = '/'
      · subst hc
        have hpre : ("/".toList).isPrefixOf ('/' :: cs) = true := by
          show (['/'] : Str).isPrefixOf ('/' :: cs) = true
          simp [List.isPrefixOf]
        have hdrop : ('/' :: cs).drop ("/".toList).length = cs := rfl
        simp only [splitFields, hpre, if_true, hdrop, List.length_cons, List.count_cons_self]
        rw [ih fuel [] (by omega)]
        omega
      · have hpre : ("/".toList).isPrefixOf (c :: cs) = false := by
          show (['/'] : Str).isPrefixOf (c :: cs) = false
          have : ('/' == c) = false := by
            rw [beq_eq_false_iff_ne]
            exact fun e => hc e.symm
          simp [List.isPrefixOf, this]
        simp only [splitFields, hpre, Bool.false_eq_true, if_false]
        rw [ih fuel (cur ++ [c]) (by omega), List.count_cons_of_ne (fun e => hc e.symm)]

theorem stringsSplit_slash_length (path : Str) :
    (stringsSplit path "/".toList).length = 1 + path.count '/' := by
  have hsep : ¬ ("/".toList = ([] : Str)) := by decide
  unfold stringsSplit
  rw [if_neg hsep]
  exact splitFields_slash_length path (path.length + 1) [] (Nat.lt_succ_self _)

/-- Once the part that begins with `pci` is found, the loop joins the next `numFolders` parts,
and returns the empty string if there are fewer. -/
theorem pciPathLoop_found (parts : List Str) :
    ∀ (subPath separator : Str) (numFolders : Nat), 0 < numFolders →
      pciPathLoop parts true subPath separator numFolders =
        if numFolders ≤ parts.length then
          match parts.take numFolders with
          | [] => []
          | first :: more =>
            subPath ++ separator ++ first ++
              (more.map (fun part => "/".toList ++ part)).flatten
        else [] := by
  induction parts with
  | nil =>
    intro subPath separator numFolders hpos
    have : ¬ numFolders ≤ 0 := by omega
    simp [pciPathLoop, this]
  | cons part rest ih =>
    intro subPath separator numFolders hpos
    obtain ⟨n, rfl⟩ : ∃ n, numFolders = n + 1 := ⟨numFolders - 1, by omega⟩
    simp only [pciPathLoop, Bool.true_or, hpos, decide_True, Bool.and_self, if_true,
      Nat.add_sub_cancel, List.length_cons, Nat.add_le_add_iff_right, List.take_succ_cons]
    by_cases hn : n = 0
    · subst hn
      simp
    · rw [if_neg hn, ih _ _ n (by omega)]
      by_cases hle : n ≤ rest.length
      · simp only [hle, if_true]
        obtain ⟨m, rfl⟩ : ∃ m, n = m + 1 := ⟨n - 1, by omega⟩
        cases rest with
        | nil => simp at hle
        | cons r rs =>
          simp only [List.take_succ_cons, List.map_cons, List.flatten_cons, List.append_assoc]
      · simp only [hle, if_false]

/-- Before the part that begins with `pci` is found, the loop passes over the parts that do
not begin with it. -/
theorem pciPathLoop_search (parts : List Str) (numFolders : Nat) (hpos : 0 < numFolders) :
    pciPathLoop parts false [] [] numFolders =
      pciPathLoop (parts.dropWhile (fun part => !hasPrefix part "pci".toList)) true [] []
        numFolders := by
  induction parts with
  | nil => simp [pciPathLoop]
  | cons part rest ih =>
    have hne : numFolders ≠ 0 := by omega
    by_cases hp : hasPrefix part "pci".toList = true
    · have hdw : (part :: rest).dropWhile (fun part => !hasPrefix part "pci".toList) =
          part :: rest := by
        rw [List.dropWhile_cons]
        simp only [hp, Bool.not_true, Bool.false_eq_true, if_false]
      rw [hdw]
      simp only [pciPathLoop, hp, Bool.false_or, Bool.true_or]
    · have hp2 : hasPrefix part "pci".toList = false := by simpa using hp
      have hdw : (part :: rest).dropWhile (fun part => !hasPrefix part "pci".toList) =
          rest.dropWhile (fun part => !hasPrefix part "pci".toList) := by
        rw [List.dropWhile_cons]
        simp only [hp2, Bool.not_false, if_true]
      rw [hdw, ← ih]
      simp only [pciPathLoop, hp2, Bool.or_self, Bool.false_and, Bool.false_eq_true, if_false,
        hne]

theorem stringsJoin_cons (first : Str) (more : List Str) (sep : Str) :
    stringsJoin (first :: more) sep = first ++ (more.map (fun part => sep ++ part)).flatten := by
  unfold stringsJoin
  induction more generalizing first with
  | nil => simp [List.intercalate, List.intersperse]
  | cons m ms ih =>
    have := ih m
    simp only [List.intercalate, List.intersperse, List.flatten_cons, List.map_cons,
      List.append_assoc] at this ⊢
    rw [this]

/-- C12 (amended): for every grouping level `N ≥ 1` and every path, `getPCIPathParts` returns
the `/`-join of the `N` consecutive path segments that start at the first segment beginning
with `pci`, when the path contains a `/`, such a segment exists and at least `N` segments are
available from it onward; it returns the empty string otherwise (a path without `/`, no `pci`
segment, or fewer than `N` segments from it). -/
theorem getPCIPathParts_spec (numFolders : Nat) (fullPath : Str) (hN : 1 ≤ numFolders) :
    getPCIPathParts numFolders fullPath =
      if '/' ∈ fullPath ∧ numFolders ≤
          ((stringsSplit fullPath "/".toList).dropWhile
            (fun part => !hasPrefix part "pci".toList)).length then
        stringsJoin
          (((stringsSplit fullPath "/".toList).dropWhile
            (fun part => !hasPrefix part "pci".toList)).take numFolders) "/".toList
      else [] := by
  have hlen := stringsSplit_slash_length fullPath
  simp only [getPCIPathParts, hlen]
  by_cases hslash : '/' ∈ fullPath
  · have hcount : ¬ (1 + fullPath.count '/' = 1) := by
      have := List.count_pos_iff.mpr hslash
      omega
    rw [if_neg hcount, pciPathLoop_search _ _ (by omega), pciPathLoop_found _ _ _ _ (by omega)]
    simp only [hslash, true_and]
    split_ifs with hle
    · cases htake : ((stringsSplit fullPath "/".toList).dropWhile
          (fun part => !hasPrefix part "pci".toList)).take numFolders with
      | nil => rfl
      | cons first more =>
        simp only [stringsJoin_cons, List.append_nil, List.nil_append]
    · rfl
  · have hcount : 1 + fullPath.count '/' = 1 := by
      rw [List.count_eq_zero.mpr hslash]
    rw [if_pos hcount]
    simp only [hslash, false_and, if_false]

/-- C12 (amended) on the link target of a card at grouping level 2. -/
theorem getPCIPathParts_spec_witness :
    1 ≤ 2 ∧
    getPCIPathParts 2 "/sys/devices/pci0000:00/0000:00:02.0/drm/card0".toList =
      "pci0000:00/0000:00:02.0".toList ∧
    getPCIPathParts 2 "/sys/devices/pci0000:00/0000:00:02.0/drm/card0".toList =
      if '/' ∈ "/sys/devices/pci0000:00/0000:00:02.0/drm/card0".toList ∧ 2 ≤
          ((stringsSplit "/sys/devices/pci0000:00/0000:00:02.0/drm/card0".toList
            "/".toList).dropWhile (fun part => !hasPrefix part "pci".toList)).length then
        stringsJoin
          (((stringsSplit "/sys/devices/pci0000:00/0000:00:02.0/drm/card0".toList
            "/".toList).dropWhile (fun part => !hasPrefix part "pci".toList)).take 2)
          "/".toList
      else [] :=
  ⟨by decide, by decide,
    getPCIPathParts_spec 2 "/sys/devices/pci0000:00/0000:00:02.0/drm/card0".toList
      (by decide)⟩

/-- C12 (counterexample): the path `pci0000:00` has a single segment, which begins with `pci`,
so one segment is available from it onward; at grouping level 1 `getPCIPathParts` returns the
empty string, not `pci0000:00`. -/
theorem getPCIPathParts_without_slash :
    stringsSplit "pci0000:00".toList "/".toList = ["pci0000:00".toList] ∧
    hasPrefix "pci0000:00".toList "pci".toList = true ∧
    getPCIPathParts 1 "pci0000:00".toList = [] ∧
    getPCIPathParts 1 "pci0000:00".toList ≠
      stringsJoin (["pci0000:00".toList].take 1) "/".toList := by
  decide

/-! ## The scan -/

/-- One round of the loop of `scan`, by the checks that the entry passes. -/
theorem scanLoop_cons (h : Host) (name : Str) (files acc : List Str) :
    scanLoop h (name :: files) acc =
      if candidate h name = true then
        if h.drmReadable name = true then
          if h.gpuFatalErrors name = 0 then scanLoop h files (acc ++ [name])
          else scanLoop h files acc
        else (acc, some .readDevice)
      else scanLoop h files acc := by
  rw [scanLoop]
  unfold candidate vendorMatches
  by_cases h1 : gpuDeviceMatch name = true
  · simp only [h1, Bool.not_true, Bool.false_eq_true, if_false, Bool.true_and]
    cases hv : h.readVendor name with
    | none => simp
    | some dat =>
      by_cases h2 : trimSpace dat = vendorString
      · simp only [h2, ne_eq, not_true_eq_false, if_false, decide_True, Bool.true_and]
        by_cases h3 : h.isSriovPFwithVFs name = true
        · simp [h3]
        · have h3f : h.isSriovPFwithVFs name = false := by simpa using h3
          simp only [h3f, Bool.false_eq_true, if_false, Bool.not_false, if_true]
          by_cases h4 : h.drmReadable name = true
          · simp [h4]
          · have h4f : h.drmReadable name = false := by simpa using h4
            simp [h4f]
      · simp [h2]
  · have h1f : gpuDeviceMatch name = false := by simpa using h1
    simp [h1f]

/-- The loop of `scan`, when it ends without error, has appended the accepted entries in the
order of the directory. -/
theorem scanLoop_filter (h : Host) :
    ∀ (files acc : List Str), (scanLoop h files acc).2 = none →
      (scanLoop h files acc).1 = acc ++ files.filter (accepted h) := by
  intro files
  induction files with
  | nil => intro acc _; simp [scanLoop]
  | cons name rest ih =>
    intro acc hok
    rw [scanLoop_cons] at hok ⊢
    by_cases hc : candidate h name = true
    · simp only [hc, if_true] at hok ⊢
      by_cases hd : h.drmReadable name = true
      · simp only [hd, if_true] at hok ⊢
        by_cases hf : h.gpuFatalErrors name = 0
        · have ha : accepted h name = true := by simp [accepted, hc, hf]
          simp only [hf, if_true] at hok ⊢
          rw [ih _ hok, List.filter_cons_of_pos ha]
          simp
        · have ha : ¬ (accepted h name = true) := by simp [accepted, hc, hf]
          simp only [hf, if_false] at hok ⊢
          rw [ih _ hok, List.filter_cons_of_neg ha]
      · simp only [hd, Bool.false_eq_true, if_false, reduceCtorEq] at hok
    · have hcf : candidate h name = false := by simpa using hc
      have ha : ¬ (accepted h name = true) := by simp [accepted, hcf]
      simp only [hcf, Bool.false_eq_true, if_false] at hok ⊢
      rw [ih _ hok, List.filter_cons_of_neg ha]

/-- The loop of `scan` does not look at the entries that fail the vendor check. -/
theorem scanLoop_filter_vendor (h : Host) :
    ∀ (files acc : List Str),
      scanLoop h (files.filter (vendorMatches h)) acc = scanLoop h files acc := by
  intro files
  induction files with
  | nil => intro acc; rfl
  | cons name rest ih =>
    intro acc
    by_cases hv : vendorMatches h name = true
    · have hfil : (name :: rest).filter (vendorMatches h) =
          name :: rest.filter (vendorMatches h) := by
        simp [List.filter, hv]
      rw [hfil, scanLoop_cons, scanLoop_cons, ih, ih]
    · have hvf : vendorMatches h name = false := by simpa using hv
      have hfil : (name :: rest).filter (vendorMatches h) = rest.filter (vendorMatches h) := by
        simp [List.filter, hvf]
      have hc : candidate h name = false := by
        simp [candidate, hvf]
      rw [hfil, ih, scanLoop_cons]
      simp only [hc, Bool.false_eq_true, if_false]

/-! ## Another directory listing on the same host -/

theorem scanLoop_readDir (h : Host) (dir : Option (List Str)) :
    ∀ (files acc : List Str),
      scanLoop { h with readDir := dir } files acc = scanLoop h files acc := by
  intro files
  induction files with
  | nil => intro acc; rfl
  | cons name rest ih =>
    intro acc
    rw [scanLoop, scanLoop]
    simp only [ih]

theorem deviceStep_readDir (h : Host) (dir : Option (List Str)) (ord : RangeOrder)
    (gpuName : Str) (st : LoopState) :
    deviceStep { h with readDir := dir } ord gpuName st = deviceStep h ord gpuName st := rfl

theorem deviceLoop_readDir (h : Host) (dir : Option (List Str)) (ord : RangeOrder) :
    ∀ (names : List Str) (st : LoopState),
      deviceLoop { h with readDir := dir } ord names st = deviceLoop h ord names st := by
  intro names
  induction names with
  | nil => intro st; rfl
  | cons name rest ih =>
    intro st
    simp only [deviceLoop, deviceStep_readDir]
    cases deviceStep h ord name st with
    | ok st1 => exact ih st1
    | fail e => rfl

theorem pciGroupsOf_readDir (h : Host) (dir : Option (List Str)) (level : Nat) :
    ∀ (nums : List Str) (groups : Grouping Str),
      pciGroupsOf { h with readDir := dir } level nums groups =
        pciGroupsOf h level nums groups := by
  intro nums
  induction nums with
  | nil => intro groups; rfl
  | cons num rest ih =>
    intro groups
    rw [pciGroupsOf, pciGroupsOf]
    simp only [ih]

theorem createPCIGroupLabel_readDir (h : Host) (dir : Option (List Str)) (nums : List Str) :
    createPCIGroupLabel { h with readDir := dir } nums = createPCIGroupLabel h nums := by
  have henv : getEnvVarNumber { h with readDir := dir } pciGroupingEnv =
      getEnvVarNumber h pciGroupingEnv := rfl
  simp only [createPCIGroupLabel, henv, pciGroupsOf_readDir]

theorem finishLabels_readDir (h : Host) (dir : Option (List Str)) (names : List Str)
    (st : LoopState) :
    finishLabels { h with readDir := dir } names st = finishLabels h names st := by
  simp only [finishLabels, createPCIGroupLabel_readDir]

/-- The outcome of `createLabels` depends on the directory listing only through the result of
`scan`. -/
theorem createLabels_readDir (h : Host) (dir : Option (List Str)) (ord : RangeOrder)
    (labels : LabelMap) (hscan : scan { h with readDir := dir } = scan h) :
    createLabels { h with readDir := dir } ord labels = createLabels h ord labels := by
  simp only [createLabels, hscan, deviceLoop_readDir]
  cases scan h with
  | mk names err =>
    cases err with
    | some e => rfl
    | none =>
      simp only
      cases deviceLoop h ord names
        { gpuNumList := [], tileCount := 0, numaMapping := [], labels := labels } with
      | ok st => exact finishLabels_readDir h dir names st
      | fail e => rfl

/-- C15: whenever `scan` succeeds, its result is the sub-sequence of the directory entries, in
the order of the directory, that pass the name, vendor, SR-IOV and fatal-error checks; an entry
that fails the vendor check is not in the result, and a directory listing without the entries
that fail the vendor check gives the same outcome of `createLabels`, label for label. -/
theorem scan_accepted_entries (h : Host) (files : List Str) (hdir : h.readDir = some files)
    (hok : (scan h).2 = none) :
    (scan h).1 = files.filter (accepted h) ∧
    (∀ name ∈ files, vendorMatches h name = false → name ∉ (scan h).1) ∧
    ∀ (ord : RangeOrder) (labels : LabelMap),
      createLabels { h with readDir := some (files.filter (vendorMatches h)) } ord labels =
        createLabels h ord labels := by
  have hscan : scan h = scanLoop h files [] := by simp [scan, hdir]
  have hres : (scan h).1 = files.filter (accepted h) := by
    rw [hscan] at hok ⊢
    rw [scanLoop_filter h files [] hok, List.nil_append]
  refine ⟨hres, ?_, ?_⟩
  · intro name _ hv hmem
    rw [hres, List.mem_filter] at hmem
    simp [accepted, candidate, hv] at hmem
  · intro ord labels
    apply createLabels_readDir
    rw [hscan]
    show scanLoop { h with readDir := some (files.filter (vendorMatches h)) }
      (files.filter (vendorMatches h)) [] = scanLoop h files []
    rw [scanLoop_readDir, scanLoop_filter_vendor]

set_option maxRecDepth 100000 in
/-- C15 on `mixedHost`: of seven entries the scan keeps `card0` and `card5`. -/
theorem scan_accepted_entries_witness :
    mixedHost.readDir = some mixedFiles ∧
    (scan mixedHost).2 = none ∧
    (scan mixedHost).1 = ["card0".toList, "card5".toList] ∧
    (scan mixedHost).1 = mixedFiles.filter (accepted mixedHost) ∧
    (∀ name ∈ mixedFiles, vendorMatches mixedHost name = false →
      name ∉ (scan mixedHost).1) ∧
    ∀ (ord : RangeOrder) (labels : LabelMap),
      createLabels
        { mixedHost with readDir := some (mixedFiles.filter (vendorMatches mixedHost)) }
        ord labels = createLabels mixedHost ord labels :=
  ⟨by decide, by decide, by decide,
    scan_accepted_entries mixedHost mixedFiles (by decide) (by decide)⟩

/-! ## One device -/

theorem deviceStep_tileCount (h : Host) (ord : RangeOrder) (gpuName : Str) (st st1 : LoopState)
    (hrun : deviceStep h ord gpuName st = .ok st1) :
    st1.tileCount = wrapInt64 (st.tileCount + toInt64 (getTileCount h gpuName)) := by
  unfold deviceStep at hrun
  cases hs : sscanfCard gpuName with
  | none => simp [hs] at hrun
  | some gpuNum =>
    simp only [hs, Result.ok.injEq] at hrun
    subst hrun
    rfl

theorem createCapabilityLabels_get_other (h : Host) (ord : RangeOrder) (labels : LabelMap)
    (gpuNum : Str) (numTiles : Nat) (key : Str)
    (hkey : keyTag key ∉ ["pla".toList, "med".toList, "gra".toList]) :
    (createCapabilityLabels h ord labels gpuNum numTiles).get key = labels.get key := by
  cases hcap : h.capabilities gpuNum with
  | none => simp [createCapabilityLabels, hcap]
  | some lines =>
    rw [createCapabilityLabels_eq h ord labels gpuNum numTiles lines hcap,
      capDerive_get_of_ne _ _ (fun e => hkey (by rw [e]; decide))
        (fun e => hkey (by rw [e]; decide)) (fun e => hkey (by rw [e]; decide))]
    exact capScan_preserve ord gpuNum numTiles
      (fun st => st.labels.get key = labels.get key)
      (fun _ _ hst => hst)
      (fun k value st hst => by
        show (capAction numTiles k value st).labels.get key = labels.get key
        rw [capAction_get_of_not_written numTiles k value st key (fun hmem => by
          rcases keyTag_of_mem_capWrites k value key hmem with e | e | e <;>
            exact hkey (by rw [e]; decide))]
        exact hst)
      lines 0 (capInit labels) rfl

/-- The label `millicores` after a completed run of the statements after the device loop, when
the label was absent before and some device was accepted. -/
theorem finishLabels_millicores (h : Host) (gpuNameList : List Str) (st : LoopState)
    (lm : LabelMap) (hrun : finishLabels h gpuNameList st = .ok lm)
    (hpos : 0 < st.gpuNumList.length)
    (habsent : st.labels.get (labelNamespace ++ millicoreLabelName) = none) :
    lm.get (labelNamespace ++ millicoreLabelName) =
      some (formatInt (wrapInt64
        (wrapInt64 (Int.ofNat (millicoresPerGPU * st.gpuNumList.length))))) := by
  simp only [finishLabels, hpos, if_true] at hrun
  obtain ⟨cards, _, hrun⟩ := (Result.bind_eq_ok _ _ _).mp hrun
  obtain ⟨cards0, _, hrun⟩ := (Result.bind_eq_ok _ _ _).mp hrun
  obtain ⟨gpuNumLists, _, hrun⟩ := (Result.bind_eq_ok _ _ _).mp hrun
  obtain ⟨stored, hstored, hrun⟩ := (Result.bind_eq_ok _ _ _).mp hrun
  obtain ⟨numa, hnuma, hrun⟩ := (Result.bind_eq_ok _ _ _).mp hrun
  have htag : keyTag (labelNamespace ++ millicoreLabelName) = "mil".toList := by decide
  have h0 : stored.get (labelNamespace ++ millicoreLabelName) = none := by
    rw [storeChunks_frame gpuNumListLabelName gpuNumLists (by decide) _ _ _ hstored _
        (by rw [htag]; decide),
      LabelMap.get_set_of_ne _ _ _ _ (by decide),
      addNumericLabel_get_of_ne _ _ _ _ (by decide)]
    exact habsent
  have h1 : numa.get (labelNamespace ++ millicoreLabelName) = none := by
    split_ifs at hnuma
    · obtain ⟨chunks, _, hst⟩ := (Result.bind_eq_ok _ _ _).mp hnuma
      rw [storeChunks_frame numaMappingName chunks (by decide) _ _ _ hst _
        (by rw [htag]; decide)]
      exact h0
    · simp only [Result.ok.injEq] at hnuma
      rw [← hnuma]
      exact h0
  have h2 := addNumericLabel_get_absent numa (labelNamespace ++ millicoreLabelName)
    (wrapInt64 (Int.ofNat (millicoresPerGPU * st.gpuNumList.length))) h1
  split_ifs at hrun
  · obtain ⟨chunks, _, hst⟩ := (Result.bind_eq_ok _ _ _).mp hrun
    rw [storeChunks_frame pciGroupLabelName chunks (by decide) _ _ _ hst _
      (by rw [htag]; decide)]
    exact h2
  · simp only [Result.ok.injEq] at hrun
    rw [← hrun]
    exact h2

/-- C14: with exactly one accepted device `card0`, no tile subdirectories (tile count 1), a
memory file that reads `1073741824`, nothing reserved and PCI grouping off, `createLabels` on a
fresh label map completes with `memory.max` = `1073741824`, `cards` = `card0`,
`gpu-numbers` = `0`, `millicores` = `1000` and `tiles` = `1`, whatever the capability file,
the NUMA node and the order of the range over the search strings. -/
theorem createLabels_one_device (h : Host) (ord : RangeOrder)
    (hscan : scan h = (["card0".toList], none))
    (htiles : h.globTiles "card0".toList = 0)
    (hmem : h.readLmemTotal "card0".toList = some "1073741824".toList)
    (hreserved : getEnvVarNumber h memoryReservedEnv = 0)
    (hpci : getEnvVarNumber h pciGroupingEnv = 0) :
    ∃ lm, createLabels h ord newLabels = .ok lm ∧
      lm.get "gpu.intel.com/memory.max".toList = some "1073741824".toList ∧
      lm.get "gpu.intel.com/cards".toList = some "card0".toList ∧
      lm.get "gpu.intel.com/gpu-numbers".toList = some "0".toList ∧
      lm.get "gpu.intel.com/millicores".toList = some "1000".toList ∧
      lm.get "gpu.intel.com/tiles".toList = some "1".toList := by
  have hscan1 : (scan h).1 = ["card0".toList] := by rw [hscan]
  have hscan2 : (scan h).2 = none := by rw [hscan]
  have hpcioff : ∀ nums, createPCIGroupLabel h nums = [] := by
    intro nums
    simp [createPCIGroupLabel, hpci]
  obtain ⟨lm, hrun⟩ := createLabels_completes h ord newLabels hscan2 (hpcioff _)
  refine ⟨lm, hrun, ?_⟩
  obtain ⟨_, st, hloop, hfin⟩ := createLabels_ok h ord newLabels lm hrun
  rw [hscan1] at hloop hfin
  obtain ⟨hlist, _, hframe⟩ := deviceLoop_ok h ord _ _ _ hloop
  simp only [deviceLoop] at hloop
  obtain ⟨st1, hstep, hnil⟩ := (Result.bind_eq_ok _ _ _).mp hloop
  simp only [Result.ok.injEq] at hnil
  subst hnil
  obtain ⟨gpuNum, _, _, hlabels⟩ := deviceStep_ok h ord _ _ _ hstep
  have htc := deviceStep_tileCount h ord _ _ _ hstep
  have hcount : getTileCount h "card0".toList = 1 := by
    unfold getTileCount
    rw [if_pos htiles]
  have hamount : getMemoryAmount h "card0".toList 1 = 1073741824 := by
    have hparse : parseUint0 (trimSpace "1073741824".toList) = some 1073741824 := by decide
    simp only [getMemoryAmount, hmem, hparse, hreserved]
    decide
  rw [hcount] at htc hlabels
  rw [hamount] at hlabels
  have hnums : st1.gpuNumList = ["0".toList] := by rw [hlist]; decide
  have hpos : 0 < st1.gpuNumList.length := by rw [hnums]; decide
  have htcv : st1.tileCount = 1 := by rw [htc]; decide
  obtain ⟨cards, chunks, cards0, stored, hcards, hcards0, hsplit, hstored, hrest, _⟩ :=
    finishLabels_ok h _ st1 lm hfin hpos
  -- the chunks of the two lists
  have hc1 : split (stringsJoin ["card0".toList] ".".toList) labelMaxLength =
      some ["card0".toList] := by decide
  have hc2 : split (stringsJoin ["0".toList] ".".toList) labelMaxLength =
      some ["0".toList] := by decide
  rw [hc1, Option.some.injEq] at hcards
  subst hcards
  simp only [List.get?_cons_zero, Option.some.injEq] at hcards0
  subst hcards0
  rw [hnums, hc2, Option.some.injEq] at hsplit
  subst hsplit
  obtain ⟨lm1, hrun1, hget, _⟩ := storeChunks_ok gpuNumListLabelName ["0".toList]
    ((addNumericLabel st1.labels (labelNamespace ++ tilesLabelName) st1.tileCount).set
      (labelNamespace ++ gpuListLabelName) "card0".toList) (by decide)
  rw [hstored, Result.ok.injEq] at hrun1
  subst hrun1
  have habs : ∀ key, keyTag key ∉ deviceTags → st1.labels.get key = none := by
    intro key hkey
    rw [hframe key hkey]
    rfl
  refine ⟨?_, ?_, ?_, ?_, ?_⟩
  · -- memory.max
    have hk : "gpu.intel.com/memory.max".toList = labelNamespace ++ "memory.max".toList := by
      decide
    rw [hk, finishLabels_frame h _ st1 lm hfin _ (by decide), hlabels,
      addNumericLabel_get_absent _ _ _ (by
        rw [createCapabilityLabels_get_other h ord _ _ _ _ (by decide)]
        rfl)]
    decide
  · -- cards
    have hk : "gpu.intel.com/cards".toList = labelNamespace ++ gpuListLabelName := by decide
    rw [hk, hrest _ (by decide),
      storeChunks_frame gpuNumListLabelName ["0".toList] (by decide) _ _ _ hstored _
        (by decide),
      LabelMap.get_set_self]
  · -- gpu-numbers
    have hk : "gpu.intel.com/gpu-numbers".toList = chunkKey gpuNumListLabelName 0 := by decide
    rw [hk, hrest _ (by decide), hget 0 (by decide)]
    rfl
  · -- millicores
    have hk : "gpu.intel.com/millicores".toList = labelNamespace ++ millicoreLabelName := by
      decide
    rw [hk, finishLabels_millicores h _ st1 lm hfin hpos (habs _ (by decide)), hnums]
    decide
  · -- tiles
    have hk : "gpu.intel.com/tiles".toList = labelNamespace ++ tilesLabelName := by decide
    rw [hk, hrest _ (by decide),
      storeChunks_frame gpuNumListLabelName ["0".toList] (by decide) _ _ _ hstored _
        (by decide),
      LabelMap.get_set_of_ne _ _ _ _ (by decide),
      addNumericLabel_get_absent _ _ _ (habs _ (by decide)), htcv]
    decide

set_option maxRecDepth 100000 in
/-- C14 on `memoryHost []`, where nothing is reserved. -/
theorem createLabels_one_device_witness :
    scan (memoryHost []) = (["card0".toList], none) ∧
    createLabels (memoryHost []) sourceOrder newLabels = .ok
      [("gpu.intel.com/memory.max".toList, "1073741824".toList),
       ("gpu.intel.com/tiles".toList, "1".toList),
       ("gpu.intel.com/cards".toList, "card0".toList),
       ("gpu.intel.com/gpu-numbers".toList, "0".toList),
       ("gpu.intel.com/millicores".toList, "1000".toList)] ∧
    ∃ lm, createLabels (memoryHost []) sourceOrder newLabels = .ok lm ∧
      lm.get "gpu.intel.com/memory.max".toList = some "1073741824".toList ∧
      lm.get "gpu.intel.com/cards".toList = some "card0".toList ∧
      lm.get "gpu.intel.com/gpu-numbers".toList = some "0".toList ∧
      lm.get "gpu.intel.com/millicores".toList = some "1000".toList ∧
      lm.get "gpu.intel.com/tiles".toList = some "1".toList :=
  ⟨by decide, by decide,
    createLabels_one_device (memoryHost []) sourceOrder (by decide) (by decide) (by decide)
      (by decide) (by decide)⟩

/-! ## The value of a capability line -/

theorem colonSpace_isPrefixOf (s : Str) :
    (": ".toList).isPrefixOf s = true ↔ ∃ t, s = ':' :: ' ' :: t := by
  rw [List.isPrefixOf_iff_prefix]
  constructor
  · rintro ⟨t, rfl⟩
    exact ⟨t, rfl⟩
  · rintro ⟨t, rfl⟩
    exact ⟨t, rfl⟩

/-- A text without `": "` is a single field. -/
theorem splitFields_no_separator (s : Str) :
    ∀ (fuel : Nat) (cur : Str), s.length < fuel → ¬ (": ".toList <:+: s) →
      splitFields fuel ": ".toList cur s = [cur ++ s] := by
  induction s with
  | nil =>
    intro fuel cur h _
    cases fuel with
    | zero => omega
    | succ fuel => simp [splitFields]
  | cons c cs ih =>
    intro fuel cur h hno
    cases fuel with
    | zero => omega
    | succ fuel =>
      simp only [List.length_cons] at h
      have hpre : (": ".toList).isPrefixOf (c :: cs) = false := by
        cases hp : (": ".toList).isPrefixOf (c :: cs) with
        | false => rfl
        | true => exact absurd (List.isPrefixOf_iff_prefix.mp hp).isInfix hno
      have hrest : ¬ (": ".toList <:+: cs) := fun hin =>
        hno (List.infix_cons hin)
      simp only [splitFields, hpre, Bool.false_eq_true, if_false]
      rw [ih fuel (cur ++ [c]) (by omega) hrest]
      simp

/-- A text with `": "` after a part without it: the part ends the first field, and the fields
of what follows `": "` come next. -/
theorem splitFields_first_separator (a v : Str) (ha : ¬ (": ".toList <:+: a)) :
    ∀ (fuel : Nat) (cur : Str), (a ++ ": ".toList ++ v).length < fuel →
      ∃ fuel1, v.length < fuel1 ∧
        splitFields fuel ": ".toList cur (a ++ ": ".toList ++ v) =
          (cur ++ a) :: splitFields fuel1 ": ".toList [] v := by
  induction a with
  | nil =>
    intro fuel cur h
    cases fuel with
    | zero => omega
    | succ fuel =>
      have hlen : ([] ++ ": ".toList ++ v).length = v.length + 2 := by
        simp [List.length_append]
      refine ⟨fuel, by omega, ?_⟩
      have hpre : (": ".toList).isPrefixOf (':' :: ' ' :: v) = true :=
        (colonSpace_isPrefixOf _).mpr ⟨v, rfl⟩
      show splitFields (fuel + 1) ": ".toList cur (':' :: ' ' :: v) = _
      simp only [splitFields, hpre, if_true, List.append_nil]
      rfl
  | cons c cs ih =>
    intro fuel cur h
    cases fuel with
    | zero => omega
    | succ fuel =>
      have hrest : ¬ (": ".toList <:+: cs) := fun hin => ha (List.infix_cons hin)
      have hlen : ((c :: cs) ++ ": ".toList ++ v).length =
          (cs ++ ": ".toList ++ v).length + 1 := by simp [List.length_append]
      obtain ⟨fuel1, hf1, hrun⟩ := ih hrest fuel (cur ++ [c]) (by omega)
      refine ⟨fuel1, hf1, ?_⟩
      have hpre : (": ".toList).isPrefixOf (c :: (cs ++ ": ".toList ++ v)) = false := by
        cases hp : (": ".toList).isPrefixOf (c :: (cs ++ ": ".toList ++ v)) with
        | false => rfl
        | true =>
          obtain ⟨t, ht⟩ := (colonSpace_isPrefixOf _).mp hp
          simp only [List.cons.injEq] at ht
          obtain ⟨hc, ht⟩ := ht
          cases cs with
          | nil =>
            have : (':' :: ' ' :: v) = ' ' :: t := ht
            simp at this
          | cons d ds =>
            simp only [List.cons_append, List.cons.injEq] at ht
            exfalso
            apply ha
            rw [hc, ht.1]
            have hpf : ": ".toList <+: ':' :: ' ' :: ds := ⟨ds, rfl⟩
            exact hpf.isInfix
      show splitFields (fuel + 1) ": ".toList cur (c :: (cs ++ ": ".toList ++ v)) = _
      simp only [splitFields, hpre, Bool.false_eq_true, if_false]
      rw [hrun]
      simp

/-- A line with exactly one `": "` has the part after it for value. -/
theorem lineValue_of_one_separator (a v : Str) (ha : ¬ (": ".toList <:+: a))
    (hv : ¬ (": ".toList <:+: v)) : lineValue (a ++ ": ".toList ++ v) = some v := by
  have hsep : ¬ (": ".toList = ([] : Str)) := by decide
  obtain ⟨fuel1, hf1, hrun⟩ := splitFields_first_separator a v ha
    ((a ++ ": ".toList ++ v).length + 1) [] (Nat.lt_succ_self _)
  unfold lineValue stringsSplit
  rw [if_neg hsep, hrun, splitFields_no_separator v fuel1 [] hf1 hv]
  rfl

/-- While no line begins with the search string of a key still searched for, the `scanning`
loop goes on and the key stays searched for. -/
theorem capScan_before_first (ord : RangeOrder) (gpuNum : Str) (numTiles : Nat)
    (key : CapKey) (tail : List Str) :
    ∀ (front : List Str) (i : Nat) (st : CapState), st.pending.Nodup → key ∈ st.pending →
      (∀ l ∈ front, hasPrefix l key.searchString = false) →
      capScan ord gpuNum numTiles i (front ++ tail) st =
        capScan ord gpuNum numTiles (i + front.length) tail
          (capScan ord gpuNum numTiles i front st) ∧
      key ∈ (capScan ord gpuNum numTiles i front st).pending ∧
      (capScan ord gpuNum numTiles i front st).pending.Nodup := by
  intro front
  induction front with
  | nil =>
    intro i st hnd hmem _
    exact ⟨rfl, hmem, hnd⟩
  | cons line rest ih =>
    intro i st hnd hmem hfront
    have hno : hasPrefix line key.searchString = false :=
      hfront line (List.mem_cons_self line rest)
    have hrest : ∀ l ∈ rest, hasPrefix l key.searchString = false :=
      fun l hl => hfront l (List.mem_cons_of_mem line hl)
    have hline := capLine_eq (ord.visit gpuNum i) numTiles line st (ord.perm gpuNum i st.pending)
    have hidx : i + (line :: rest).length = i + 1 + rest.length := by
      simp only [List.length_cons]; omega
    cases hf : st.pending.find? (fun k => hasPrefix line k.searchString) with
    | none =>
      rw [hf] at hline
      simp only [List.cons_append, capScan, hline, hidx]
      exact ih (i + 1) st hnd hmem hrest
    | some k =>
      rw [hf] at hline
      obtain ⟨hkmem, hkpre⟩ := (find_matching_iff line st.pending k).mp hf
      have hkk : k ≠ key := by
        intro e
        rw [e, hno] at hkpre
        exact Bool.false_ne_true hkpre
      have hp1 : (capApply numTiles k line st).pending = st.pending := by
        unfold capApply
        cases lineValue line with
        | none => rfl
        | some value => exact capAction_pending numTiles k value st
      have hmem2 : key ∈ (capApply numTiles k line st).pending.erase k := by
        rw [hp1]
        exact (List.mem_erase_of_ne (fun e => hkk e.symm)).mpr hmem
      have hstop : ¬ (((capApply numTiles k line st).pending.erase k).length = 0) := by
        intro e
        rw [List.length_eq_zero.mp e] at hmem2
        simp at hmem2
      simp only [List.cons_append, capScan, hline, hstop, decide_False, hidx]
      exact ih (i + 1) _ (by rw [hp1]; exact hnd.erase k) hmem2 hrest

/-- A text that contains `": "` splits at its first occurrence. -/
theorem first_colonSpace (s : Str) (h : ": ".toList <:+: s) :
    ∃ a v, s = a ++ ": ".toList ++ v ∧ ¬ (": ".toList <:+: a) := by
  induction s with
  | nil =>
    exfalso
    revert h
    decide
  | cons c cs ih =>
    cases hp : (": ".toList).isPrefixOf (c :: cs) with
    | true =>
      obtain ⟨t, ht⟩ := (colonSpace_isPrefixOf _).mp hp
      exact ⟨[], t, by rw [ht]; rfl, by decide⟩
    | false =>
      have hnp : ¬ (": ".toList <+: c :: cs) := by
        intro hpre
        rw [← List.isPrefixOf_iff_prefix, hp] at hpre
        exact Bool.false_ne_true hpre
      have hin : ": ".toList <:+: cs := by
        rcases List.infix_cons_iff.mp h with hpre | hin
        · exact absurd hpre hnp
        · exact hin
      obtain ⟨a, v, hs, ha⟩ := ih hin
      refine ⟨c :: a, v, by rw [hs]; rfl, ?_⟩
      intro hca
      rcases List.infix_cons_iff.mp hca with hpre | hin2
      · obtain ⟨t, ht⟩ := hpre
        apply hnp
        refine ⟨t ++ ": ".toList ++ v, ?_⟩
        rw [hs, ← List.cons_append, ← List.cons_append, ← ht]
        simp only [List.append_assoc]
      · exact ha hin2

/-- The loop of `strings.Split` gives at least one field. -/
theorem splitFields_length_pos (sep : Str) :
    ∀ (fuel : Nat) (cur s : Str), 0 < (splitFields fuel sep cur s).length := by
  intro fuel
  induction fuel with
  | zero => intro cur s; simp [splitFields]
  | succ fuel ih =>
    intro cur s
    cases s with
    | nil => simp [splitFields]
    | cons c cs =>
      simp only [splitFields]
      by_cases hp : sep.isPrefixOf (c :: cs) = true
      · rw [if_pos hp]
        simp
      · rw [if_neg hp]
        exact ih _ _

/-- A line without `": "` is one field. -/
theorem stringsSplit_no_separator (line : Str) (hno : ¬ (": ".toList <:+: line)) :
    stringsSplit line ": ".toList = [line] := by
  have hsep : ¬ (": ".toList = ([] : Str)) := by decide
  unfold stringsSplit
  rw [if_neg hsep, splitFields_no_separator line (line.length + 1) [] (Nat.lt_succ_self _) hno]
  rfl

/-- A line with `": "` after its first `": "` has three fields or more. -/
theorem stringsSplit_two_separators (a v : Str) (ha : ¬ (": ".toList <:+: a))
    (hv : ": ".toList <:+: v) :
    3 ≤ (stringsSplit (a ++ ": ".toList ++ v) ": ".toList).length := by
  have hsep : ¬ (": ".toList = ([] : Str)) := by decide
  obtain ⟨b, w, hvw, hb⟩ := first_colonSpace v hv
  obtain ⟨fuel1, hf1, hrun⟩ := splitFields_first_separator a v ha
    ((a ++ ": ".toList ++ v).length + 1) [] (Nat.lt_succ_self _)
  have hf2 : (b ++ ": ".toList ++ w).length < fuel1 := by rw [← hvw]; exact hf1
  obtain ⟨fuel2, _, hrun2⟩ := splitFields_first_separator b w hb fuel1 [] hf2
  have hpos := splitFields_length_pos ": ".toList fuel2 [] w
  unfold stringsSplit
  rw [if_neg hsep, hrun, hvw, hrun2]
  simp only [List.length_cons]
  omega

/-- A line that `": "` does not split into exactly two fields has no value. -/
theorem lineValue_of_length_ne_two (line : Str)
    (h : (stringsSplit line ": ".toList).length ≠ 2) : lineValue line = none := by
  unfold lineValue
  generalize stringsSplit line ": ".toList = fields at h
  match fields, h with
  | [], _ => rfl
  | [_], _ => rfl
  | [_, _], h => exact absurd rfl h
  | _ :: _ :: _ :: _, _ => rfl

/-- The `scanning` loop at the first line that begins with the search string of `key`: the
action is applied as `capApply` says, the key is taken out of the search, and the loop is left
if no key remains. -/
theorem capScan_at_first (ord : RangeOrder) (gpuNum : Str) (numTiles : Nat) (key : CapKey)
    (front tail : List Str) (line : Str) (labels : LabelMap)
    (hfront : ∀ l ∈ front, hasPrefix l key.searchString = false)
    (hline : hasPrefix line key.searchString = true) :
    key ∈ (capScan ord gpuNum numTiles 0 front (capInit labels)).pending ∧
    (capScan ord gpuNum numTiles 0 front (capInit labels)).pending.Nodup ∧
    capScan ord gpuNum numTiles 0 (front ++ line :: tail) (capInit labels) =
      if ((capScan ord gpuNum numTiles 0 front (capInit labels)).pending.erase key).length = 0
      then
        { capApply numTiles key line (capScan ord gpuNum numTiles 0 front (capInit labels)) with
          pending := (capScan ord gpuNum numTiles 0 front (capInit labels)).pending.erase key }
      else
        capScan ord gpuNum numTiles (front.length + 1) tail
          { capApply numTiles key line
              (capScan ord gpuNum numTiles 0 front (capInit labels)) with
            pending :=
              (capScan ord gpuNum numTiles 0 front (capInit labels)).pending.erase key } := by
  obtain ⟨hrun, hmem, hnd⟩ := capScan_before_first ord gpuNum numTiles key (line :: tail)
    front 0 (capInit labels) (capInit_nodup labels) (mem_capInit labels key) hfront
  have hcap := capLine_of_pending (ord.visit gpuNum (0 + front.length)) numTiles line
    (capScan ord gpuNum numTiles 0 front (capInit labels)) key (ord.perm _ _ _) hmem hline
  rw [Nat.zero_add] at hrun hcap
  refine ⟨hmem, hnd, ?_⟩
  rw [hrun]
  simp only [capScan, hcap]
  by_cases hstop :
      ((capScan ord gpuNum numTiles 0 front (capInit labels)).pending.erase key).length = 0
  · simp only [hstop, decide_True, if_true]
  · simp only [hstop, decide_False, if_false]

/-- C18 (amended): let a capability line begin with one of the four search strings and be the
first line of the file that does; `front` and `tail` are the lines before and after it, and
`st` is the state of the `scanning` loop after `front`. The search string is then still
searched for, and the line takes it out of the search in every case. The line either has no
`": "` or splits at its first `": "`. If `": "` occurs exactly once, `strings.Split` gives two
fields and the action of the search string is applied to the part after `": "`. If `": "`
occurs again after its first occurrence, `strings.Split` gives three fields or more and no
action is applied: the state keeps its labels and captured strings. If `": "` does not occur,
`strings.Split` gives one field and no action is applied either. In each case the loop is left
if no search string remains, and goes on with `tail` otherwise. -/
theorem capScan_first_line (ord : RangeOrder) (gpuNum : Str) (numTiles : Nat) (key : CapKey)
    (front tail : List Str) (line : Str) (labels : LabelMap) (st : CapState)
    (hst : st = capScan ord gpuNum numTiles 0 front (capInit labels))
    (hfront : ∀ l ∈ front, hasPrefix l key.searchString = false)
    (hline : hasPrefix line key.searchString = true) :
    key ∈ st.pending ∧ key ∉ st.pending.erase key ∧
    (¬ (": ".toList <:+: line) ∨
      ∃ a v, line = a ++ ": ".toList ++ v ∧ ¬ (": ".toList <:+: a)) ∧
    (∀ a v, line = a ++ ": ".toList ++ v → ¬ (": ".toList <:+: a) →
      ¬ (": ".toList <:+: v) →
      stringsSplit line ": ".toList = [a, v] ∧
      capScan ord gpuNum numTiles 0 (front ++ line :: tail) (capInit labels) =
        if (st.pending.erase key).length = 0 then
          { capAction numTiles key v st with pending := st.pending.erase key }
        else
          capScan ord gpuNum numTiles (front.length + 1) tail
            { capAction numTiles key v st with pending := st.pending.erase key }) ∧
    (∀ a v, line = a ++ ": ".toList ++ v → ¬ (": ".toList <:+: a) →
      ": ".toList <:+: v →
      3 ≤ (stringsSplit line ": ".toList).length ∧
      capScan ord gpuNum numTiles 0 (front ++ line :: tail) (capInit labels) =
        if (st.pending.erase key).length = 0 then
          { st with pending := st.pending.erase key }
        else
          capScan ord gpuNum numTiles (front.length + 1) tail
            { st with pending := st.pending.erase key }) ∧
    (¬ (": ".toList <:+: line) →
      stringsSplit line ": ".toList = [line] ∧
      capScan ord gpuNum numTiles 0 (front ++ line :: tail) (capInit labels) =
        if (st.pending.erase key).length = 0 then
          { st with pending := st.pending.erase key }
        else
          capScan ord gpuNum numTiles (front.length + 1) tail
            { st with pending := st.pending.erase key }) := by
  subst hst
  obtain ⟨hmem, hnd, hrun⟩ :=
    capScan_at_first ord gpuNum numTiles key front tail line labels hfront hline
  have hsep : ¬ (": ".toList = ([] : Str)) := by decide
  refine ⟨hmem, fun hm => ((List.Nodup.mem_erase_iff hnd).mp hm).1 rfl, ?_, ?_, ?_, ?_⟩
  · by_cases hin : ": ".toList <:+: line
    · exact Or.inr (first_colonSpace line hin)
    · exact Or.inl hin
  · intro a v hsplit ha hv
    have hval : lineValue line = some v := by
      rw [hsplit]; exact lineValue_of_one_separator a v ha hv
    constructor
    · obtain ⟨fuel1, hf1, hfields⟩ := splitFields_first_separator a v ha
        ((a ++ ": ".toList ++ v).length + 1) [] (Nat.lt_succ_self _)
      rw [hsplit]
      unfold stringsSplit
      rw [if_neg hsep, hfields, splitFields_no_separator v fuel1 [] hf1 hv]
      rfl
    · rw [hrun]
      simp only [capApply, hval]
  · intro a v hsplit ha hv
    have hlen : 3 ≤ (stringsSplit line ": ".toList).length := by
      rw [hsplit]; exact stringsSplit_two_separators a v ha hv
    have hval : lineValue line = none := lineValue_of_length_ne_two line (by omega)
    refine ⟨hlen, ?_⟩
    rw [hrun]
    simp only [capApply, hval]
  · intro hno
    have hfields := stringsSplit_no_separator line hno
    have hval : lineValue line = none :=
      lineValue_of_length_ne_two line (by rw [hfields]; simp)
    refine ⟨hfields, ?_⟩
    rw [hrun]
    simp only [capApply, hval]

set_option maxRecDepth 100000 in
/-- C18 (amended) on three capability files. In `platform: DG1`, `gen: 12` the line `gen: 12`
has `": "` once and `gen` is captured as `12`. In `gen: 12: 0`, `gen: 13` the line `gen: 12: 0`
has `": "` twice: no action is applied, and the later `gen: 13` is not looked at for `gen:`. In
`gen:12`, `gen: 13` the line `gen:12` has no `": "`, with the same outcome. -/
theorem capScan_first_line_witness :
    ((∀ l ∈ ["platform: DG1".toList], hasPrefix l CapKey.gen.searchString = false) ∧
      hasPrefix "gen: 12".toList CapKey.gen.searchString = true ∧
      "gen: 12".toList = "gen".toList ++ ": ".toList ++ "12".toList ∧
      ¬ (": ".toList <:+: "gen".toList) ∧ ¬ (": ".toList <:+: "12".toList) ∧
      stringsSplit "gen: 12".toList ": ".toList = ["gen".toList, "12".toList] ∧
      (capScan sourceOrder "0".toList 1 0 (["platform: DG1".toList] ++ "gen: 12".toList :: [])
        (capInit newLabels)).gen = "12".toList) ∧
    ((∀ l ∈ ([] : List Str), hasPrefix l CapKey.gen.searchString = false) ∧
      hasPrefix "gen: 12: 0".toList CapKey.gen.searchString = true ∧
      "gen: 12: 0".toList = "gen".toList ++ ": ".toList ++ "12: 0".toList ∧
      ¬ (": ".toList <:+: "gen".toList) ∧ ": ".toList <:+: "12: 0".toList ∧
      3 ≤ (stringsSplit "gen: 12: 0".toList ": ".toList).length ∧
      capScan sourceOrder "0".toList 1 0 ([] ++ "gen: 12: 0".toList :: ["gen: 13".toList])
        (capInit newLabels) =
        { capInit newLabels with pending := [.platform, .media, .graphics] }) ∧
    ((∀ l ∈ ([] : List Str), hasPrefix l CapKey.gen.searchString = false) ∧
      hasPrefix "gen:12".toList CapKey.gen.searchString = true ∧
      ¬ (": ".toList <:+: "gen:12".toList) ∧
      stringsSplit "gen:12".toList ": ".toList = ["gen:12".toList] ∧
      capScan sourceOrder "0".toList 1 0 ([] ++ "gen:12".toList :: ["gen: 13".toList])
        (capInit newLabels) =
        { capInit newLabels with pending := [.platform, .media, .graphics] }) :=
  have h1 := (capScan_first_line sourceOrder "0".toList 1 .gen ["platform: DG1".toList] []
    "gen: 12".toList newLabels _ rfl (by decide) (by decide)).2.2.2.1
    "gen".toList "12".toList (by decide) (by decide) (by decide)
  have h2 := (capScan_first_line sourceOrder "0".toList 1 .gen [] ["gen: 13".toList]
    "gen: 12: 0".toList newLabels _ rfl (by decide) (by decide)).2.2.2.2.1
    "gen".toList "12: 0".toList (by decide) (by decide) (by decide)
  have h3 := (capScan_first_line sourceOrder "0".toList 1 .gen [] ["gen: 13".toList]
    "gen:12".toList newLabels _ rfl (by decide) (by decide)).2.2.2.2.2 (by decide)
  ⟨⟨by decide, by decide, by decide, by decide, by decide, h1.1, by rw [h1.2]; decide⟩,
   ⟨by decide, by decide, by decide, by decide, by decide, h2.1, by rw [h2.2]; decide⟩,
   ⟨by decide, by decide, by decide, h3.1, by rw [h3.2]; decide⟩⟩

/-- C18 (counterexample): the capability line `gen: 12: 0` is the first line that begins with
`gen:`, and the part after its first `": "` is `12: 0`; `strings.Split` gives three fields, so
no action is applied: `platform_gen` stays absent instead of becoming `12: 0`. -/
theorem capScan_two_separators :
    hasPrefix "gen: 12: 0".toList CapKey.gen.searchString = true ∧
    stringsSplit "gen: 12: 0".toList ": ".toList = ["gen".toList, "12".toList, "0".toList] ∧
    lineValue "gen: 12: 0".toList = none ∧
    (capScan sourceOrder "0".toList 1 0 ["gen: 12: 0".toList] (capInit newLabels)).gen = [] ∧
    (capScan sourceOrder "0".toList 1 0 ["gen: 12: 0".toList] (capInit newLabels)).labels =
      [] ∧
    (capAction 1 .gen "12: 0".toList (capInit newLabels)).labels =
      [("gpu.intel.com/platform_gen".toList, "12: 0".toList)] ∧
    createCapabilityLabels (capHost ["gen: 12: 0".toList]) sourceOrder newLabels "0".toList 1 =
      [] := by
  decide

/-! ## Runs that fail -/

theorem storeRestRun_toResult (name : Str) (chunks : List Str) :
    ∀ (todo i : Nat) (labels : LabelMap),
      (storeRestRun name chunks todo i labels).toResult = storeRest name chunks todo i labels := by
  intro todo
  induction todo with
  | zero => intro i labels; rfl
  | succ todo ih =>
    intro i labels
    simp only [storeRestRun, storeRest, index]
    cases chunks.get? i with
    | none => rfl
    | some chunk => exact ih (i + 1) _

theorem storeChunksRun_toResult (name : Str) (chunks : List Str) (bound : Nat)
    (labels : LabelMap) :
    (storeChunksRun name chunks bound labels).toResult =
      storeChunks name chunks bound labels := by
  simp only [storeChunksRun, storeChunks, index]
  cases chunks.get? 0 with
  | none => rfl
  | some first => exact storeRestRun_toResult name chunks _ _ _

theorem Run.andThen_toResult (r : Run) (next : LabelMap → Run) :
    (r.andThen next).toResult = r.toResult.bind (fun lm => (next lm).toResult) := by
  obtain ⟨lm, e⟩ := r
  cases e <;> rfl

theorem deviceLoopRun_toResult (h : Host) (ord : RangeOrder) :
    ∀ (names : List Str) (st : LoopState),
      deviceLoop h ord names st =
        match deviceLoopRun h ord names st with
        | (st1, none) => .ok st1
        | (_, some e) => .fail e := by
  intro names
  induction names with
  | nil => intro st; rfl
  | cons name rest ih =>
    intro st
    simp only [deviceLoop, deviceLoopRun]
    cases deviceStep h ord name st with
    | ok st1 => exact ih st1
    | fail e => rfl

theorem numaLabelsRun_toResult (st : LoopState) (labels : LabelMap) :
    (numaLabelsRun st labels).toResult =
      if 0 < st.numaMapping.length then
        (splitResult (createNumaNodeMappingLabel st.numaMapping) labelMaxLength).bind
          fun chunks => storeChunks numaMappingName chunks chunks.length labels
      else .ok labels := by
  unfold numaLabelsRun
  by_cases hpos : 0 < st.numaMapping.length
  · rw [if_pos hpos, if_pos hpos]
    simp only [splitResult]
    cases split (createNumaNodeMappingLabel st.numaMapping) labelMaxLength with
    | none => rfl
    | some chunks => exact storeChunksRun_toResult _ _ _ _
  · rw [if_neg hpos, if_neg hpos]
    rfl

theorem pciLabelsRun_toResult (h : Host) (st : LoopState) (bound : Nat) (labels : LabelMap) :
    (pciLabelsRun h st bound labels).toResult =
      if createPCIGroupLabel h st.gpuNumList ≠ [] then
        (splitResult (createPCIGroupLabel h st.gpuNumList) labelMaxLength).bind
          fun chunks => storeChunks pciGroupLabelName chunks bound
            (addNumericLabel labels (labelNamespace ++ millicoreLabelName)
              (wrapInt64 (Int.ofNat (millicoresPerGPU * st.gpuNumList.length))))
      else .ok (addNumericLabel labels (labelNamespace ++ millicoreLabelName)
        (wrapInt64 (Int.ofNat (millicoresPerGPU * st.gpuNumList.length)))) := by
  simp only [pciLabelsRun]
  by_cases hpci : createPCIGroupLabel h st.gpuNumList ≠ []
  · rw [if_pos hpci, if_pos hpci]
    simp only [splitResult]
    cases split (createPCIGroupLabel h st.gpuNumList) labelMaxLength with
    | none => rfl
    | some chunks => exact storeChunksRun_toResult _ _ _ _
  · rw [if_neg hpci, if_neg hpci]
    rfl

theorem finishLabelsRun_toResult (h : Host) (gpuNameList : List Str) (st : LoopState) :
    (finishLabelsRun h gpuNameList st).toResult = finishLabels h gpuNameList st := by
  simp only [finishLabelsRun, finishLabels]
  by_cases hpos : 0 < st.gpuNumList.length
  · rw [if_pos hpos, if_pos hpos]
    simp only [splitResult, index]
    cases split (stringsJoin gpuNameList ".".toList) labelMaxLength with
    | none => rfl
    | some cards =>
      dsimp only [Result.bind]
      cases cards.get? 0 with
      | none => rfl
      | some cards0 =>
        dsimp only [Result.bind]
        cases split (stringsJoin st.gpuNumList ".".toList) labelMaxLength with
        | none => rfl
        | some gpuNumLists =>
          dsimp only [Result.bind]
          rw [Run.andThen_toResult, Run.andThen_toResult, storeChunksRun_toResult]
          simp only [numaLabelsRun_toResult, pciLabelsRun_toResult, splitResult]
          cases storeChunks gpuNumListLabelName gpuNumLists gpuNumLists.length
            ((addNumericLabel st.labels (labelNamespace ++ tilesLabelName) st.tileCount).set
              (labelNamespace ++ gpuListLabelName) cards0) with
          | fail e => rfl
          | ok stored => rfl
  · rw [if_neg hpos, if_neg hpos]
    rfl

/-- The two descriptions of `createLabels` agree on the outcome. -/
theorem createLabelsRun_toResult (h : Host) (ord : RangeOrder) (labels : LabelMap) :
    (createLabelsRun h ord labels).toResult = createLabels h ord labels := by
  simp only [createLabelsRun, createLabels]
  cases scan h with
  | mk names err =>
    cases err with
    | some e => rfl
    | none =>
      simp only
      rw [deviceLoopRun_toResult]
      cases deviceLoopRun h ord names
        { gpuNumList := [], tileCount := 0, numaMapping := [], labels := labels } with
      | mk st e =>
        cases e with
        | some e => rfl
        | none => exact finishLabelsRun_toResult h names st

theorem Result.bind_eq_fail {α β : Type} (r : Result α) (f : α → Result β) (e : Failure) :
    r.bind f = .fail e ↔ r = .fail e ∨ ∃ a, r = .ok a ∧ f a = .fail e := by
  cases r with
  | ok a => simp [Result.bind]
  | fail e1 => simp [Result.bind]

theorem index_fail {α : Type} (xs : List α) (i : Nat) (e : Failure)
    (hrun : index xs i = .fail e) : e = .indexOutOfRange := by
  unfold index at hrun
  cases h : xs.get? i with
  | none =>
    rw [h] at hrun
    simp only [Result.fail.injEq] at hrun
    exact hrun.symm
  | some x =>
    rw [h] at hrun
    simp at hrun

theorem splitResult_ne_fail (str : Str) (e : Failure) :
    splitResult str labelMaxLength ≠ .fail e := by
  obtain ⟨chunks, hsplit⟩ := split_returns str
  simp [splitResult, hsplit]

theorem storeRest_fail (name : Str) (chunks : List Str) :
    ∀ (todo i : Nat) (labels : LabelMap) (e : Failure),
      storeRest name chunks todo i labels = .fail e → e = .indexOutOfRange := by
  intro todo
  induction todo with
  | zero => intro i labels e hrun; simp [storeRest] at hrun
  | succ todo ih =>
    intro i labels e hrun
    simp only [storeRest] at hrun
    rcases (Result.bind_eq_fail _ _ _).mp hrun with hidx | ⟨chunk, _, hrest⟩
    · exact index_fail _ _ _ hidx
    · exact ih _ _ _ hrest

theorem storeChunks_fail (name : Str) (chunks : List Str) (bound : Nat) (labels : LabelMap)
    (e : Failure) (hrun : storeChunks name chunks bound labels = .fail e) :
    e = .indexOutOfRange := by
  unfold storeChunks at hrun
  rcases (Result.bind_eq_fail _ _ _).mp hrun with hidx | ⟨first, _, hrest⟩
  · exact index_fail _ _ _ hidx
  · exact storeRest_fail _ _ _ _ _ _ hrest

theorem splitStore_fail (name : Str) (str : Str) (bound : List Str → Nat) (labels : LabelMap)
    (e : Failure)
    (hrun : (splitResult str labelMaxLength).bind
      (fun chunks => storeChunks name chunks (bound chunks) labels) = .fail e) :
    e = .indexOutOfRange := by
  rcases (Result.bind_eq_fail _ _ _).mp hrun with hs | ⟨chunks, _, hst⟩
  · exact absurd hs (splitResult_ne_fail _ _)
  · exact storeChunks_fail _ _ _ _ _ hst

/-- The statements after the device loop fail only by an index out of range. -/
theorem finishLabels_fail (h : Host) (gpuNameList : List Str) (st : LoopState) (e : Failure)
    (hrun : finishLabels h gpuNameList st = .fail e) : e = .indexOutOfRange := by
  by_cases hpos : 0 < st.gpuNumList.length
  · simp only [finishLabels, hpos, if_true] at hrun
    rcases (Result.bind_eq_fail _ _ _).mp hrun with hs | ⟨cards, _, hrun⟩
    · exact absurd hs (splitResult_ne_fail _ _)
    rcases (Result.bind_eq_fail _ _ _).mp hrun with hs | ⟨cards0, _, hrun⟩
    · exact index_fail _ _ _ hs
    rcases (Result.bind_eq_fail _ _ _).mp hrun with hs | ⟨gpuNumLists, _, hrun⟩
    · exact absurd hs (splitResult_ne_fail _ _)
    rcases (Result.bind_eq_fail _ _ _).mp hrun with hs | ⟨stored, _, hrun⟩
    · exact storeChunks_fail _ _ _ _ _ hs
    rcases (Result.bind_eq_fail _ _ _).mp hrun with hs | ⟨numa, _, hrun⟩
    · split_ifs at hs
      exact splitStore_fail numaMappingName _ (fun chunks => chunks.length) _ _ hs
    · split_ifs at hrun
      exact splitStore_fail pciGroupLabelName _ (fun _ => gpuNumLists.length) _ _ hrun
  · simp [finishLabels, hpos] at hrun

/-- The loop of `scan` fails when it comes to an entry that passes the name, vendor and SR-IOV
checks and whose DRM directory cannot be read. -/
theorem scanLoop_fails (h : Host) :
    ∀ (files acc : List Str),
      (∃ name ∈ files, candidate h name = true ∧ h.drmReadable name = false) →
      (scanLoop h files acc).2 = some .readDevice := by
  intro files
  induction files with
  | nil => intro acc ⟨name, hmem, _⟩; simp at hmem
  | cons first rest ih =>
    intro acc ⟨name, hmem, hc, hd⟩
    rw [scanLoop_cons]
    by_cases hfirst : candidate h first = true ∧ h.drmReadable first = false
    · simp [hfirst.1, hfirst.2]
    · have hrest : ∃ name ∈ rest, candidate h name = true ∧ h.drmReadable name = false := by
        rcases List.mem_cons.mp hmem with e | hm
        · exact absurd ⟨e ▸ hc, e ▸ hd⟩ hfirst
        · exact ⟨name, hm, hc, hd⟩
      split_ifs
      · exact ih _ hrest
      · exact ih _ hrest
      · rfl
      · exact ih _ hrest

/-- The loop of `scan` ends without error when every entry that passes the name, vendor and
SR-IOV checks has a readable DRM directory. -/
theorem scanLoop_succeeds (h : Host) :
    ∀ (files acc : List Str),
      (∀ name ∈ files, candidate h name = true → h.drmReadable name = true) →
      (scanLoop h files acc).2 = none := by
  intro files
  induction files with
  | nil => intro acc _; rfl
  | cons first rest ih =>
    intro acc hall
    have hrest : ∀ name ∈ rest, candidate h name = true → h.drmReadable name = true :=
      fun name hm => hall name (List.mem_cons_of_mem first hm)
    rw [scanLoop_cons]
    split_ifs with hc hd hf
    · exact ih _ hrest
    · exact ih _ hrest
    · exact absurd (hall first (List.mem_cons_self first rest) hc) hd
    · exact ih _ hrest

/-- C16 (amended): `scan` fails if and only if the directory cannot be listed or the DRM
directory of an entry that passes the name, vendor and SR-IOV checks cannot be read (the DRM
directory is read before the fatal-error check). When `scan` fails, `createLabels` fails with
the error of `scan` and the label map of the labeler is as before the call; `createLabels`
fails in no other way, an index out of range apart. -/
theorem createLabels_fails (h : Host) (ord : RangeOrder) (labels : LabelMap) :
    ((scan h).2 ≠ none ↔
      (h.readDir = none ∨ ∃ files, h.readDir = some files ∧
        ∃ name ∈ files, candidate h name = true ∧ h.drmReadable name = false)) ∧
    (∀ e, (scan h).2 = some e →
      createLabels h ord labels = .fail e ∧ createLabelsRun h ord labels = (labels, some e)) ∧
    (∀ e, createLabels h ord labels = .fail e → e ≠ .indexOutOfRange →
      (scan h).2 = some e) := by
  refine ⟨?_, ?_, ?_⟩
  · cases hdir : h.readDir with
    | none => simp [scan, hdir]
    | some files =>
      have hscan : scan h = scanLoop h files [] := by simp [scan, hdir]
      rw [hscan]
      constructor
      · intro hfail
        right
        refine ⟨files, rfl, ?_⟩
        by_contra hno
        apply hfail
        apply scanLoop_succeeds
        intro name hmem hc
        cases hd : h.drmReadable name with
        | true => rfl
        | false => exact absurd ⟨name, hmem, hc, hd⟩ hno
      · intro hex
        rcases hex with hex | ⟨files2, hf2, hex⟩
        · simp at hex
        · simp only [Option.some.injEq] at hf2
          subst hf2
          rw [scanLoop_fails h files [] hex]
          simp
  · intro e he
    cases hs : scan h with
    | mk names err =>
      rw [hs] at he
      simp only at he
      subst he
      simp [createLabels, createLabelsRun, hs]
  · intro e hrun hne
    unfold createLabels at hrun
    cases hs : scan h with
    | mk names err =>
      rw [hs] at hrun
      cases err with
      | some e1 =>
        simp only [Result.fail.injEq] at hrun
        rw [hrun]
      | none =>
        simp only at hrun
        have hnames : names = (scan h).1 := by rw [hs]
        obtain ⟨st, hloop⟩ := deviceLoop_of_match h ord names
          { gpuNumList := [], tileCount := 0, numaMapping := [], labels := labels }
          (fun n hn => scan_accepted h n (by rw [← hnames]; exact hn))
        rw [hloop] at hrun
        exact absurd (finishLabels_fail h names st e hrun) hne

/-- C16 (amended) on `faultyHost`: the scan fails at the unreadable DRM directory of `card0`
and the label map is as before. -/
theorem createLabels_fails_witness :
    (scan faultyHost).2 = some .readDevice ∧
    createLabels faultyHost sourceOrder twoTileLabels = .fail .readDevice ∧
    createLabelsRun faultyHost sourceOrder twoTileLabels = (twoTileLabels, some .readDevice) :=
  ⟨by decide,
    (createLabels_fails faultyHost sourceOrder twoTileLabels).2.1 .readDevice (by decide)⟩

/-- C16 (counterexample): on `faultyHost` the directory can be listed and no entry passes the
name, vendor, SR-IOV and fatal-error checks (`card0` reports a fatal error), so no accepted
device has an unreadable DRM directory; yet `scan` and `createLabels` fail, because the DRM
directory of `card0` is read before its fatal errors are counted. -/
theorem scan_fails_before_fatal_check :
    faultyHost.readDir = some ["card0".toList] ∧
    (∀ name ∈ ["card0".toList], accepted faultyHost name = false) ∧
    faultyHost.gpuFatalErrors "card0".toList = 1 ∧
    scan faultyHost = ([], some .readDevice) ∧
    createLabels faultyHost sourceOrder newLabels = .fail .readDevice := by
  decide

end GpuNfdHook
